import Mathlib

/-!
# Service node registry (`src/cryptonote_core/service_node_list.cpp`)

A shallow embedding of `service_nodes::service_node_list` and theorems about it.

Conventions of the embedding.

* Unsigned 64-bit quantities (`uint64_t`, `size_t`) are natural numbers; every addition and
  subtraction the source performs on them is reduced modulo `2^64` (`u64_add`, `u64_sub`).
* A function of the source that can read a vector out of range, dereference the begin iterator
  of an empty list or let `std::out_of_range` escape returns an `Option`; `none` stands for
  that outcome (undefined behaviour or an escaping exception), `some r` for a normal return.
* `std::unordered_map<crypto::public_key, service_node_info>` is a list of entries kept in
  traversal order.  Keys are unique (`infos_wf`).  The traversal order of an unordered map is
  implementation defined; statements that hold for every order quantify over the list.
* Everything the file calls but does not define (chain store, tx-extra parsers, key derivation,
  RingCT decoding, `std::shuffle`, the constants of the headers) is a field of `Constants`,
  `Externals` or `Blockchain`, or a field of the transaction that carries the parse result.
-/

namespace service_nodes

/-! ## Machine arithmetic -/

/-- Modulus of `uint64_t` and `size_t` arithmetic. -/
def U64 : Nat := 18446744073709551616

/-- Largest `uint64_t`, `std::numeric_limits<uint64_t>::max()`. -/
def UINT64_MAX : Nat := 18446744073709551615

/-- Largest `int`, `std::numeric_limits<int>::max()`. -/
def INT_MAX : Int := 2147483647

/-- Unsigned 64-bit addition. -/
def u64_add (a b : Nat) : Nat := (a + b) % U64

/-- Unsigned 64-bit subtraction (wraps around below zero). -/
def u64_sub (a b : Nat) : Nat := (a % U64 + (U64 - b % U64)) % U64

/-- Conversion of a `size_t` to `int` (two's complement truncation to 32 bits). -/
def size_t_to_int (n : Nat) : Int := ((n + 2147483648) % 4294967296 : Nat) - 2147483648

/-- Conversion of an `int` to `size_t` (value modulo `2^64`). -/
def int_to_size_t (i : Int) : Nat := (i % (U64 : Int)).toNat

/-! ## Keys, hashes and the memcmp order -/

/-- The type `crypto::public_key`: 32 raw bytes. -/
structure public_key where
  data : List (Fin 256)
  size_eq : data.length = 32
deriving DecidableEq

/-- The type `crypto::hash`: 32 raw bytes. -/
structure hash where
  data : List (Fin 256)
  size_eq : data.length = 32
deriving DecidableEq

/-- The type `crypto::secret_key`, only handed to the external primitives. -/
structure secret_key where
  data : List (Fin 256)
deriving DecidableEq

/-- The type `crypto::key_derivation`, only handed to the external primitives. -/
structure key_derivation where
  data : List (Fin 256)
deriving DecidableEq

/-- The key `crypto::null_pkey`: all bytes zero. -/
def null_pkey : public_key := ⟨List.replicate 32 0, by decide⟩

/-- The hash `crypto::null_hash`: all bytes zero. -/
def null_hash : hash := ⟨List.replicate 32 0, by decide⟩

/-- C `memcmp` over the first `n` bytes of two buffers: the sign of the first difference,
bytes compared as unsigned chars. -/
def memcmp : List (Fin 256) → List (Fin 256) → Nat → Int
  | _, _, 0 => 0
  | a :: as, b :: bs, n + 1 =>
    if a.val < b.val then -1 else if b.val < a.val then 1 else memcmp as bs n
  | _, _, _ + 1 => 0

/-- The comparator passed to `std::sort` in `get_service_node_pubkeys`:
`memcmp(&a, &b, sizeof(a)) < 0`. -/
def pubkey_less (a b : public_key) : Bool := decide (memcmp a.data b.data 32 < 0)

/-! ## Data model -/

/-- The type `cryptonote::account_public_address`. -/
structure account_public_address where
  m_spend_public_key : public_key
  m_view_public_key : public_key
deriving DecidableEq

/-- The address `null_address` paid when there is no winner. -/
def null_address : account_public_address := ⟨null_pkey, null_pkey⟩

/-- The struct `service_node_info`. `block_height` is a `uint64_t`, `transaction_index`
an `int`, the shares are `uint32_t`. -/
structure service_node_info where
  block_height : Nat
  transaction_index : Int
  addresses : List account_public_address
  shares : List Nat
deriving DecidableEq

/-- The struct `quorum_state`. -/
structure quorum_state where
  quorum_nodes : List public_key
  nodes_to_test : List public_key
deriving DecidableEq

/-- The three subclasses of `rollback_event`, each with the `m_block_height` of the base. -/
inductive rollback_event where
  | rollback_change (m_block_height : Nat) (m_key : public_key) (m_info : service_node_info)
  | rollback_new (m_block_height : Nat) (m_key : public_key)
  | prevent_rollback (m_block_height : Nat)
deriving DecidableEq

/-- The member `rollback_event::m_block_height`. -/
def rollback_event.m_block_height : rollback_event → Nat
  | .rollback_change h _ _ => h
  | .rollback_new h _ => h
  | .prevent_rollback h => h

/-- The payload `cryptonote::tx_extra_service_node_register`; the three vectors are
serialised independently and need not have the same length. -/
structure tx_extra_service_node_register where
  m_public_spend_keys : List public_key
  m_public_view_keys : List public_key
  m_shares : List Nat
  m_service_node_key : public_key
deriving DecidableEq

/-- The payload `cryptonote::tx_extra_service_node_deregister` (the fields read here). -/
structure tx_extra_service_node_deregister where
  block_height : Nat
  service_node_index : Nat
deriving DecidableEq

/-- The field `tx.extra`, represented by what the tx-extra parsers (not in this file) return
on it: `get_service_node_register_from_tx_extra`, `get_tx_pub_key_from_extra`,
`get_service_node_deregister_from_tx_extra` and `get_service_node_winner_from_tx_extra`. -/
structure tx_extra where
  service_node_register : Option tx_extra_service_node_register
  tx_pub_key : public_key
  service_node_deregister : Option tx_extra_service_node_deregister
  service_node_winner : public_key
deriving DecidableEq

/-- The variant `txout_target_v`: either `txout_to_key` or one of the other alternatives. -/
inductive txout_target where
  | txout_to_key (key : public_key)
  | txout_other
deriving DecidableEq

/-- The struct `cryptonote::tx_out`. -/
structure tx_out where
  amount : Nat
  target : txout_target
deriving DecidableEq

/-- The values of `rct::rctSig::type`. -/
inductive RCTType where
  | RCTTypeNull
  | RCTTypeFull
  | RCTTypeSimple
  | RCTTypeFullBulletproof
  | RCTTypeSimpleBulletproof
  | RCTTypeUnknown (n : Nat)
deriving DecidableEq

/-- The struct `rct::rctSig`: its type tag and the remaining content, which only the external
decoding primitives look at. -/
structure rctSig where
  type : RCTType
  content : List Nat
deriving DecidableEq

/-- The class `cryptonote::transaction` (the members read by the registry). -/
structure transaction where
  version : Nat
  unlock_time : Nat
  vout : List tx_out
  extra : tx_extra
  rct_signatures : rctSig
deriving DecidableEq

/-- The struct `cryptonote::block`; `height` is what `cryptonote::get_block_height` extracts
from the miner transaction. -/
structure block where
  height : Nat
  miner_tx : transaction
  tx_hashes : List hash
deriving DecidableEq

/-- The helper `cryptonote::get_block_height`. -/
def get_block_height (b : block) : Nat := b.height

/-- The constant `cryptonote::transaction::version_3_deregister_tx`. -/
def version_3_deregister_tx : Nat := 3

/-- Constants of the headers that are used by the file but defined elsewhere. -/
structure Constants where
  STAKING_REQUIREMENT_LOCK_BLOCKS : Nat
  STAKING_RELOCK_WINDOW_BLOCKS : Nat
  STAKING_SHARES : Nat
  CRYPTONOTE_MAX_BLOCK_NUMBER : Nat
  ROLLBACK_EVENT_EXPIRATION_BLOCKS : Nat
  DEREGISTER_LIFETIME_BY_HEIGHT : Nat
  QUORUM_SIZE : Nat
  MIN_NODES_TO_TEST : Nat
  NTH_OF_THE_NETWORK_TO_TEST : Nat

/-- Functions the file calls and that are defined elsewhere in the tree or in the standard
library. `generate_key_derivation` and `derive_public_key` return their `bool` result next to
the value left in the output parameter; the decoders return `none` when they throw. -/
structure Externals where
  get_deterministic_keypair_from_height : Nat → public_key × secret_key
  generate_key_derivation : public_key → secret_key → Bool × key_derivation
  derive_public_key : key_derivation → Nat → public_key → Bool × public_key
  derivation_to_scalar : key_derivation → Nat → secret_key
  decodeRctSimple : rctSig → secret_key → Nat → Option Nat
  decodeRct : rctSig → secret_key → Nat → Option Nat
  get_service_node_reward : Nat → Nat → Int → Nat
  get_share_of_reward : Nat → Nat → Nat
  shuffle : Nat → List Nat → List Nat

/-- The chain store `m_blockchain`, as the registry reads it. `get_blocks` and
`get_transactions` return `none` when the source functions return `false`. -/
structure Blockchain where
  get_current_blockchain_height : Nat
  get_hard_fork_version : Nat → Int
  get_staking_requirement : Nat → Nat
  get_blocks : Nat → Nat → Option (List block)
  get_transactions : List hash → Option (List transaction)
  get_block_id_by_height : Nat → hash

/-- The map `m_service_nodes_infos`, entries in traversal order. -/
abbrev infos_map := List (public_key × service_node_info)

/-- The members of `service_node_list`: the active set, the rollback journal (a `std::list`,
front first) and the quorum cache (a `std::map`, ascending heights). -/
structure service_node_list where
  m_service_nodes_infos : infos_map
  m_rollback_events : List rollback_event
  m_quorum_states : List (Nat × quorum_state)
deriving DecidableEq

/-! ## The unordered map -/

/-- The lookup `m_service_nodes_infos.find(k)`: the info stored under `k`, if any. -/
def infos_find : infos_map → public_key → Option service_node_info
  | [], _ => none
  | (k', v) :: rest, k => if k' = k then some v else infos_find rest k

/-- The call `m_service_nodes_infos.erase(it)` for the iterator found for `k`. Keys of an
unordered map are unique, so this drops every entry stored under `k`; the other entries keep
their relative order. -/
def infos_erase : infos_map → public_key → infos_map
  | [], _ => []
  | (k', v) :: rest, k => if k' = k then infos_erase rest k else (k', v) :: infos_erase rest k

/-- Overwrites the value of an existing key in place. -/
def infos_replace : infos_map → public_key → service_node_info → infos_map
  | [], _, _ => []
  | (k', v') :: rest, k, v =>
    if k' = k then (k', v) :: rest else (k', v') :: infos_replace rest k v

/-- The assignment `m_service_nodes_infos[k] = v`: an existing entry is overwritten where it
is; a new key is put at the front of the list. Where the standard library links a new key,
and how a rehash reorders the entries, is implementation defined, so the position of a new
key in the list need not be its position in the traversal of the source. The position does
not change the map (`infos_assign_any_position`). The statements on the traversal order take
the traversed list as their input; the others are on the map (lookups, `infos_equiv`,
`List.Perm`) or on sets with a single entry. -/
def infos_assign (m : infos_map) (k : public_key) (v : service_node_info) : infos_map :=
  if (infos_find m k).isSome then infos_replace m k v else (k, v) :: m

/-- Keys of the map in traversal order. -/
def infos_keys (m : infos_map) : List public_key := m.map Prod.fst

/-- Uniqueness of the keys of the unordered map. -/
def infos_wf (m : infos_map) : Prop := (infos_keys m).Nodup

instance infos_wf_decidable (m : infos_map) : Decidable (infos_wf m) := by
  unfold infos_wf
  infer_instance

/-! ## Accessors -/

/-- The `std::sort` call of `get_service_node_pubkeys`. The comparator is a strict total order
on keys, so the sorted vector does not depend on the sorting algorithm; it is computed here by
insertion. -/
def sort_pubkeys (l : List public_key) : List public_key :=
  l.insertionSort (fun a b => pubkey_less a b = true)

/-- The method `service_node_list::get_service_node_pubkeys`. -/
def get_service_node_pubkeys (m : infos_map) : List public_key :=
  sort_pubkeys (infos_keys m)

/-- The lookup `m_quorum_states.find(height)`. -/
def quorum_find : List (Nat × quorum_state) → Nat → Option quorum_state
  | [], _ => none
  | (h', q) :: rest, h => if h' = h then some q else quorum_find rest h

/-- The method `service_node_list::get_quorum_state`: `none` is the empty `shared_ptr`. -/
def get_quorum_state (s : service_node_list) (height : Nat) : Option quorum_state :=
  quorum_find s.m_quorum_states height

/-- The method `service_node_list::is_service_node`. -/
def is_service_node (m : infos_map) (pubkey : public_key) : Bool :=
  (infos_find m pubkey).isSome

/-! ## Transaction classifier -/

/-- The method `service_node_list::reg_tx_has_correct_unlock_time`. -/
def reg_tx_has_correct_unlock_time (c : Constants) (tx : transaction) (block_height : Nat) :
    Bool :=
  decide (tx.unlock_time < c.CRYPTONOTE_MAX_BLOCK_NUMBER) &&
    decide (tx.unlock_time ≥ u64_add block_height c.STAKING_REQUIREMENT_LOCK_BLOCKS)

/-- The loop of `reg_tx_extract_fields` that pairs `m_public_spend_keys[i]` with
`m_public_view_keys[i]` for every index of the spend keys; `none` when the view keys are read
out of range. -/
def reg_tx_addresses : List public_key → List public_key →
    Option (List account_public_address)
  | [], _ => some []
  | _ :: _, [] => none
  | sk :: sks, vk :: vks =>
    match reg_tx_addresses sks vks with
    | none => none
    | some rest => some (⟨sk, vk⟩ :: rest)

/-- Output parameters and result of `reg_tx_extract_fields`. -/
structure reg_fields where
  result : Bool
  addresses : List account_public_address
  shares : List Nat
  service_node_key : public_key
  tx_pub_key : public_key
deriving DecidableEq

/-- The method `service_node_list::reg_tx_extract_fields`. -/
def reg_tx_extract_fields (tx : transaction) : Option reg_fields :=
  let extracted : Option (List account_public_address × List Nat × public_key) :=
    match tx.extra.service_node_register with
    | some registration =>
      match reg_tx_addresses registration.m_public_spend_keys
          registration.m_public_view_keys with
      | none => none
      | some addresses => some (addresses, registration.m_shares, registration.m_service_node_key)
    | none => some ([], [], null_pkey)
  match extracted with
  | none => none
  | some (addresses, shares, service_node_key) =>
    let tx_pub_key := tx.extra.tx_pub_key
    some ⟨!addresses.isEmpty && decide (tx_pub_key ≠ null_pkey) &&
            decide (service_node_key ≠ null_pkey) && !shares.isEmpty,
          addresses, shares, service_node_key, tx_pub_key⟩

/-- The method `service_node_list::get_reg_tx_staking_output_contribution`; `none` when
`tx.vout[i]` is out of range. A decoder that throws yields 0. -/
def get_reg_tx_staking_output_contribution (x : Externals) (tx : transaction) (i : Nat)
    (derivation : key_derivation) : Option Nat :=
  match tx.vout[i]? with
  | none => none
  | some out =>
    match out.target with
    | .txout_other => some 0
    | .txout_to_key _ =>
      let scalar1 := x.derivation_to_scalar derivation i
      match tx.rct_signatures.type with
      | .RCTTypeSimple => some ((x.decodeRctSimple tx.rct_signatures scalar1 i).getD 0)
      | .RCTTypeSimpleBulletproof =>
        some ((x.decodeRctSimple tx.rct_signatures scalar1 i).getD 0)
      | .RCTTypeFull => some ((x.decodeRct tx.rct_signatures scalar1 i).getD 0)
      | .RCTTypeFullBulletproof => some ((x.decodeRct tx.rct_signatures scalar1 i).getD 0)
      | _ => some 0

/-- The method `service_node_list::is_deregistration_tx`: `some key` for `true` with the
output parameter, `none` for `false`. -/
def is_deregistration_tx (s : service_node_list) (tx : transaction) : Option public_key :=
  if tx.version ≠ version_3_deregister_tx then none
  else
    match tx.extra.service_node_deregister with
    | none => none
    | some deregister =>
      match get_quorum_state s deregister.block_height with
      | none => none
      | some state =>
        if deregister.service_node_index ≥ state.nodes_to_test.length then none
        else state.nodes_to_test[deregister.service_node_index]?

/-- The loop `total += service_node_shares[i]` of `is_registration_tx` on a `uint64_t`. -/
def shares_total (shares : List Nat) : Nat :=
  shares.foldl (fun total share => u64_add total share) 0

/-- The loop of `is_registration_tx` that accumulates `transferred` over the indexes of the
service node addresses, starting at index `i` with the running sum `transferred`. -/
def staking_transferred (x : Externals) (tx : transaction) (gov_sec : secret_key) :
    List account_public_address → Nat → Nat → Option Nat
  | [], _, transferred => some transferred
  | a :: rest, i, transferred =>
    let derivation := (x.generate_key_derivation a.m_view_public_key gov_sec).2
    match get_reg_tx_staking_output_contribution x tx i derivation with
    | none => none
    | some contribution => staking_transferred x tx gov_sec rest (i + 1)
        (u64_add transferred contribution)

/-- The method `service_node_list::is_registration_tx`. The outer `Option` is `none` on an
out-of-range read; the inner one is `some (key, info)` for `true` with the two output
parameters and `none` for `false`. -/
def is_registration_tx (c : Constants) (x : Externals) (bc : Blockchain) (m : infos_map)
    (tx : transaction) (block_height : Nat) (index : Int) :
    Option (Option (public_key × service_node_info)) :=
  if !reg_tx_has_correct_unlock_time c tx block_height then some none
  else
    match reg_tx_extract_fields tx with
    | none => none
    | some f =>
      if !f.result then some none
      else if shares_total f.shares > c.STAKING_SHARES then some none
      else if is_service_node m f.service_node_key then some none
      else
        let gov_key := x.get_deterministic_keypair_from_height 1
        if tx.vout.length < f.addresses.length then some none
        else
          match staking_transferred x tx gov_key.2 f.addresses 0 0 with
          | none => none
          | some transferred =>
            if transferred < bc.get_staking_requirement block_height then some none
            else some (some (f.service_node_key,
              { block_height := block_height, transaction_index := index,
                addresses := f.addresses, shares := f.shares }))

/-! ## Quorum derivation -/

/-- The `memcpy` of the first `sizeof(uint64_t)` bytes of the block hash into the seed, on a
little-endian host. -/
def seed_of_hash (block_hash : hash) : Nat :=
  (block_hash.data.take 8).foldr (fun b acc => b.val + 256 * acc) 0

/-- The two copy loops of `store_quorum_state_from_rewards_list`: for every position in the
list, `full_node_list[pub_keys_indexes[position]]`; `none` when either read is out of
range. -/
def read_nodes (full_node_list : List public_key) (pub_keys_indexes : List Nat) :
    List Nat → Option (List public_key)
  | [] => some []
  | p :: ps =>
    match pub_keys_indexes[p]? with
    | none => none
    | some node_index =>
      match full_node_list[node_index]? with
      | none => none
      | some key =>
        match read_nodes full_node_list pub_keys_indexes ps with
        | none => none
        | some rest => some (key :: rest)

/-- The assignment `m_quorum_states[height] = state` on the ordered map. -/
def quorum_assign : List (Nat × quorum_state) → Nat → quorum_state →
    List (Nat × quorum_state)
  | [], h, q => [(h, q)]
  | (h', q') :: rest, h, q =>
    if h < h' then (h, q) :: (h', q') :: rest
    else if h' = h then (h, q) :: rest
    else (h', q') :: quorum_assign rest h q

/-- The quorum state computed by `store_quorum_state_from_rewards_list` from the active set
and the block hash. -/
def derive_quorum_state (c : Constants) (x : Externals) (m : infos_map) (block_hash : hash) :
    Option quorum_state :=
  let full_node_list := get_service_node_pubkeys m
  let seed := seed_of_hash block_hash
  let pub_keys_indexes := x.shuffle seed (List.range full_node_list.length)
  let quorum_size := min full_node_list.length c.QUORUM_SIZE
  match read_nodes full_node_list pub_keys_indexes (List.range quorum_size) with
  | none => none
  | some quorum =>
    let num_remaining_nodes := u64_sub pub_keys_indexes.length quorum.length
    let num_nodes_to_test := max (num_remaining_nodes / c.NTH_OF_THE_NETWORK_TO_TEST)
      (min c.MIN_NODES_TO_TEST num_remaining_nodes)
    let pub_keys_offset := size_t_to_int quorum.length
    match read_nodes full_node_list pub_keys_indexes
        ((List.range num_nodes_to_test).map
          (fun (i : Nat) => int_to_size_t (pub_keys_offset + (i : Int)))) with
    | none => none
    | some nodes_to_test => some ⟨quorum, nodes_to_test⟩

/-- The method `service_node_list::store_quorum_state_from_rewards_list`. -/
def store_quorum_state_from_rewards_list (c : Constants) (x : Externals) (bc : Blockchain)
    (s : service_node_list) (height : Nat) : Option service_node_list :=
  let block_hash := bc.get_block_id_by_height height
  if block_hash = null_hash then some s
  else
    match derive_quorum_state c x s.m_service_nodes_infos block_hash with
    | none => none
    | some state =>
      some { s with m_quorum_states := quorum_assign s.m_quorum_states height state }

/-! ## Block ingest -/

/-- The loop of `get_expired_nodes` over the transactions of the historical block. -/
def get_expired_nodes_loop (c : Constants) (x : Externals) (bc : Blockchain) (m : infos_map)
    (expired_nodes_block_height : Nat) : List transaction → Int → Option (List public_key)
  | [], _ => some []
  | tx :: rest, index =>
    match is_registration_tx c x bc m tx expired_nodes_block_height index with
    | none => none
    | some r =>
      match get_expired_nodes_loop c x bc m expired_nodes_block_height rest (index + 1) with
      | none => none
      | some tail =>
        match r with
        | some (key, _) => some (key :: tail)
        | none => some tail

/-- The method `service_node_list::get_expired_nodes`; `none` when `blocks.begin()` is
dereferenced on an empty list or `is_registration_tx` reads out of range. -/
def get_expired_nodes (c : Constants) (x : Externals) (bc : Blockchain) (m : infos_map)
    (block_height : Nat) : Option (List public_key) :=
  if block_height < c.STAKING_REQUIREMENT_LOCK_BLOCKS + c.STAKING_RELOCK_WINDOW_BLOCKS then
    some []
  else
    let expired_nodes_block_height :=
      u64_sub (u64_sub block_height c.STAKING_REQUIREMENT_LOCK_BLOCKS)
        c.STAKING_RELOCK_WINDOW_BLOCKS
    match bc.get_blocks expired_nodes_block_height 1 with
    | none => some []
    | some blocks =>
      match blocks.head? with
      | none => none
      | some block =>
        match bc.get_transactions block.tx_hashes with
        | none => some []
        | some txs => get_expired_nodes_loop c x bc m expired_nodes_block_height txs 0

/-- The journal pruning loop at the head of `block_added_generic`. -/
def prune_rollback_events (c : Constants) (events : List rollback_event) (block_height : Nat) :
    List rollback_event :=
  events.dropWhile (fun e =>
    decide (e.m_block_height < u64_sub block_height c.ROLLBACK_EVENT_EXPIRATION_BLOCKS))

/-- The winner step of `block_added_generic`: if the winner of the miner transaction is in
the active set, journal its info and re-anchor it at height 0, index -1. -/
def reanchor_winner (block_height : Nat) (winner_pubkey : public_key)
    (st : infos_map × List rollback_event) : infos_map × List rollback_event :=
  match infos_find st.1 winner_pubkey with
  | none => st
  | some info =>
    (infos_assign st.1 winner_pubkey { info with block_height := 0, transaction_index := -1 },
     st.2 ++ [rollback_event.rollback_change block_height winner_pubkey info])

/-- The expiry loop of `block_added_generic` over the keys returned by `get_expired_nodes`. -/
def expire_nodes (block_height : Nat) :
    List public_key → infos_map × List rollback_event → infos_map × List rollback_event
  | [], st => st
  | pubkey :: rest, st =>
    match infos_find st.1 pubkey with
    | some info =>
      expire_nodes block_height rest
        (infos_erase st.1 pubkey,
         st.2 ++ [rollback_event.rollback_change block_height pubkey info])
    | none => expire_nodes block_height rest st

/-- One iteration of the transaction loop of `block_added_generic`. -/
def process_tx (c : Constants) (x : Externals) (bc : Blockchain) (s : service_node_list)
    (block_height : Nat) (tx : transaction) (index : Int)
    (st : infos_map × List rollback_event) : Option (infos_map × List rollback_event) :=
  match is_registration_tx c x bc st.1 tx block_height index with
  | none => none
  | some (some (key, info)) =>
    match infos_find st.1 key with
    | none =>
      some (infos_assign st.1 key info, st.2 ++ [rollback_event.rollback_new block_height key])
    | some _ => some st
  | some none =>
    match is_deregistration_tx s tx with
    | some key =>
      match infos_find st.1 key with
      | some info =>
        some (infos_erase st.1 key,
              st.2 ++ [rollback_event.rollback_change block_height key info])
      | none => some st
    | none => some st

/-- The transaction loop of `block_added_generic`; `s` supplies the quorum cache, which the
loop does not change. -/
def process_txs (c : Constants) (x : Externals) (bc : Blockchain) (s : service_node_list)
    (block_height : Nat) : List transaction → Int → infos_map × List rollback_event →
    Option (infos_map × List rollback_event)
  | [], _, st => some st
  | tx :: rest, index, st =>
    match process_tx c x bc s block_height tx index st with
    | none => none
    | some st' => process_txs c x bc s block_height rest (index + 1) st'

/-- The local `cache_state_from_height` of `block_added_generic`:
`(curr_height < QUORUM_LIFETIME) ? 0 : curr_height - QUORUM_LIFETIME`. -/
def cache_state_from_height (c : Constants) (bc : Blockchain) : Nat :=
  let curr_height := bc.get_current_blockchain_height
  let QUORUM_LIFETIME := c.DEREGISTER_LIFETIME_BY_HEIGHT
  if curr_height < QUORUM_LIFETIME then 0 else u64_sub curr_height QUORUM_LIFETIME

/-- The quorum step at the end of `block_added_generic`. -/
def cache_quorum_state (c : Constants) (x : Externals) (bc : Blockchain)
    (s : service_node_list) (block_height : Nat) : Option service_node_list :=
  if block_height ≥ cache_state_from_height c bc then
    match store_quorum_state_from_rewards_list c x bc s block_height with
    | none => none
    | some s' =>
      some { s' with m_quorum_states :=
        s'.m_quorum_states.dropWhile (fun e => decide (e.1 < cache_state_from_height c bc)) }
  else some s

/-- The method `service_node_list::block_added_generic`. -/
def block_added_generic (c : Constants) (x : Externals) (bc : Blockchain)
    (s : service_node_list) (b : block) (txs : List transaction) : Option service_node_list :=
  let block_height := get_block_height b
  let hard_fork_version := bc.get_hard_fork_version block_height
  if hard_fork_version < 9 then some s
  else
    let events := prune_rollback_events c s.m_rollback_events block_height
    let winner_pubkey := b.miner_tx.extra.service_node_winner
    let st1 := reanchor_winner block_height winner_pubkey (s.m_service_nodes_infos, events)
    match get_expired_nodes c x bc st1.1 block_height with
    | none => none
    | some expired =>
      let st2 := expire_nodes block_height expired st1
      match process_txs c x bc s block_height txs 0 st2 with
      | none => none
      | some st3 =>
        cache_quorum_state c x bc
          { s with m_service_nodes_infos := st3.1, m_rollback_events := st3.2 } block_height

/-- The method `service_node_list::block_added`. -/
def block_added (c : Constants) (x : Externals) (bc : Blockchain) (s : service_node_list)
    (b : block) (txs : List transaction) : Option service_node_list :=
  block_added_generic c x bc s b txs

/-! ## Initialisation and rollback -/

/-- The inner loop of `init` over the blocks of one chunk. The flag is `false` when `init`
returns early because `get_transactions` failed. -/
def init_blocks (c : Constants) (x : Externals) (bc : Blockchain) :
    service_node_list → List block → Option (service_node_list × Bool)
  | s, [] => some (s, true)
  | s, b :: rest =>
    match bc.get_transactions b.tx_hashes with
    | none => some (s, false)
    | some txs =>
      match block_added_generic c x bc s b txs with
      | none => none
      | some s' => init_blocks c x bc s' rest

/-- The outer loop of `init` over the chunk start heights. The flag is `false` when `init`
returns early because `get_blocks` or `get_transactions` failed. -/
def init_chunks (c : Constants) (x : Externals) (bc : Blockchain) :
    service_node_list → List Nat → Option (service_node_list × Bool)
  | s, [] => some (s, true)
  | s, height :: rest =>
    match bc.get_blocks height 1000 with
    | none => some (s, false)
    | some blocks =>
      match init_blocks c x bc s blocks with
      | none => none
      | some (s', false) => some (s', false)
      | some (s', true) => init_chunks c x bc s' rest

/-- The start heights `start_height, start_height + 1000, ...` not above `current_height`
visited by the outer loop of `init`. -/
def init_chunk_heights (start_height current_height : Nat) : List Nat :=
  (List.range ((current_height - start_height) / 1000 + 1)).map
    (fun j => start_height + 1000 * j)

/-- The method `service_node_list::init`, with a flag telling whether it ran to its end
(and pushed the `prevent_rollback` event) or returned early. -/
def init_run (c : Constants) (x : Externals) (bc : Blockchain) (s : service_node_list) :
    Option (service_node_list × Bool) :=
  let s0 : service_node_list := { s with m_service_nodes_infos := [], m_rollback_events := [] }
  let current_height := bc.get_current_blockchain_height
  let start_height :=
    if current_height ≥ c.STAKING_REQUIREMENT_LOCK_BLOCKS + c.STAKING_RELOCK_WINDOW_BLOCKS then
      u64_sub (u64_sub current_height c.STAKING_REQUIREMENT_LOCK_BLOCKS)
        c.STAKING_RELOCK_WINDOW_BLOCKS
    else 0
  match init_chunks c x bc s0 (init_chunk_heights start_height current_height) with
  | none => none
  | some (s1, false) => some (s1, false)
  | some (s1, true) =>
    some ({ s1 with m_rollback_events :=
      s1.m_rollback_events ++ [rollback_event.prevent_rollback current_height] }, true)

/-- The method `service_node_list::init`. -/
def init (c : Constants) (x : Externals) (bc : Blockchain) (s : service_node_list) :
    Option service_node_list :=
  (init_run c x bc s).map Prod.fst

/-- The three overrides of `rollback_event::apply`: the result and the map afterwards. -/
def rollback_event.apply : rollback_event → infos_map → Bool × infos_map
  | .rollback_change _ m_key m_info, m => (true, infos_assign m m_key m_info)
  | .rollback_new _ m_key, m =>
    match infos_find m m_key with
    | none => (false, m)
    | some _ => (true, infos_erase m m_key)
  | .prevent_rollback _, m => (false, m)

/-- The first loop of `blockchain_detached`, on the journal read from its back: the events
left (back first), the active set, and whether an `apply` failed (so that `init` runs). -/
def detach_events (height : Nat) :
    List rollback_event → infos_map → List rollback_event × infos_map × Bool
  | [], m => ([], m, false)
  | e :: rest, m =>
    if e.m_block_height ≥ height then
      match e.apply m with
      | (false, m') => (e :: rest, m', true)
      | (true, m') => detach_events height rest m'
    else (e :: rest, m, false)

/-- The second loop of `blockchain_detached`: erase the last entry of the quorum cache while
its height is at least `height`. -/
def detach_quorum_states (height : Nat) (q : List (Nat × quorum_state)) :
    List (Nat × quorum_state) :=
  (q.reverse.dropWhile (fun e => decide (e.1 ≥ height))).reverse

/-- The method `service_node_list::blockchain_detached`. -/
def blockchain_detached (c : Constants) (x : Externals) (bc : Blockchain)
    (s : service_node_list) (height : Nat) : Option service_node_list :=
  let r := detach_events height s.m_rollback_events.reverse s.m_service_nodes_infos
  let s1 : service_node_list :=
    { s with m_service_nodes_infos := r.2.1, m_rollback_events := r.1.reverse }
  let after_events := if r.2.2 then init c x bc s1 else some s1
  match after_events with
  | none => none
  | some s2 =>
    some { s2 with m_quorum_states := detach_quorum_states height s2.m_quorum_states }

/-! ## Winner selection and miner transaction validation -/

/-- The comparison `operator<` of `std::pair<uint64_t, int>`. -/
def pair_lt (a b : Nat × Int) : Bool :=
  decide (a.1 < b.1) || (!decide (b.1 < a.1) && decide (a.2 < b.2))

/-- The loop of `select_winner`. In the body the source assigns `waiting_since =
oldest_waiting`, which writes the local of the iteration; `oldest_waiting` keeps its initial
value through the loop. -/
def select_winner_loop (oldest_waiting : Nat × Int) :
    infos_map → public_key → public_key
  | [], key => key
  | info :: rest, key =>
    let waiting_since := (info.2.block_height, info.2.transaction_index)
    if pair_lt waiting_since oldest_waiting then
      select_winner_loop oldest_waiting rest info.1
    else
      select_winner_loop oldest_waiting rest key

/-- The method `service_node_list::select_winner` (its argument `prev_id` is not used). -/
def select_winner (m : infos_map) (_prev_id : hash) : public_key :=
  select_winner_loop (UINT64_MAX, INT_MAX) m null_pkey

/-- The loop of `get_winner_addresses_and_shares`: pairs `addresses[i]` with `shares[i]` for
every index of the addresses; `none` when the shares are read out of range. -/
def winner_pairs : List account_public_address → List Nat →
    Option (List (account_public_address × Nat))
  | [], _ => some []
  | _ :: _, [] => none
  | a :: as, sh :: shs =>
    match winner_pairs as shs with
    | none => none
    | some rest => some ((a, sh) :: rest)

/-- The method `service_node_list::get_winner_addresses_and_shares`; `none` when
`m_service_nodes_infos.at(key)` throws or the shares are read out of range. -/
def get_winner_addresses_and_shares (c : Constants) (m : infos_map) (prev_id : hash) :
    Option (List (account_public_address × Nat)) :=
  let key := select_winner m prev_id
  if key = null_pkey then some [(null_address, c.STAKING_SHARES)]
  else
    match infos_find m key with
    | none => none
    | some info => winner_pairs info.addresses info.shares

/-- The index `miner_tx.vout.size() - 1 - addresses.size() + i` computed on `size_t`. -/
def vout_index_of (vout_size addresses_size i : Nat) : Nat :=
  u64_add (u64_sub (u64_sub vout_size 1) addresses_size) i

/-- One iteration of the loop of `validate_miner_tx`: `some true` when the output for
recipient `i` passes every check, `some false` when a check returns `false`, `none` on an
out-of-range read. -/
def validate_output (x : Externals) (miner_tx : transaction) (height : Nat)
    (addresses : List account_public_address) (shares : List Nat)
    (total_service_node_reward : Nat) (i : Nat) : Option Bool :=
  let vout_index := vout_index_of miner_tx.vout.length addresses.length i
  match shares[i]? with
  | none => none
  | some share =>
    let reward := x.get_share_of_reward share total_service_node_reward
    match miner_tx.vout[vout_index]? with
    | none => none
    | some out =>
      if out.amount ≠ reward then some false
      else
        match out.target with
        | .txout_other => some false
        | .txout_to_key key =>
          let gov_key := x.get_deterministic_keypair_from_height height
          match addresses[i]? with
          | none => none
          | some a =>
            let d := x.generate_key_derivation a.m_view_public_key gov_key.2
            if !d.1 then some false
            else
              let e := x.derive_public_key d.2 vout_index a.m_spend_public_key
              if !e.1 then some false
              else if key ≠ e.2 then some false
              else some true

/-- The loop of `validate_miner_tx` over the recipient indexes. -/
def validate_outputs (x : Externals) (miner_tx : transaction) (height : Nat)
    (addresses : List account_public_address) (shares : List Nat)
    (total_service_node_reward : Nat) : List Nat → Option Bool
  | [] => some true
  | i :: rest =>
    match validate_output x miner_tx height addresses shares total_service_node_reward i with
    | none => none
    | some false => some false
    | some true =>
      validate_outputs x miner_tx height addresses shares total_service_node_reward rest

/-- The recipients `addresses` and `shares` selected in `validate_miner_tx`; `none` when
`m_service_nodes_infos.at(winner)` throws. -/
def winner_recipients (c : Constants) (m : infos_map) (winner : public_key) :
    Option (List account_public_address × List Nat) :=
  if winner = null_pkey then some ([null_address], [c.STAKING_SHARES])
  else
    match infos_find m winner with
    | none => none
    | some info => some (info.addresses, info.shares)

/-- The method `service_node_list::validate_miner_tx`. -/
def validate_miner_tx (c : Constants) (x : Externals) (m : infos_map) (prev_id : hash)
    (miner_tx : transaction) (height : Nat) (hard_fork_version : Int) (base_reward : Nat) :
    Option Bool :=
  if hard_fork_version < 9 then some true
  else
    let total_service_node_reward :=
      x.get_service_node_reward height base_reward hard_fork_version
    let winner := select_winner m prev_id
    let check_winner_pubkey := miner_tx.extra.service_node_winner
    if check_winner_pubkey ≠ winner then some false
    else
      match winner_recipients c m winner with
      | none => none
      | some (addresses, shares) =>
        if u64_sub miner_tx.vout.length 1 < addresses.length then some false
        else
          validate_outputs x miner_tx height addresses shares total_service_node_reward
            (List.range addresses.length)

/-! ## Fixtures used by the concrete evaluations -/

/-- A key whose last byte is `b` and whose other bytes are zero. -/
def key_of_byte (b : Fin 256) : public_key := ⟨List.replicate 31 0 ++ [b], by simp⟩

/-- A hash whose first byte is `b` and whose other bytes are zero. -/
def hash_of_byte (b : Fin 256) : hash := ⟨b :: List.replicate 31 0, by simp⟩

/-- A node info waiting since `(block_height, transaction_index)` with one recipient holding
one share. -/
def info_at (block_height : Nat) (transaction_index : Int) : service_node_info :=
  { block_height := block_height, transaction_index := transaction_index,
    addresses := [⟨key_of_byte 200, key_of_byte 201⟩], shares := [1] }

/-! ## Specification predicates -/

/-- The key `k` is an oldest-waiting node of `m`: it is a key of `m` and no entry of `m` has a
lexicographically smaller pair `(block_height, transaction_index)`. -/
def is_oldest_waiting (m : infos_map) (k : public_key) : Prop :=
  ∃ info, (k, info) ∈ m ∧
    ∀ e ∈ m, pair_lt (e.2.block_height, e.2.transaction_index)
      (info.block_height, info.transaction_index) = false

/-- The empty registry. -/
def empty_registry : service_node_list :=
  { m_service_nodes_infos := [], m_rollback_events := [], m_quorum_states := [] }

/-- Constants for the concrete evaluations: the values of the headers, except that the lock
and relock windows are shortened to 2 and 1 blocks so that a whole staking period fits in a
short chain. -/
def test_constants : Constants :=
  { STAKING_REQUIREMENT_LOCK_BLOCKS := 2
    STAKING_RELOCK_WINDOW_BLOCKS := 1
    STAKING_SHARES := 18000
    CRYPTONOTE_MAX_BLOCK_NUMBER := 500000000
    ROLLBACK_EVENT_EXPIRATION_BLOCKS := 30
    DEREGISTER_LIFETIME_BY_HEIGHT := 60
    QUORUM_SIZE := 10
    MIN_NODES_TO_TEST := 50
    NTH_OF_THE_NETWORK_TO_TEST := 100 }

/-- Stand-ins for the external primitives in the concrete evaluations: key derivation always
succeeds, the one-time key of an output is the spend key of the recipient, output `i` of a
RingCT transaction decodes to entry `i` of its content, and the shuffle reverses. -/
def test_externals : Externals :=
  { get_deterministic_keypair_from_height := fun _ => (key_of_byte 9, ⟨[]⟩)
    generate_key_derivation := fun view _ => (true, ⟨view.data⟩)
    derive_public_key := fun _ _ spend => (true, spend)
    derivation_to_scalar := fun d _ => ⟨d.data⟩
    decodeRctSimple := fun rv _ i => rv.content[i]?
    decodeRct := fun rv _ i => rv.content[i]?
    get_service_node_reward := fun _ base_reward _ => base_reward / 2
    get_share_of_reward := fun share total => share * total / 18000
    shuffle := fun _ l => l.reverse }

/-- A tx-extra without service node fields. -/
def plain_extra : tx_extra :=
  { service_node_register := none, tx_pub_key := null_pkey,
    service_node_deregister := none, service_node_winner := null_pkey }

/-- A miner transaction naming `winner` and paying `vout`. -/
def miner_tx_for (winner : public_key) (vout : List tx_out) : transaction :=
  { version := 2, unlock_time := 0, vout := vout,
    extra := { plain_extra with service_node_winner := winner },
    rct_signatures := ⟨.RCTTypeNull, []⟩ }

/-- A registration transaction for `key` with the given recipients and shares, unlocking at
`unlock_time`, whose outputs (one per entry of `amounts`) decode to `amounts`. -/
def registration_tx (key : public_key) (spend_keys view_keys : List public_key)
    (shares : List Nat) (unlock_time : Nat) (amounts : List Nat) : transaction :=
  { version := 2, unlock_time := unlock_time,
    vout := amounts.map (fun _ => ⟨0, .txout_to_key (key_of_byte 77)⟩),
    extra := { plain_extra with
      service_node_register := some ⟨spend_keys, view_keys, shares, key⟩,
      tx_pub_key := key_of_byte 78 },
    rct_signatures := ⟨.RCTTypeSimple, amounts⟩ }

/-- A block at `height` whose miner transaction names `winner` and that lists `n`
transactions. -/
def test_block (height : Nat) (winner : public_key) (n : Nat) : block :=
  { height := height, miner_tx := miner_tx_for winner [],
    tx_hashes := (List.range n).map (fun _ => hash_of_byte 1) }

/-- The registration of key `K = key_of_byte 1` used in the scenarios: recipients `[A, B]`,
shares `[6000, 12000]`, two outputs decoding to 60 and 40. -/
def registration_of_K (unlock_time : Nat) : transaction :=
  registration_tx (key_of_byte 1) [key_of_byte 10, key_of_byte 11]
    [key_of_byte 20, key_of_byte 21] [6000, 12000] unlock_time [60, 40]

/-- A chain store for the concrete evaluations, seen when its tip is at `tip`: hard-fork
version 9 everywhere, staking requirement 100, a non-null block hash at every height; the
block at `reg_height` holds the registration of `K`, every other block is empty. -/
def test_chain (reg_height tip : Nat) : Blockchain :=
  { get_current_blockchain_height := tip + 1
    get_hard_fork_version := fun _ => 9
    get_staking_requirement := fun _ => 100
    get_blocks := fun start count =>
      if start ≤ tip then
        some ((List.range (min count (tip + 1 - start))).map (fun j =>
          test_block (start + j) null_pkey (if start + j = reg_height then 1 else 0)))
      else none
    get_transactions := fun hs => some (hs.map (fun _ => registration_of_K (reg_height + 2)))
    get_block_id_by_height := fun _ => hash_of_byte 7 }

/-- The step of `block_added_seq` for the block at `height` of `test_chain reg_height`. -/
def test_step (reg_height height : Nat) : Blockchain × block × List transaction :=
  (test_chain reg_height height,
   test_block height null_pkey (if height = reg_height then 1 else 0),
   if height = reg_height then [registration_of_K (reg_height + 2)] else [])

/-- Runs `block_added` over a sequence of blocks, each with the chain store as it is when
the block arrives and with the transactions of the block. -/
def block_added_seq (c : Constants) (x : Externals) :
    List (Blockchain × block × List transaction) → service_node_list → Option service_node_list
  | [], s => some s
  | (bc, b, txs) :: rest, s =>
    match block_added c x bc s b txs with
    | none => none
    | some s' => block_added_seq c x rest s'

/-- The reward recipients as the specification names them: the single null address with
`STAKING_SHARES` when the winner is the null key, otherwise the addresses and shares stored
for the winner. -/
def reward_recipients (c : Constants) (m : infos_map) (winner : public_key) :
    List account_public_address × List Nat :=
  if winner = null_pkey then ([null_address], [c.STAKING_SHARES])
  else
    match infos_find m winner with
    | some info => (info.addresses, info.shares)
    | none => ([], [])

/-- The specification of the output for recipient `i` of a miner transaction: the output at
index `|vout| - 1 - n + i` pays exactly the share of the reward to a `txout_to_key` target
whose key is the one derived for the recipient at that index. -/
def output_pays_recipient (x : Externals) (miner_tx : transaction) (height : Nat)
    (addresses : List account_public_address) (shares : List Nat)
    (total_service_node_reward : Nat) (i : Nat) : Prop :=
  ∃ out a share d p,
    miner_tx.vout[miner_tx.vout.length - 1 - addresses.length + i]? = some out ∧
    addresses[i]? = some a ∧ shares[i]? = some share ∧
    out.amount = x.get_share_of_reward share total_service_node_reward ∧
    x.generate_key_derivation a.m_view_public_key
      (x.get_deterministic_keypair_from_height height).2 = (true, d) ∧
    x.derive_public_key d (miner_tx.vout.length - 1 - addresses.length + i)
      a.m_spend_public_key = (true, p) ∧
    out.target = txout_target.txout_to_key p

/-- An active set with the single node `K = key_of_byte 1`, registered at `(100, 0)`, whose
only recipient `A` (spend key `key_of_byte 10`, view key `key_of_byte 20`) holds all 18000
shares. -/
def one_node_set : infos_map :=
  [(key_of_byte 1,
    { block_height := 100, transaction_index := 0,
      addresses := [⟨key_of_byte 10, key_of_byte 20⟩], shares := [18000] })]

/-- A miner transaction naming the winner `K` that pays `amount` to the one-time key of `A`
and has a trailing governance output. -/
def paying_miner_tx (amount : Nat) : transaction :=
  miner_tx_for (key_of_byte 1)
    [⟨amount, .txout_to_key (key_of_byte 10)⟩, ⟨5, .txout_to_key (key_of_byte 99)⟩]

/-- A registration of `K` whose payload has two spend keys, two view keys and one share. -/
def mismatched_registration : transaction :=
  registration_tx (key_of_byte 1) [key_of_byte 10, key_of_byte 11]
    [key_of_byte 20, key_of_byte 21] [18000] 12 [60, 40]

/-- The key read by the copy loops at position `p`. -/
def node_at (full_node_list : List public_key) (pub_keys_indexes : List Nat) (p : Nat) :
    public_key :=
  (full_node_list[(pub_keys_indexes[p]?).getD 0]?).getD null_pkey

/-- Size of the quorum: `min(N, QUORUM_SIZE)`. -/
def quorum_size (c : Constants) (n : Nat) : Nat := min n c.QUORUM_SIZE

/-- Size of the test set: `max(R / NTH, min(MIN, R))` with `R = N - |quorum|`. -/
def nodes_to_test_size (c : Constants) (n : Nat) : Nat :=
  max ((n - quorum_size c n) / c.NTH_OF_THE_NETWORK_TO_TEST)
    (min c.MIN_NODES_TO_TEST (n - quorum_size c n))

/-- The test constants with a quorum of 2 and at least 1 node to test, so that four nodes
fill both vectors. -/
def small_quorum_constants : Constants :=
  { test_constants with QUORUM_SIZE := 2, MIN_NODES_TO_TEST := 1 }

/-- A registry with four registered nodes and an empty journal and quorum cache. -/
def four_nodes : service_node_list :=
  { m_service_nodes_infos :=
      [(key_of_byte 3, info_at 103 0), (key_of_byte 1, info_at 101 0),
       (key_of_byte 4, info_at 104 0), (key_of_byte 2, info_at 102 0)]
    m_rollback_events := []
    m_quorum_states := [] }

/-! ## Reachable registries -/

/-- A transaction as the deserialiser can return it: the shares of a registration payload
are `uint32_t` values and there are fewer than `2^32` of them (a payload is bounded by the
size of a transaction). -/
def tx_wf (tx : transaction) : Prop :=
  match tx.extra.service_node_register with
  | none => True
  | some registration =>
    registration.m_shares.length < 4294967296 ∧
      ∀ share ∈ registration.m_shares, share < 4294967296

instance tx_wf_decidable (tx : transaction) : Decidable (tx_wf tx) := by
  unfold tx_wf
  split <;> infer_instance

/-- A chain store that returns transactions the deserialiser can return. -/
def chain_wf (bc : Blockchain) : Prop :=
  ∀ hashes txs, bc.get_transactions hashes = some txs → ∀ tx ∈ txs, tx_wf tx

/-- The registries reachable from the empty registry by calls of `block_added`,
`blockchain_detached` and `init` that return, each with the chain store as it is at the call. -/
inductive Reachable (c : Constants) (x : Externals) : service_node_list → Prop where
  | empty : Reachable c x empty_registry
  | block_added (bc : Blockchain) (s s' : service_node_list) (b : block)
      (txs : List transaction) :
      Reachable c x s → chain_wf bc → (∀ tx ∈ txs, tx_wf tx) →
      block_added c x bc s b txs = some s' → Reachable c x s'
  | blockchain_detached (bc : Blockchain) (s s' : service_node_list) (height : Nat) :
      Reachable c x s → chain_wf bc →
      blockchain_detached c x bc s height = some s' → Reachable c x s'
  | init (bc : Blockchain) (s s' : service_node_list) :
      Reachable c x s → chain_wf bc → init c x bc s = some s' → Reachable c x s'

/-- The invariant of a node info: both lists are non-empty and the shares sum to at most
`STAKING_SHARES`. -/
def info_ok (c : Constants) (info : service_node_info) : Prop :=
  info.addresses ≠ [] ∧ info.shares ≠ [] ∧ info.shares.sum ≤ c.STAKING_SHARES

/-- Every node info of the active set satisfies the invariant. -/
def infos_ok (c : Constants) (m : infos_map) : Prop := ∀ e ∈ m, info_ok c e.2

/-- Every node info saved in a `rollback_change` event of the journal satisfies the
invariant. -/
def events_ok (c : Constants) (events : List rollback_event) : Prop :=
  ∀ h k info, rollback_event.rollback_change h k info ∈ events → info_ok c info

/-- The invariant of a registry: the node infos of the active set and those saved in the
journal satisfy `info_ok`. -/
def registry_ok (c : Constants) (s : service_node_list) : Prop :=
  infos_ok c s.m_service_nodes_infos ∧ events_ok c s.m_rollback_events

/-- A chain store on which the hard-fork version is 8 at every height. -/
def pre_fork_chain : Blockchain :=
  { test_chain 0 10 with get_hard_fork_version := fun _ => 8 }

/-- A deregistration transaction pointing at entry `service_node_index` of the test set of
the quorum of `block_height`. -/
def deregister_tx (block_height service_node_index : Nat) : transaction :=
  { version := 3, unlock_time := 0, vout := [],
    extra := { plain_extra with
      service_node_deregister := some ⟨block_height, service_node_index⟩ },
    rct_signatures := ⟨.RCTTypeNull, []⟩ }

/-- The four-node registry with a quorum cached for height 111 whose test set is `K1`. -/
def four_nodes_with_quorum : service_node_list :=
  { four_nodes with
    m_quorum_states := [(111, ⟨[key_of_byte 4, key_of_byte 3], [key_of_byte 1]⟩)] }

/-- Equality of two active sets as maps: every key has the same info, or none, in both. -/
def infos_equiv (m m' : infos_map) : Prop := ∀ k, infos_find m k = infos_find m' k

/-- The journal `st.2` is `base_events` followed by events that `blockchain_detached(height)`
undoes, one after the other and without a failing `apply`, taking the active set `st.1` back
to `base_infos` (as a map) and leaving `base_events`. -/
def undoable (height : Nat) (base_infos : infos_map) (base_events : List rollback_event)
    (st : infos_map × List rollback_event) : Prop :=
  ∃ added m', st.2 = base_events ++ added ∧
    detach_events height (added.reverse ++ base_events.reverse) st.1 =
      (base_events.reverse, m', false) ∧
    infos_equiv m' base_infos

/-- The active set left by the block that carries `mismatched_registration`: `K` with two
addresses and one share. -/
def mismatched_set : infos_map :=
  [(key_of_byte 1,
    { block_height := 10, transaction_index := 0,
      addresses := [⟨key_of_byte 10, key_of_byte 20⟩, ⟨key_of_byte 11, key_of_byte 21⟩],
      shares := [18000] })]

/-- A miner transaction naming the winner `K2` that pays 55 to the one-time key of the
recipient of `info_at` and has a trailing governance output. -/
def miner_tx_for_K2 : transaction :=
  miner_tx_for (key_of_byte 2)
    [⟨55, .txout_to_key (key_of_byte 200)⟩, ⟨5, .txout_to_key (key_of_byte 99)⟩]

/-- A journal with a saved info at height 5 and a registration at height 8. -/
def two_event_journal : List rollback_event :=
  [rollback_event.rollback_change 5 (key_of_byte 1) (info_at 3 0),
   rollback_event.rollback_new 8 (key_of_byte 2)]

/-- The decoded contribution of output `i` to the recipient `a`, a 64-bit amount: what
`get_reg_tx_staking_output_contribution` returns for the derivation of the recipient's view
key with the governance secret key (zero for a target that is not `txout_to_key`, for an
unsupported RingCT type and for a decoder that throws). -/
def decoded_contribution (x : Externals) (tx : transaction) (gov_sec : secret_key)
    (a : account_public_address) (i : Nat) : Nat :=
  (get_reg_tx_staking_output_contribution x tx i
    (x.generate_key_derivation a.m_view_public_key gov_sec).2).getD 0

/-- The decoded contributions of the outputs `i, i + 1, ...` to the recipients of the list,
in order. -/
def decoded_contributions (x : Externals) (tx : transaction) (gov_sec : secret_key) :
    List account_public_address → Nat → List Nat
  | [], _ => []
  | a :: rest, i =>
    decoded_contribution x tx gov_sec a i :: decoded_contributions x tx gov_sec rest (i + 1)

/-- The sum, as a natural number, of the decoded contributions of the first `|addresses|`
outputs. -/
def staked_sum (x : Externals) (tx : transaction) (addresses : List account_public_address) :
    Nat :=
  (decoded_contributions x tx (x.get_deterministic_keypair_from_height 1).2 addresses 0).sum

/-- A registration of `K` whose two outputs decode to `2^63` each. -/
def overflowing_registration : transaction :=
  registration_tx (key_of_byte 1) [key_of_byte 10, key_of_byte 11]
    [key_of_byte 20, key_of_byte 21] [6000, 12000] 12
    [9223372036854775808, 9223372036854775808]

/-- A registration of `K` whose two outputs decode to 60 and 39, one unit short of the
staking requirement 100 of the test chain. -/
def understaked_registration : transaction :=
  registration_tx (key_of_byte 1) [key_of_byte 10, key_of_byte 11]
    [key_of_byte 20, key_of_byte 21] [6000, 12000] 12 [60, 39]

/-- The recipients `[A, B]` of the registrations of `K`. -/
def recipients_of_K : List account_public_address :=
  [⟨key_of_byte 10, key_of_byte 20⟩, ⟨key_of_byte 11, key_of_byte 21⟩]

/-- The null key is neither a key of the active set nor the key of a `rollback_change` event
of the journal. -/
def registry_no_null (m : infos_map) (events : List rollback_event) : Prop :=
  is_service_node m null_pkey = false ∧
    ∀ h k info, rollback_event.rollback_change h k info ∈ events → k ≠ null_pkey

/-- The order of the `std::map` holding the quorum cache: strictly ascending heights. -/
def quorum_sorted (q : List (Nat × quorum_state)) : Prop :=
  q.Pairwise (fun a b => a.1 < b.1)

/-- The empty registry with one cached quorum, at height 1. -/
def one_cached_quorum : service_node_list :=
  { empty_registry with m_quorum_states := [(1, ⟨[], []⟩)] }

/-- The journal, given back first, can be undone event by event without a `rollback_new`
failing: each `rollback_new` finds its key in the active set as it is when the event is
reached. A `prevent_rollback` event is passed over. -/
def journal_consistent : List rollback_event → infos_map → Prop
  | [], _ => True
  | rollback_event.rollback_change _ k info :: rest, m =>
    journal_consistent rest (infos_assign m k info)
  | rollback_event.rollback_new _ k :: rest, m =>
    (infos_find m k).isSome = true ∧ journal_consistent rest (infos_erase m k)
  | rollback_event.prevent_rollback _ :: rest, m => journal_consistent rest m

/-- The first loop of `blockchain_detached(height)` stops at a `prevent_rollback` event. -/
def barrier_reached (height : Nat) (s : service_node_list) : Bool :=
  let r := detach_events height s.m_rollback_events.reverse s.m_service_nodes_infos
  r.2.2 &&
    match r.1 with
    | rollback_event.prevent_rollback _ :: _ => true
    | _ => false

theorem infos_find_replace (m : infos_map) (k k' : public_key) (v : service_node_info) :
    infos_find (infos_replace m k v) k' =
      if k = k' then (infos_find m k).map (fun _ => v) else infos_find m k' := by
  induction m with
  | nil => simp [infos_replace, infos_find]
  | cons e rest ih =>
    obtain ⟨k0, v0⟩ := e
    by_cases h0 : k0 = k <;> by_cases h2 : k0 = k' <;> by_cases h1 : k = k' <;>
      simp_all [infos_replace, infos_find]

theorem infos_find_assign (m : infos_map) (k k' : public_key) (v : service_node_info) :
    infos_find (infos_assign m k v) k' = if k = k' then some v else infos_find m k' := by
  unfold infos_assign
  by_cases hk : (infos_find m k).isSome = true
  · rw [if_pos hk, infos_find_replace]
    by_cases h1 : k = k'
    · obtain ⟨w, hw⟩ := Option.isSome_iff_exists.mp hk
      simp [h1.symm, hw]
    · simp [h1]
  · rw [if_neg hk]
    by_cases h1 : k = k' <;> simp [infos_find, h1]

theorem infos_find_erase (m : infos_map) (k k' : public_key) :
    infos_find (infos_erase m k) k' = if k = k' then none else infos_find m k' := by
  induction m with
  | nil => simp [infos_erase, infos_find]
  | cons e rest ih =>
    obtain ⟨k0, v0⟩ := e
    by_cases h0 : k0 = k <;> by_cases h2 : k0 = k' <;> by_cases h1 : k = k' <;>
      simp_all [infos_erase, infos_find]

/-! ## The registration predicate -/

/-- What a `true` result of `is_registration_tx` says about the transaction and the outputs. -/
theorem is_registration_tx_accepts {c : Constants} {x : Externals} {bc : Blockchain}
    {m : infos_map} {tx : transaction} {block_height : Nat} {index : Int}
    {key : public_key} {info : service_node_info}
    (h : is_registration_tx c x bc m tx block_height index = some (some (key, info))) :
    ∃ f, reg_tx_extract_fields tx = some f ∧ f.result = true ∧
      shares_total f.shares ≤ c.STAKING_SHARES ∧
      is_service_node m f.service_node_key = false ∧
      key = f.service_node_key ∧
      info = { block_height := block_height, transaction_index := index,
               addresses := f.addresses, shares := f.shares } := by
  unfold is_registration_tx at h
  split at h
  · simp at h
  · split at h
    · simp at h
    · rename_i f hf
      split at h
      · simp at h
      · split at h
        · simp at h
        · split at h
          · simp at h
          · simp only at h
            split at h
            · simp at h
            · split at h
              · simp at h
              · split at h
                · simp at h
                · rename_i h1 h2 h3 _ _ _ _ _
                  simp only [Option.some.injEq, Prod.mk.injEq] at h
                  refine ⟨f, hf, by simpa using h1, by simpa using h2, by simpa using h3,
                    h.1.symm, h.2.symm⟩

/-- An accepted registration is for a key that is not in the active set. -/
theorem is_registration_tx_key_absent {c : Constants} {x : Externals} {bc : Blockchain}
    {m : infos_map} {tx : transaction} {block_height : Nat} {index : Int}
    {key : public_key} {info : service_node_info}
    (h : is_registration_tx c x bc m tx block_height index = some (some (key, info))) :
    infos_find m key = none := by
  obtain ⟨f, _, _, _, hk, rfl, _⟩ := is_registration_tx_accepts h
  simpa [is_service_node] using hk

/-! ## The expiry step -/

/-- Every key returned by the loop of `get_expired_nodes` is absent from the active set the
registration predicate was run against. -/
theorem get_expired_nodes_loop_absent (c : Constants) (x : Externals) (bc : Blockchain)
    (m : infos_map) (h : Nat) (txs : List transaction) :
    ∀ (index : Int) (l : List public_key),
      get_expired_nodes_loop c x bc m h txs index = some l →
      ∀ k ∈ l, infos_find m k = none := by
  induction txs with
  | nil =>
    intro index l hl k hk
    simp [get_expired_nodes_loop] at hl
    subst hl
    simp at hk
  | cons tx rest ih =>
    intro index l hl k hk
    unfold get_expired_nodes_loop at hl
    split at hl
    · simp at hl
    · rename_i r hr
      split at hl
      · simp at hl
      · rename_i tail htail
        split at hl
        · rename_i key info
          simp only [Option.some.injEq] at hl
          subst hl
          rcases List.mem_cons.mp hk with rfl | hk'
          · exact is_registration_tx_key_absent hr
          · exact ih _ _ htail k hk'
        · simp only [Option.some.injEq] at hl
          subst hl
          exact ih _ _ htail k hk

/-- Every key returned by `get_expired_nodes` is absent from the current active set. -/
theorem get_expired_nodes_absent {c : Constants} {x : Externals} {bc : Blockchain}
    {m : infos_map} {block_height : Nat} {l : List public_key}
    (h : get_expired_nodes c x bc m block_height = some l) :
    ∀ k ∈ l, infos_find m k = none := by
  unfold get_expired_nodes at h
  split at h
  · simp only [Option.some.injEq] at h
    subst h
    simp
  · simp only at h
    split at h
    · simp only [Option.some.injEq] at h
      subst h
      simp
    · split at h
      · simp at h
      · split at h
        · simp only [Option.some.injEq] at h
          subst h
          simp
        · exact get_expired_nodes_loop_absent c x bc m _ _ _ _ h

/-- The expiry loop changes nothing when none of the keys is in the active set. -/
theorem expire_nodes_absent (block_height : Nat) (l : List public_key)
    (st : infos_map × List rollback_event) (h : ∀ k ∈ l, infos_find st.1 k = none) :
    expire_nodes block_height l st = st := by
  induction l with
  | nil => simp [expire_nodes]
  | cons k rest ih =>
    unfold expire_nodes
    rw [h k (List.mem_cons_self _ _)]
    exact ih (fun k' hk' => h k' (List.mem_cons_of_mem _ hk'))

/-- The expiry step of `block_added_generic` never changes the active set or the journal:
the keys it gets are those the registration predicate accepts against the current active
set, hence keys that are not registered. -/
theorem expiry_step_is_identity {c : Constants} {x : Externals} {bc : Blockchain}
    {st : infos_map × List rollback_event} {block_height : Nat} {l : List public_key}
    (h : get_expired_nodes c x bc st.1 block_height = some l) :
    expire_nodes block_height l st = st :=
  expire_nodes_absent block_height l st (get_expired_nodes_absent h)

/-! ## Block ingest, step by step -/

/-- The winner step keeps the set of keys of the active set. -/
theorem reanchor_winner_is_service_node (block_height : Nat) (winner_pubkey : public_key)
    (st : infos_map × List rollback_event) (k : public_key) :
    is_service_node (reanchor_winner block_height winner_pubkey st).1 k =
      is_service_node st.1 k := by
  unfold reanchor_winner
  split
  · rfl
  · rename_i info hinfo
    simp only [is_service_node, infos_find_assign]
    by_cases hk : winner_pubkey = k
    · subst hk
      simp [hinfo]
    · simp [hk]

/-- The quorum step leaves the active set and the journal as they are. -/
theorem store_quorum_state_frame {c : Constants} {x : Externals} {bc : Blockchain}
    {s s' : service_node_list} {height : Nat}
    (h : store_quorum_state_from_rewards_list c x bc s height = some s') :
    s'.m_service_nodes_infos = s.m_service_nodes_infos ∧
      s'.m_rollback_events = s.m_rollback_events := by
  unfold store_quorum_state_from_rewards_list at h
  simp only at h
  split at h
  · simp only [Option.some.injEq] at h
    subst h
    exact ⟨rfl, rfl⟩
  · split at h
    · simp at h
    · simp only [Option.some.injEq] at h
      subst h
      exact ⟨rfl, rfl⟩

/-- The quorum step of `block_added_generic` leaves the active set and the journal as they
are. -/
theorem cache_quorum_state_frame {c : Constants} {x : Externals} {bc : Blockchain}
    {s s' : service_node_list} {block_height : Nat}
    (h : cache_quorum_state c x bc s block_height = some s') :
    s'.m_service_nodes_infos = s.m_service_nodes_infos ∧
      s'.m_rollback_events = s.m_rollback_events := by
  unfold cache_quorum_state at h
  split at h
  · split at h
    · simp at h
    · rename_i s1 hs1
      simp only [Option.some.injEq] at h
      subst h
      exact ⟨(store_quorum_state_frame hs1).1, (store_quorum_state_frame hs1).2⟩
  · simp only [Option.some.injEq] at h
    subst h
    exact ⟨rfl, rfl⟩

/-- A block above the hard-fork gate is processed as: prune the journal, re-anchor the winner,
run the transaction loop, cache the quorum. The expiry step between the winner step and the
transaction loop changes nothing (`expiry_step_is_identity`). -/
theorem block_added_generic_steps {c : Constants} {x : Externals} {bc : Blockchain}
    {s s' : service_node_list} {b : block} {txs : List transaction}
    (hf : ¬ bc.get_hard_fork_version (get_block_height b) < 9)
    (h : block_added_generic c x bc s b txs = some s') :
    ∃ st3,
      process_txs c x bc s (get_block_height b) txs 0
        (reanchor_winner (get_block_height b) b.miner_tx.extra.service_node_winner
          (s.m_service_nodes_infos,
           prune_rollback_events c s.m_rollback_events (get_block_height b))) = some st3 ∧
      cache_quorum_state c x bc
        { s with m_service_nodes_infos := st3.1, m_rollback_events := st3.2 }
        (get_block_height b) = some s' := by
  unfold block_added_generic at h
  simp only [hf, if_false] at h
  split at h
  · simp at h
  · rename_i expired hexp
    rw [expiry_step_is_identity hexp] at h
    split at h
    · simp at h
    · rename_i st3 hst3
      exact ⟨st3, hst3, h⟩

/-- One transaction that is not a deregistration keeps every registered key registered. -/
theorem process_tx_keeps_registered {c : Constants} {x : Externals} {bc : Blockchain}
    {s : service_node_list} {block_height : Nat} {tx : transaction} {index : Int}
    {st st' : infos_map × List rollback_event} {K : public_key}
    (hv : tx.version ≠ version_3_deregister_tx)
    (h : process_tx c x bc s block_height tx index st = some st')
    (hK : is_service_node st.1 K = true) : is_service_node st'.1 K = true := by
  unfold process_tx at h
  split at h
  · simp at h
  · split at h
    · simp only [Option.some.injEq] at h
      subst h
      simp only [is_service_node, infos_find_assign]
      split
      · rfl
      · exact hK
    · simp only [Option.some.injEq] at h
      subst h
      exact hK
  · have hd : is_deregistration_tx s tx = none := by
      unfold is_deregistration_tx
      rw [if_pos hv]
    rw [hd] at h
    simp only [Option.some.injEq] at h
    subst h
    exact hK

/-- The transaction loop keeps every registered key registered when no transaction has the
deregister version. -/
theorem process_txs_keeps_registered {c : Constants} {x : Externals} {bc : Blockchain}
    {s : service_node_list} {block_height : Nat} {K : public_key} (txs : List transaction) :
    ∀ (index : Int) (st st' : infos_map × List rollback_event),
      (∀ tx ∈ txs, tx.version ≠ version_3_deregister_tx) →
      process_txs c x bc s block_height txs index st = some st' →
      is_service_node st.1 K = true → is_service_node st'.1 K = true := by
  induction txs with
  | nil =>
    intro index st st' _ h hK
    simp only [process_txs, Option.some.injEq] at h
    subst h
    exact hK
  | cons tx rest ih =>
    intro index st st' hv h hK
    unfold process_txs at h
    split at h
    · simp at h
    · rename_i st1 hst1
      exact ih _ _ _ (fun t ht => hv t (List.mem_cons_of_mem _ ht)) h
        (process_tx_keeps_registered (hv tx (List.mem_cons_self _ _)) hst1 hK)

/-- One block without a deregistration transaction keeps every registered key registered,
whatever its height. -/
theorem block_added_keeps_registered {c : Constants} {x : Externals} {bc : Blockchain}
    {s s' : service_node_list} {b : block} {txs : List transaction} {K : public_key}
    (hv : ∀ tx ∈ txs, tx.version ≠ version_3_deregister_tx)
    (h : block_added c x bc s b txs = some s')
    (hK : is_service_node s.m_service_nodes_infos K = true) :
    is_service_node s'.m_service_nodes_infos K = true := by
  unfold block_added at h
  by_cases hf : bc.get_hard_fork_version (get_block_height b) < 9
  · unfold block_added_generic at h
    simp only [hf, if_true, Option.some.injEq] at h
    subst h
    exact hK
  · obtain ⟨st3, hst3, hq⟩ := block_added_generic_steps hf h
    rw [(cache_quorum_state_frame hq).1]
    refine process_txs_keeps_registered txs _ _ _ hv hst3 ?_
    rw [reanchor_winner_is_service_node]
    exact hK

/-! ## Winner selection and payout validation, step by step -/

theorem infos_find_isSome_of_mem {m : infos_map} {k : public_key} {info : service_node_info}
    (h : (k, info) ∈ m) : (infos_find m k).isSome = true := by
  induction m with
  | nil => simp at h
  | cons e rest ih =>
    obtain ⟨k0, v0⟩ := e
    by_cases h0 : k0 = k
    · simp [infos_find, h0]
    · rcases List.mem_cons.mp h with heq | hmem
      · exact absurd (congrArg Prod.fst heq).symm h0
      · simpa [infos_find, h0] using ih hmem

theorem infos_find_mem {m : infos_map} {k : public_key} {info : service_node_info}
    (h : infos_find m k = some info) : (k, info) ∈ m := by
  induction m with
  | nil => simp [infos_find] at h
  | cons e rest ih =>
    obtain ⟨k0, v0⟩ := e
    by_cases h0 : k0 = k
    · subst h0
      simp only [infos_find, if_true, Option.some.injEq] at h
      subst h
      exact List.mem_cons_self _ _
    · simp only [infos_find, h0, if_false] at h
      exact List.mem_cons_of_mem _ (ih h)

/-- The loop of `select_winner` returns the key it started with or a key of the map. -/
theorem select_winner_loop_mem (o : Nat × Int) (m : infos_map) :
    ∀ key, select_winner_loop o m key = key ∨
      ∃ info, (select_winner_loop o m key, info) ∈ m := by
  induction m with
  | nil => intro key; exact Or.inl rfl
  | cons e rest ih =>
    intro key
    unfold select_winner_loop
    simp only
    split
    · rcases ih e.1 with h | ⟨info, h⟩
      · right
        exact ⟨e.2, by rw [h]; exact List.mem_cons_self _ _⟩
      · right
        exact ⟨info, List.mem_cons_of_mem _ h⟩
    · rcases ih key with h | ⟨info, h⟩
      · exact Or.inl h
      · right
        exact ⟨info, List.mem_cons_of_mem _ h⟩

/-- The winner is the null key or a key of the active set, so `at(winner)` never throws. -/
theorem select_winner_null_or_found (m : infos_map) (prev_id : hash) :
    select_winner m prev_id = null_pkey ∨
      (infos_find m (select_winner m prev_id)).isSome = true := by
  rcases select_winner_loop_mem (UINT64_MAX, INT_MAX) m null_pkey with h | ⟨info, h⟩
  · exact Or.inl h
  · exact Or.inr (infos_find_isSome_of_mem h)

/-- The recipients selected by the source are those of the specification. -/
theorem winner_recipients_eq (c : Constants) (m : infos_map) (prev_id : hash) :
    winner_recipients c m (select_winner m prev_id) =
      some (reward_recipients c m (select_winner m prev_id)) := by
  unfold winner_recipients reward_recipients
  by_cases h0 : select_winner m prev_id = null_pkey
  · simp [h0]
  · rcases select_winner_null_or_found m prev_id with h | h
    · exact absurd h h0
    · obtain ⟨info, hinfo⟩ := Option.isSome_iff_exists.mp h
      simp [h0, hinfo]

/-- The output index of the source equals `|vout| - 1 - n + i` when there are at least
`1 + n` outputs. -/
theorem vout_index_of_eq {vout_size n i : Nat} (hsize : vout_size < U64)
    (hn : 1 + n ≤ vout_size) (hi : i < n) :
    vout_index_of vout_size n i = vout_size - 1 - n + i := by
  unfold vout_index_of u64_add u64_sub U64 at *
  omega

/-- One iteration of the validation loop accepts exactly the outputs of the specification. -/
theorem validate_output_iff (x : Externals) (miner_tx : transaction) (height : Nat)
    (addresses : List account_public_address) (shares : List Nat) (total i : Nat)
    (hsize : miner_tx.vout.length < U64) (hn : 1 + addresses.length ≤ miner_tx.vout.length)
    (hi : i < addresses.length) :
    validate_output x miner_tx height addresses shares total i = some true ↔
      output_pays_recipient x miner_tx height addresses shares total i := by
  unfold validate_output output_pays_recipient
  simp only [vout_index_of_eq hsize hn hi]
  constructor
  · intro h
    split at h
    · simp at h
    · rename_i share hshare
      split at h
      · simp at h
      · rename_i out hout
        split at h
        · simp at h
        · rename_i hamount
          split at h
          · simp at h
          · rename_i key hkey
            split at h
            · simp at h
            · rename_i a ha
              split at h
              · simp at h
              · rename_i hd
                split at h
                · simp at h
                · rename_i he
                  split at h
                  · simp at h
                  · rename_i hk
                    refine ⟨out, a, share, _, _, hout, ha, hshare, by simpa using hamount,
                      Prod.ext (by simpa using hd) rfl, Prod.ext (by simpa using he) rfl, ?_⟩
                    rw [hkey]
                    simpa using hk
  · rintro ⟨out, a, share, d, p, hout, ha, hshare, hamount, hd, he, hkey⟩
    simp [hshare, hout, hamount, hkey, ha, hd, he]

/-- The validation loop accepts exactly when every index of the list is accepted. -/
theorem validate_outputs_iff (x : Externals) (miner_tx : transaction) (height : Nat)
    (addresses : List account_public_address) (shares : List Nat) (total : Nat)
    (l : List Nat) :
    validate_outputs x miner_tx height addresses shares total l = some true ↔
      ∀ i ∈ l, validate_output x miner_tx height addresses shares total i = some true := by
  induction l with
  | nil => simp [validate_outputs]
  | cons i rest ih =>
    unfold validate_outputs
    split
    · rename_i h
      simp [h]
    · rename_i h
      simp [h]
    · rename_i h
      simp [h, ih]

/-- The winner has at least one recipient when every node info of the active set has one. -/
theorem reward_recipients_ne_nil (c : Constants) (m : infos_map) (prev_id : hash)
    (hne : ∀ e ∈ m, e.2.addresses ≠ []) :
    (reward_recipients c m (select_winner m prev_id)).1 ≠ [] := by
  unfold reward_recipients
  by_cases h0 : select_winner m prev_id = null_pkey
  · simp [h0]
  · rcases select_winner_null_or_found m prev_id with h | h
    · exact absurd h h0
    · obtain ⟨info, hinfo⟩ := Option.isSome_iff_exists.mp h
      simp only [h0, if_false, hinfo]
      exact hne _ (infos_find_mem hinfo)

/-- With no output at all and at least one recipient the validation loop reads
`miner_tx.vout` out of range (or the shares, when there is none). -/
theorem validate_outputs_no_output (x : Externals) (miner_tx : transaction) (height : Nat)
    (addresses : List account_public_address) (shares : List Nat) (total : Nat)
    (hvout : miner_tx.vout = []) (hne : addresses ≠ []) :
    validate_outputs x miner_tx height addresses shares total (List.range addresses.length) =
      none := by
  obtain ⟨n, hn⟩ := Nat.exists_eq_succ_of_ne_zero
    (fun h => hne (List.length_eq_zero.mp h))
  rw [hn, List.range_succ_eq_map]
  unfold validate_outputs validate_output
  simp only [hvout]
  cases shares[0]? <;> simp

/-- With at least one output but fewer than `1 + n`, `validate_miner_tx` returns `false`
without reading any output. -/
theorem validate_miner_tx_too_few_outputs (c : Constants) (x : Externals) (m : infos_map)
    (prev_id : hash) (miner_tx : transaction) (height : Nat) (hard_fork_version : Int)
    (base_reward : Nat) (h9 : 9 ≤ hard_fork_version)
    (hw : miner_tx.extra.service_node_winner = select_winner m prev_id)
    (hsize : miner_tx.vout.length < U64) (hpos : 1 ≤ miner_tx.vout.length)
    (hfew : miner_tx.vout.length <
      1 + (reward_recipients c m (select_winner m prev_id)).1.length) :
    validate_miner_tx c x m prev_id miner_tx height hard_fork_version base_reward =
      some false := by
  have hnot : ¬ hard_fork_version < 9 := by omega
  have hsub : u64_sub miner_tx.vout.length 1 = miner_tx.vout.length - 1 := by
    unfold u64_sub U64 at *
    omega
  unfold validate_miner_tx
  simp only [hnot, if_false, winner_recipients_eq, hw, ne_eq, not_true_eq_false, hsub]
  have hlt : miner_tx.vout.length - 1 <
      (reward_recipients c m (select_winner m prev_id)).1.length := by omega
  simp [hlt]

/-! ## The memcmp order and the sorted key list -/

theorem memcmp_self (a : List (Fin 256)) : ∀ n, memcmp a a n = 0 := by
  induction a with
  | nil => intro n; cases n <;> simp [memcmp]
  | cons x xs ih =>
    intro n
    cases n with
    | zero => simp [memcmp]
    | succ n => simp [memcmp, ih n]

theorem memcmp_trichotomy : ∀ (n : Nat) (a b : List (Fin 256)),
    a.length = n → b.length = n → memcmp a b n < 0 ∨ a = b ∨ memcmp b a n < 0 := by
  intro n
  induction n with
  | zero =>
    intro a b ha hb
    right; left
    rw [List.length_eq_zero.mp ha, List.length_eq_zero.mp hb]
  | succ n ih =>
    intro a b ha hb
    match a, b, ha, hb with
    | x :: xs, y :: ys, ha, hb =>
      simp only [List.length_cons, Nat.succ.injEq] at ha hb
      simp only [memcmp]
      by_cases h1 : x.val < y.val
      · left; simp [h1]
      · by_cases h2 : y.val < x.val
        · right; right; simp [h2]
        · have hxy : x = y := Fin.ext (by omega)
          subst hxy
          simp only [lt_self_iff_false, if_false, List.cons.injEq, true_and]
          exact ih xs ys ha hb

theorem memcmp_asymm : ∀ (n : Nat) (a b : List (Fin 256)),
    memcmp a b n < 0 → ¬ memcmp b a n < 0 := by
  intro n
  induction n with
  | zero => intro a b h; simp [memcmp] at h
  | succ n ih =>
    intro a b h
    match a, b with
    | [], _ => simp [memcmp] at h
    | _ :: _, [] => simp [memcmp] at h
    | x :: xs, y :: ys =>
      simp only [memcmp] at h ⊢
      by_cases h1 : x.val < y.val
      · have h2 : ¬ y.val < x.val := by omega
        simp [h1, h2]
      · by_cases h2 : y.val < x.val
        · simp [h1, h2] at h
        · simp only [h1, h2, if_false] at h ⊢
          exact ih xs ys h

theorem memcmp_trans : ∀ (n : Nat) (a b c : List (Fin 256)),
    memcmp a b n < 0 → memcmp b c n < 0 → memcmp a c n < 0 := by
  intro n
  induction n with
  | zero => intro a b c h; simp [memcmp] at h
  | succ n ih =>
    intro a b c hab hbc
    match a, b, c with
    | [], _, _ => simp [memcmp] at hab
    | _ :: _, [], _ => simp [memcmp] at hab
    | _ :: _, _ :: _, [] => simp [memcmp] at hbc
    | x :: xs, y :: ys, z :: zs =>
      simp only [memcmp] at hab hbc ⊢
      by_cases h1 : x.val < y.val
      · by_cases h3 : y.val < z.val
        · have : x.val < z.val := by omega
          simp [this]
        · by_cases h4 : z.val < y.val
          · simp [h3, h4] at hbc
          · have : x.val < z.val := by omega
            simp [this]
      · by_cases h2 : y.val < x.val
        · simp [h1, h2] at hab
        · simp only [h1, h2, if_false] at hab
          by_cases h3 : y.val < z.val
          · have : x.val < z.val := by omega
            simp [this]
          · by_cases h4 : z.val < y.val
            · simp [h3, h4] at hbc
            · simp only [h3, h4, if_false] at hbc
              have h5 : ¬ x.val < z.val := by omega
              have h6 : ¬ z.val < x.val := by omega
              simp only [h5, h6, if_false]
              exact ih xs ys zs hab hbc

theorem pubkey_less_iff (a b : public_key) :
    pubkey_less a b = true ↔ memcmp a.data b.data 32 < 0 := by
  simp [pubkey_less]

theorem pubkey_less_asymm {a b : public_key} (h : pubkey_less a b = true) :
    ¬ pubkey_less b a = true := by
  rw [pubkey_less_iff] at h ⊢
  exact memcmp_asymm 32 _ _ h

theorem pubkey_less_trans {a b c : public_key} (hab : pubkey_less a b = true)
    (hbc : pubkey_less b c = true) : pubkey_less a c = true := by
  rw [pubkey_less_iff] at hab hbc ⊢
  exact memcmp_trans 32 _ _ _ hab hbc

theorem pubkey_less_trichotomy (a b : public_key) :
    pubkey_less a b = true ∨ a = b ∨ pubkey_less b a = true := by
  rcases memcmp_trichotomy 32 a.data b.data a.size_eq b.size_eq with h | h | h
  · exact Or.inl ((pubkey_less_iff a b).mpr h)
  · right; left
    cases a; cases b
    simp only [public_key.mk.injEq]
    exact h
  · exact Or.inr (Or.inr ((pubkey_less_iff b a).mpr h))

/-- Inserting into a list without descents gives a list without descents. -/
theorem orderedInsert_no_descent (a : public_key) :
    ∀ l : List public_key,
      l.Pairwise (fun u v => ¬ pubkey_less v u = true) →
      (l.orderedInsert (fun u v => pubkey_less u v = true) a).Pairwise
        (fun u v => ¬ pubkey_less v u = true) := by
  intro l
  induction l with
  | nil => intro _; simp
  | cons b l ih =>
    intro h
    rw [List.pairwise_cons] at h
    by_cases hab : pubkey_less a b = true
    · rw [List.orderedInsert, if_pos hab]
      refine List.pairwise_cons.mpr ⟨?_, List.pairwise_cons.mpr h⟩
      intro v hv
      rcases List.mem_cons.mp hv with rfl | hv'
      · exact pubkey_less_asymm hab
      · intro hva
        exact h.1 v hv' (pubkey_less_trans hva hab)
    · rw [List.orderedInsert, if_neg hab]
      refine List.pairwise_cons.mpr ⟨?_, ih h.2⟩
      intro v hv
      rcases (List.mem_orderedInsert _).mp hv with rfl | hv'
      · exact hab
      · exact h.1 v hv'

theorem sort_pubkeys_no_descent (l : List public_key) :
    (sort_pubkeys l).Pairwise (fun u v => ¬ pubkey_less v u = true) := by
  unfold sort_pubkeys
  induction l with
  | nil => simp
  | cons a l ih => exact orderedInsert_no_descent a _ ih

theorem sort_pubkeys_perm (l : List public_key) : (sort_pubkeys l).Perm l :=
  List.perm_insertionSort _ l

/-- Sorting distinct keys gives a strictly increasing list. -/
theorem sort_pubkeys_strict (l : List public_key) (hl : l.Nodup) :
    (sort_pubkeys l).Pairwise (fun u v => pubkey_less u v = true) := by
  have h1 := sort_pubkeys_no_descent l
  have h2 : (sort_pubkeys l).Pairwise (fun u v => u ≠ v) :=
    (sort_pubkeys_perm l).nodup_iff.mpr hl
  refine (h1.and h2).imp ?_
  rintro u v ⟨hle, hne⟩
  rcases pubkey_less_trichotomy u v with h | h | h
  · exact h
  · exact absurd h hne
  · exact absurd h hle

/-- Two strictly increasing lists with the same elements are equal. -/
theorem sort_pubkeys_perm_eq {l l' : List public_key} (hl : l.Nodup) (hp : l'.Perm l) :
    sort_pubkeys l' = sort_pubkeys l := by
  haveI : IsAntisymm public_key (fun u v => pubkey_less u v = true) :=
    ⟨fun u v huv hvu => absurd hvu (pubkey_less_asymm huv)⟩
  exact List.eq_of_perm_of_sorted
    (((sort_pubkeys_perm l').trans hp).trans (sort_pubkeys_perm l).symm)
    (sort_pubkeys_strict l' (hp.nodup_iff.mpr hl)) (sort_pubkeys_strict l hl)

theorem mem_infos_keys_iff (m : infos_map) (k : public_key) :
    k ∈ infos_keys m ↔ is_service_node m k = true := by
  induction m with
  | nil => simp [infos_keys, is_service_node, infos_find]
  | cons e rest ih =>
    obtain ⟨k0, v0⟩ := e
    by_cases h0 : k0 = k
    · simp [infos_keys, is_service_node, infos_find, h0]
    · have h1 : ¬ k = k0 := fun h => h0 h.symm
      simp only [infos_keys, is_service_node] at ih
      simp [infos_keys, is_service_node, infos_find, h0, h1, ih]

/-! ## Quorum derivation, step by step -/

theorem nodup_getElem?_inj {α : Type} {l : List α} (hl : l.Nodup) {i j : Nat} {a : α}
    (hi : l[i]? = some a) (hj : l[j]? = some a) : i = j := by
  induction l generalizing i j with
  | nil => simp at hi
  | cons b l ih =>
    rw [List.nodup_cons] at hl
    cases i with
    | zero =>
      cases j with
      | zero => rfl
      | succ j =>
        simp only [List.getElem?_cons_zero, Option.some.injEq] at hi
        simp only [List.getElem?_cons_succ] at hj
        subst hi
        exact absurd (List.getElem?_mem hj) hl.1
    | succ i =>
      cases j with
      | zero =>
        simp only [List.getElem?_cons_zero, Option.some.injEq] at hj
        simp only [List.getElem?_cons_succ] at hi
        subst hj
        exact absurd (List.getElem?_mem hi) hl.1
      | succ j =>
        simp only [List.getElem?_cons_succ] at hi hj
        rw [ih hl.2 hi hj]

theorem read_nodes_some {full : List public_key} {idx : List Nat} :
    ∀ (ps : List Nat) (res : List public_key), read_nodes full idx ps = some res →
      res = ps.map (node_at full idx) ∧
      ∀ p ∈ ps, ∃ ni k, idx[p]? = some ni ∧ full[ni]? = some k := by
  intro ps
  induction ps with
  | nil =>
    intro res h
    simp only [read_nodes, Option.some.injEq] at h
    subst h
    simp
  | cons p ps ih =>
    intro res h
    unfold read_nodes at h
    split at h
    · simp at h
    · rename_i ni hni
      split at h
      · simp at h
      · rename_i key hkey
        split at h
        · simp at h
        · rename_i rest hrest
          simp only [Option.some.injEq] at h
          subst h
          obtain ⟨h1, h2⟩ := ih rest hrest
          refine ⟨?_, ?_⟩
          · simp [node_at, hni, hkey, h1]
          · intro q hq
            rcases List.mem_cons.mp hq with rfl | hq'
            · exact ⟨ni, key, hni, hkey⟩
            · exact h2 q hq'

theorem read_nodes_total (full : List public_key) (idx : List Nat) :
    ∀ (ps : List Nat), (∀ p ∈ ps, ∃ ni k, idx[p]? = some ni ∧ full[ni]? = some k) →
      ∃ res, read_nodes full idx ps = some res := by
  intro ps
  induction ps with
  | nil => intro _; exact ⟨[], rfl⟩
  | cons p ps ih =>
    intro h
    obtain ⟨ni, k, hni, hk⟩ := h p (List.mem_cons_self _ _)
    obtain ⟨rest, hrest⟩ := ih (fun q hq => h q (List.mem_cons_of_mem _ hq))
    exact ⟨k :: rest, by simp [read_nodes, hni, hk, hrest]⟩

theorem read_nodes_length {full : List public_key} {idx : List Nat} {ps : List Nat}
    {res : List public_key} (h : read_nodes full idx ps = some res) :
    res.length = ps.length := by
  rw [(read_nodes_some ps res h).1, List.length_map]

theorem nodes_to_test_size_le (c : Constants) (n : Nat) :
    quorum_size c n + nodes_to_test_size c n ≤ n := by
  unfold nodes_to_test_size quorum_size
  have h1 : (n - min n c.QUORUM_SIZE) / c.NTH_OF_THE_NETWORK_TO_TEST ≤ n - min n c.QUORUM_SIZE :=
    Nat.div_le_self _ _
  omega

theorem size_t_to_int_small {n : Nat} (h : n < 2147483648) : size_t_to_int n = (n : Int) := by
  unfold size_t_to_int
  omega

theorem int_to_size_t_small {n : Nat} (h : n < U64) : int_to_size_t (n : Int) = n := by
  unfold int_to_size_t U64 at *
  omega

/-- The shuffled index vector is a rearrangement of `0, ..., N-1`, so every position below `N`
holds an index below `N`. -/
theorem shuffled_reads {full : List public_key} {idx : List Nat}
    (hperm : idx.Perm (List.range full.length)) {p : Nat} (hp : p < full.length) :
    ∃ ni k, idx[p]? = some ni ∧ full[ni]? = some k := by
  have hlen : idx.length = full.length := by rw [hperm.length_eq, List.length_range]
  have hp' : p < idx.length := by omega
  have hmem : idx[p] ∈ List.range full.length := hperm.mem_iff.mp (List.getElem_mem hp')
  have hlt : idx[p] < full.length := List.mem_range.mp hmem
  exact ⟨idx[p], full[idx[p]], List.getElem?_eq_getElem hp', List.getElem?_eq_getElem hlt⟩

/-- What `derive_quorum_state` returns: it does return (no read is out of range), the quorum
is the keys at the shuffled positions `0, ..., min(N, QUORUM_SIZE) - 1` and the test set is
the keys at the positions that follow. -/
theorem derive_quorum_state_spec (c : Constants) (x : Externals) (m : infos_map)
    (block_hash : hash)
    (hshuffle : ∀ seed l, (x.shuffle seed l).Perm l)
    (hN : m.length < U64) (hQ : c.QUORUM_SIZE < 2147483648) :
    derive_quorum_state c x m block_hash = some
      { quorum_nodes := (List.range (quorum_size c m.length)).map
          (node_at (get_service_node_pubkeys m)
            (x.shuffle (seed_of_hash block_hash) (List.range m.length)))
        nodes_to_test := (List.range (nodes_to_test_size c m.length)).map
          (fun i => node_at (get_service_node_pubkeys m)
            (x.shuffle (seed_of_hash block_hash) (List.range m.length))
            (quorum_size c m.length + i)) } := by
  have hfull : (get_service_node_pubkeys m).length = m.length := by
    rw [get_service_node_pubkeys, (sort_pubkeys_perm _).length_eq, infos_keys, List.length_map]
  have hperm : (x.shuffle (seed_of_hash block_hash) (List.range m.length)).Perm
      (List.range (get_service_node_pubkeys m).length) := by
    rw [hfull]
    exact hshuffle _ _
  have hidx : (x.shuffle (seed_of_hash block_hash) (List.range m.length)).length = m.length := by
    rw [(hshuffle _ _).length_eq, List.length_range]
  have hle := nodes_to_test_size_le c m.length
  obtain ⟨quorum, hq1⟩ := read_nodes_total (get_service_node_pubkeys m)
    (x.shuffle (seed_of_hash block_hash) (List.range m.length))
    (List.range (quorum_size c m.length))
    (fun p hp => shuffled_reads hperm (by have := List.mem_range.mp hp; omega))
  obtain ⟨tests, hq2⟩ := read_nodes_total (get_service_node_pubkeys m)
    (x.shuffle (seed_of_hash block_hash) (List.range m.length))
    ((List.range (nodes_to_test_size c m.length)).map (fun i => quorum_size c m.length + i))
    (fun p hp => by
      obtain ⟨i, hi, rfl⟩ := List.mem_map.mp hp
      exact shuffled_reads hperm (by have := List.mem_range.mp hi; omega))
  have hqlen : quorum.length = quorum_size c m.length := by
    rw [read_nodes_length hq1, List.length_range]
  have hqs : quorum_size c m.length < 2147483648 := by
    unfold quorum_size
    omega
  have hrem : u64_sub m.length (quorum_size c m.length) = m.length - quorum_size c m.length := by
    have : quorum_size c m.length ≤ m.length := by unfold quorum_size; omega
    unfold u64_sub U64 at *
    omega
  have hpos : (List.range (nodes_to_test_size c m.length)).map
      (fun (i : Nat) => int_to_size_t (size_t_to_int (quorum_size c m.length) + (i : Int))) =
      (List.range (nodes_to_test_size c m.length)).map (fun i => quorum_size c m.length + i) := by
    apply List.map_congr_left
    intro i hi
    have hi' := List.mem_range.mp hi
    rw [size_t_to_int_small hqs]
    have : ((quorum_size c m.length : Nat) : Int) + (i : Int) =
        ((quorum_size c m.length + i : Nat) : Int) := by push_cast; rfl
    rw [this, int_to_size_t_small (by omega)]
  unfold derive_quorum_state
  simp only [hfull, hidx]
  have hq1' : read_nodes (get_service_node_pubkeys m)
      (x.shuffle (seed_of_hash block_hash) (List.range m.length))
      (List.range (min m.length c.QUORUM_SIZE)) = some quorum := hq1
  rw [hq1']
  simp only [hqlen, hrem]
  have hnt : max ((m.length - quorum_size c m.length) / c.NTH_OF_THE_NETWORK_TO_TEST)
      (min c.MIN_NODES_TO_TEST (m.length - quorum_size c m.length)) =
      nodes_to_test_size c m.length := rfl
  rw [hnt, hpos, hq2]
  rw [(read_nodes_some _ _ hq1).1, (read_nodes_some _ _ hq2).1, List.map_map]
  rfl

theorem node_at_eq {full : List public_key} {idx : List Nat} {p ni : Nat} {k : public_key}
    (hni : idx[p]? = some ni) (hk : full[ni]? = some k) : node_at full idx p = k := by
  simp [node_at, hni, hk]

/-- Distinct positions of the shuffled index vector hold distinct keys. -/
theorem node_at_injective {full : List public_key} {idx : List Nat}
    (hfull : full.Nodup) (hperm : idx.Perm (List.range full.length)) {p p' : Nat}
    (hp : p < full.length) (hp' : p' < full.length)
    (h : node_at full idx p = node_at full idx p') : p = p' := by
  obtain ⟨ni, k, hni, hk⟩ := shuffled_reads hperm hp
  obtain ⟨ni', k', hni', hk'⟩ := shuffled_reads hperm hp'
  rw [node_at_eq hni hk, node_at_eq hni' hk'] at h
  subst h
  have hn : ni = ni' := nodup_getElem?_inj hfull hk hk'
  subst hn
  exact nodup_getElem?_inj (hperm.nodup_iff.mpr (List.nodup_range _)) hni hni'

theorem node_at_mem {full : List public_key} {idx : List Nat}
    (hperm : idx.Perm (List.range full.length)) {p : Nat} (hp : p < full.length) :
    node_at full idx p ∈ full := by
  obtain ⟨ni, k, hni, hk⟩ := shuffled_reads hperm hp
  rw [node_at_eq hni hk]
  exact List.getElem?_mem hk

theorem quorum_find_assign (l : List (Nat × quorum_state)) (h : Nat) (q : quorum_state) :
    quorum_find (quorum_assign l h q) h = some q := by
  induction l with
  | nil => simp [quorum_assign, quorum_find]
  | cons e rest ih =>
    obtain ⟨h', q'⟩ := e
    unfold quorum_assign
    split
    · simp [quorum_find]
    · split
      · simp [quorum_find]
      · rename_i hne
        simp [quorum_find, hne, ih]

/-- When the block hash is not null, the derived quorum state is what
`store_quorum_state_from_rewards_list` stores under the height. -/
theorem store_quorum_state_of_derive {c : Constants} {x : Externals} {bc : Blockchain}
    {s : service_node_list} {height : Nat} {q : quorum_state}
    (hhash : bc.get_block_id_by_height height ≠ null_hash)
    (hq : derive_quorum_state c x s.m_service_nodes_infos (bc.get_block_id_by_height height) =
      some q) :
    ∃ s', store_quorum_state_from_rewards_list c x bc s height = some s' ∧
      get_quorum_state s' height = some q := by
  refine ⟨_, by simp only [store_quorum_state_from_rewards_list, hhash, if_false, hq]; rfl, ?_⟩
  exact quorum_find_assign _ _ _

/-! ## The invariant of the node infos -/

theorem foldl_u64_add (l : List Nat) :
    ∀ a, a + l.sum < U64 → l.foldl (fun total share => u64_add total share) a = a + l.sum := by
  induction l with
  | nil => intro a _; simp
  | cons b l ih =>
    intro a h
    simp only [List.sum_cons] at h
    have hab : u64_add a b = a + b := by
      unfold u64_add
      exact Nat.mod_eq_of_lt (by omega)
    simp only [List.foldl_cons, List.sum_cons, hab]
    rw [ih (a + b) (by omega)]
    omega

theorem sum_le_of_u32 (l : List Nat) (hall : ∀ s ∈ l, s < 4294967296) :
    l.sum ≤ l.length * 4294967295 := by
  induction l with
  | nil => simp
  | cons b l ih =>
    have hb := hall b (List.mem_cons_self _ _)
    have := ih (fun s hs => hall s (List.mem_cons_of_mem _ hs))
    simp only [List.sum_cons, List.length_cons]
    omega

/-- The 64-bit accumulation of `uint32_t` shares is their sum. -/
theorem shares_total_eq_sum (l : List Nat) (hlen : l.length < 4294967296)
    (hall : ∀ s ∈ l, s < 4294967296) : shares_total l = l.sum := by
  have h := sum_le_of_u32 l hall
  unfold shares_total
  rw [foldl_u64_add l 0 (by unfold U64; omega)]
  omega

/-- What `reg_tx_extract_fields` returns when its result is `true`. -/
theorem reg_tx_extract_fields_true {tx : transaction} {f : reg_fields}
    (h : reg_tx_extract_fields tx = some f) (hr : f.result = true) :
    ∃ registration, tx.extra.service_node_register = some registration ∧
      f.shares = registration.m_shares ∧
      f.service_node_key = registration.m_service_node_key ∧
      f.addresses ≠ [] ∧ f.shares ≠ [] ∧ f.service_node_key ≠ null_pkey ∧
      reg_tx_addresses registration.m_public_spend_keys registration.m_public_view_keys =
        some f.addresses := by
  unfold reg_tx_extract_fields at h
  cases hreg : tx.extra.service_node_register with
  | none =>
    simp only [hreg, Option.some.injEq] at h
    subst h
    simp at hr
  | some registration =>
    simp only [hreg] at h
    cases haddr : reg_tx_addresses registration.m_public_spend_keys
        registration.m_public_view_keys with
    | none => simp [haddr] at h
    | some addresses =>
      simp only [haddr, Option.some.injEq] at h
      subst h
      simp only [Bool.and_eq_true, Bool.not_eq_true', decide_eq_true_eq,
        List.isEmpty_eq_false] at hr
      exact ⟨registration, rfl, rfl, rfl, hr.1.1.1, hr.2, hr.1.2, haddr⟩

/-- The info of an accepted registration of a well-formed transaction satisfies the
invariant. -/
theorem is_registration_tx_info_ok {c : Constants} {x : Externals} {bc : Blockchain}
    {m : infos_map} {tx : transaction} {block_height : Nat} {index : Int}
    {key : public_key} {info : service_node_info} (hwf : tx_wf tx)
    (h : is_registration_tx c x bc m tx block_height index = some (some (key, info))) :
    info_ok c info := by
  obtain ⟨f, hf, hres, htotal, _, _, rfl⟩ := is_registration_tx_accepts h
  obtain ⟨registration, hreg, hshares, _, ha, hs, _, _⟩ := reg_tx_extract_fields_true hf hres
  unfold tx_wf at hwf
  rw [hreg] at hwf
  refine ⟨ha, hs, ?_⟩
  simp only
  rw [hshares] at htotal ⊢
  rw [shares_total_eq_sum _ hwf.1 hwf.2] at htotal
  exact htotal

theorem mem_infos_erase {m : infos_map} {k : public_key} {e : public_key × service_node_info}
    (h : e ∈ infos_erase m k) : e ∈ m := by
  induction m with
  | nil => simp [infos_erase] at h
  | cons e0 rest ih =>
    obtain ⟨k0, v0⟩ := e0
    unfold infos_erase at h
    split at h
    · exact List.mem_cons_of_mem _ (ih h)
    · rcases List.mem_cons.mp h with rfl | h'
      · exact List.mem_cons_self _ _
      · exact List.mem_cons_of_mem _ (ih h')

theorem mem_infos_replace {m : infos_map} {k : public_key} {v : service_node_info}
    {e : public_key × service_node_info} (h : e ∈ infos_replace m k v) :
    e = (k, v) ∨ e ∈ m := by
  induction m with
  | nil => simp [infos_replace] at h
  | cons e0 rest ih =>
    obtain ⟨k0, v0⟩ := e0
    unfold infos_replace at h
    split at h
    · rename_i hk
      rcases List.mem_cons.mp h with rfl | h'
      · exact Or.inl (by rw [hk])
      · exact Or.inr (List.mem_cons_of_mem _ h')
    · rcases List.mem_cons.mp h with rfl | h'
      · exact Or.inr (List.mem_cons_self _ _)
      · rcases ih h' with h1 | h1
        · exact Or.inl h1
        · exact Or.inr (List.mem_cons_of_mem _ h1)

theorem mem_infos_assign {m : infos_map} {k : public_key} {v : service_node_info}
    {e : public_key × service_node_info} (h : e ∈ infos_assign m k v) :
    e = (k, v) ∨ e ∈ m := by
  unfold infos_assign at h
  split at h
  · exact mem_infos_replace h
  · rcases List.mem_cons.mp h with rfl | h'
    · exact Or.inl rfl
    · exact Or.inr h'

theorem infos_ok_assign {c : Constants} {m : infos_map} {k : public_key}
    {v : service_node_info} (hm : infos_ok c m) (hv : info_ok c v) :
    infos_ok c (infos_assign m k v) := by
  intro e he
  rcases mem_infos_assign he with rfl | h
  · exact hv
  · exact hm e h

theorem infos_ok_erase {c : Constants} {m : infos_map} {k : public_key}
    (hm : infos_ok c m) : infos_ok c (infos_erase m k) :=
  fun e he => hm e (mem_infos_erase he)

theorem events_ok_append_change {c : Constants} {events : List rollback_event} {h : Nat}
    {k : public_key} {info : service_node_info} (he : events_ok c events)
    (hi : info_ok c info) :
    events_ok c (events ++ [rollback_event.rollback_change h k info]) := by
  intro h' k' info' hmem
  rcases List.mem_append.mp hmem with h1 | h1
  · exact he h' k' info' h1
  · simp only [List.mem_singleton, rollback_event.rollback_change.injEq] at h1
    rw [h1.2.2]
    exact hi

theorem events_ok_append_other {c : Constants} {events : List rollback_event}
    {e : rollback_event} (he : events_ok c events)
    (hne : ∀ h k info, e ≠ rollback_event.rollback_change h k info) :
    events_ok c (events ++ [e]) := by
  intro h' k' info' hmem
  rcases List.mem_append.mp hmem with h1 | h1
  · exact he h' k' info' h1
  · simp only [List.mem_singleton] at h1
    exact absurd h1.symm (hne h' k' info')

/-- The winner step preserves the invariant: the re-anchored info keeps its addresses and
shares, and the journal saves an info of the active set. -/
theorem reanchor_winner_ok {c : Constants} (block_height : Nat) (winner_pubkey : public_key)
    (st : infos_map × List rollback_event) (h : infos_ok c st.1 ∧ events_ok c st.2) :
    infos_ok c (reanchor_winner block_height winner_pubkey st).1 ∧
      events_ok c (reanchor_winner block_height winner_pubkey st).2 := by
  unfold reanchor_winner
  split
  · exact h
  · rename_i info hinfo
    have hok : info_ok c info := h.1 _ (infos_find_mem hinfo)
    exact ⟨infos_ok_assign h.1 ⟨hok.1, hok.2.1, hok.2.2⟩, events_ok_append_change h.2 hok⟩

/-- One iteration of the transaction loop preserves the invariant. -/
theorem process_tx_ok {c : Constants} {x : Externals} {bc : Blockchain}
    {s : service_node_list} {block_height : Nat} {tx : transaction} {index : Int}
    {st st' : infos_map × List rollback_event} (hwf : tx_wf tx)
    (h : process_tx c x bc s block_height tx index st = some st')
    (hok : infos_ok c st.1 ∧ events_ok c st.2) :
    infos_ok c st'.1 ∧ events_ok c st'.2 := by
  unfold process_tx at h
  split at h
  · simp at h
  · rename_i key info hreg
    split at h
    · simp only [Option.some.injEq] at h
      subst h
      exact ⟨infos_ok_assign hok.1 (is_registration_tx_info_ok hwf hreg),
        events_ok_append_other hok.2 (fun _ _ _ => by simp)⟩
    · simp only [Option.some.injEq] at h
      subst h
      exact hok
  · split at h
    · rename_i key hkey
      split at h
      · rename_i info hinfo
        simp only [Option.some.injEq] at h
        subst h
        exact ⟨infos_ok_erase hok.1,
          events_ok_append_change hok.2 (hok.1 _ (infos_find_mem hinfo))⟩
      · simp only [Option.some.injEq] at h
        subst h
        exact hok
    · simp only [Option.some.injEq] at h
      subst h
      exact hok

/-- The transaction loop preserves the invariant. -/
theorem process_txs_ok {c : Constants} {x : Externals} {bc : Blockchain}
    {s : service_node_list} {block_height : Nat} (txs : List transaction) :
    ∀ (index : Int) (st st' : infos_map × List rollback_event),
      (∀ tx ∈ txs, tx_wf tx) →
      process_txs c x bc s block_height txs index st = some st' →
      infos_ok c st.1 ∧ events_ok c st.2 → infos_ok c st'.1 ∧ events_ok c st'.2 := by
  induction txs with
  | nil =>
    intro index st st' _ h hok
    simp only [process_txs, Option.some.injEq] at h
    subst h
    exact hok
  | cons tx rest ih =>
    intro index st st' hwf h hok
    unfold process_txs at h
    split at h
    · simp at h
    · rename_i st1 hst1
      exact ih _ _ _ (fun t ht => hwf t (List.mem_cons_of_mem _ ht)) h
        (process_tx_ok (hwf tx (List.mem_cons_self _ _)) hst1 hok)

/-- Pruning the journal preserves the invariant. -/
theorem prune_rollback_events_ok {c : Constants} {events : List rollback_event}
    (block_height : Nat) (h : events_ok c events) :
    events_ok c (prune_rollback_events c events block_height) :=
  fun h' k info hmem => h h' k info ((List.dropWhile_sublist _).mem hmem)

/-- Processing a block preserves the invariant. -/
theorem block_added_generic_ok {c : Constants} {x : Externals} {bc : Blockchain}
    {s s' : service_node_list} {b : block} {txs : List transaction}
    (hwf : ∀ tx ∈ txs, tx_wf tx) (h : block_added_generic c x bc s b txs = some s')
    (hok : registry_ok c s) : registry_ok c s' := by
  by_cases hf : bc.get_hard_fork_version (get_block_height b) < 9
  · unfold block_added_generic at h
    simp only [hf, if_true, Option.some.injEq] at h
    subst h
    exact hok
  · obtain ⟨st3, hst3, hq⟩ := block_added_generic_steps hf h
    have h3 := process_txs_ok txs _ _ _ hwf hst3
      (reanchor_winner_ok _ _ (_, _) ⟨hok.1, prune_rollback_events_ok _ hok.2⟩)
    unfold registry_ok
    rw [(cache_quorum_state_frame hq).1, (cache_quorum_state_frame hq).2]
    exact h3

/-- The inner loop of `init` preserves the invariant. -/
theorem init_blocks_ok {c : Constants} {x : Externals} {bc : Blockchain} (hbc : chain_wf bc)
    (blocks : List block) :
    ∀ (s s' : service_node_list) (flag : Bool),
      init_blocks c x bc s blocks = some (s', flag) → registry_ok c s → registry_ok c s' := by
  induction blocks with
  | nil =>
    intro s s' flag h hok
    simp only [init_blocks, Option.some.injEq, Prod.mk.injEq] at h
    rw [← h.1]
    exact hok
  | cons b rest ih =>
    intro s s' flag h hok
    unfold init_blocks at h
    split at h
    · simp only [Option.some.injEq, Prod.mk.injEq] at h
      rw [← h.1]
      exact hok
    · rename_i txs htxs
      split at h
      · simp at h
      · rename_i s1 hs1
        exact ih s1 s' flag h (block_added_generic_ok (hbc _ _ htxs) hs1 hok)

/-- The outer loop of `init` preserves the invariant. -/
theorem init_chunks_ok {c : Constants} {x : Externals} {bc : Blockchain} (hbc : chain_wf bc)
    (heights : List Nat) :
    ∀ (s s' : service_node_list) (flag : Bool),
      init_chunks c x bc s heights = some (s', flag) → registry_ok c s → registry_ok c s' := by
  induction heights with
  | nil =>
    intro s s' flag h hok
    simp only [init_chunks, Option.some.injEq, Prod.mk.injEq] at h
    rw [← h.1]
    exact hok
  | cons height rest ih =>
    intro s s' flag h hok
    unfold init_chunks at h
    split at h
    · simp only [Option.some.injEq, Prod.mk.injEq] at h
      rw [← h.1]
      exact hok
    · rename_i blocks hblocks
      split at h
      · simp at h
      · rename_i s1 hs1
        simp only [Option.some.injEq, Prod.mk.injEq] at h
        rw [← h.1]
        exact init_blocks_ok hbc blocks _ _ _ hs1 hok
      · rename_i s1 hs1
        exact ih s1 s' flag h (init_blocks_ok hbc blocks _ _ _ hs1 hok)

/-- The method `init` re-establishes the invariant, also when it returns early. -/
theorem init_ok {c : Constants} {x : Externals} {bc : Blockchain} (hbc : chain_wf bc)
    {s s' : service_node_list} (h : init c x bc s = some s') : registry_ok c s' := by
  unfold init init_run at h
  simp only at h
  have h0 : registry_ok c { s with m_service_nodes_infos := [], m_rollback_events := [] } :=
    ⟨fun e he => by simp at he, fun _ _ _ he => by simp at he⟩
  split at h
  · simp at h
  · rename_i s1 hs1
    simp only [Option.map_some', Option.some.injEq] at h
    subst h
    exact init_chunks_ok hbc _ _ _ _ hs1 h0
  · rename_i s1 hs1
    simp only [Option.map_some', Option.some.injEq] at h
    subst h
    have h1 := init_chunks_ok hbc _ _ _ _ hs1 h0
    exact ⟨h1.1, events_ok_append_other h1.2 (fun _ _ _ => by simp)⟩

/-- Undoing journal events preserves the invariant: a `rollback_change` event restores an
info that satisfied the invariant when it was saved, a `rollback_new` event erases. -/
theorem detach_events_ok {c : Constants} (height : Nat) (events : List rollback_event) :
    ∀ m : infos_map, events_ok c events → infos_ok c m →
      events_ok c (detach_events height events m).1 ∧
        infos_ok c (detach_events height events m).2.1 := by
  induction events with
  | nil => intro m he hm; exact ⟨he, hm⟩
  | cons e rest ih =>
    intro m he hm
    have hrest : events_ok c rest := fun h k info hmem => he h k info (List.mem_cons_of_mem _ hmem)
    unfold detach_events
    split
    · cases e with
      | rollback_change h k info =>
        simp only [rollback_event.apply]
        exact ih _ hrest (infos_ok_assign hm (he h k info (List.mem_cons_self _ _)))
      | rollback_new h k =>
        simp only [rollback_event.apply]
        cases hfind : infos_find m k with
        | none => exact ⟨he, hm⟩
        | some info => exact ih _ hrest (infos_ok_erase hm)
      | prevent_rollback h =>
        simp only [rollback_event.apply]
        exact ⟨he, hm⟩
    · exact ⟨he, hm⟩

/-- The method `blockchain_detached` preserves the invariant. -/
theorem blockchain_detached_ok {c : Constants} {x : Externals} {bc : Blockchain}
    (hbc : chain_wf bc) {s s' : service_node_list} {height : Nat}
    (h : blockchain_detached c x bc s height = some s') (hok : registry_ok c s) :
    registry_ok c s' := by
  unfold blockchain_detached at h
  simp only at h
  have hrev : events_ok c s.m_rollback_events.reverse :=
    fun h' k info hmem => hok.2 h' k info (List.mem_reverse.mp hmem)
  have hd := detach_events_ok height s.m_rollback_events.reverse s.m_service_nodes_infos
    hrev hok.1
  split at h
  · simp at h
  · rename_i s2 hs2
    simp only [Option.some.injEq] at h
    subst h
    have h2 : registry_ok c s2 := by
      split at hs2
      · exact init_ok hbc hs2
      · simp only [Option.some.injEq] at hs2
        subst hs2
        exact ⟨hd.2, fun h' k info hmem => hd.1 h' k info (List.mem_reverse.mp hmem)⟩
    exact h2

/-- Every reachable registry satisfies the invariant. -/
theorem reachable_registry_ok {c : Constants} {x : Externals} {s : service_node_list}
    (h : Reachable c x s) : registry_ok c s := by
  induction h with
  | empty => exact ⟨fun e he => by simp [empty_registry] at he,
      fun _ _ _ he => by simp [empty_registry] at he⟩
  | block_added bc s s' b txs _ _ hwf hstep ih => exact block_added_generic_ok hwf hstep ih
  | blockchain_detached bc s s' height _ hbc hstep ih => exact blockchain_detached_ok hbc hstep ih
  | init bc s s' _ hbc hstep _ => exact init_ok hbc hstep

theorem test_chain_wf (reg_height tip : Nat) : chain_wf (test_chain reg_height tip) := by
  intro hashes txs h tx htx
  simp only [test_chain, Option.some.injEq] at h
  subst h
  obtain ⟨_, _, rfl⟩ := List.mem_map.mp htx
  simp [tx_wf, registration_of_K, registration_tx, plain_extra]

/-! ## General forms of the two slips -/

/-- Below the rollback window the pruning threshold wraps around: for every value of
`ROLLBACK_EVENT_EXPIRATION_BLOCKS` that exceeds the block height, a journal whose events are
all at or below the block height is emptied. -/
theorem prune_rollback_events_wraps (c : Constants) (events : List rollback_event)
    (block_height : Nat) (hlt : block_height < c.ROLLBACK_EVENT_EXPIRATION_BLOCKS)
    (hR : c.ROLLBACK_EVENT_EXPIRATION_BLOCKS < U64)
    (hev : ∀ e ∈ events, e.m_block_height ≤ block_height) :
    prune_rollback_events c events block_height = [] := by
  unfold prune_rollback_events
  rw [List.dropWhile_eq_nil_iff]
  intro e he
  have h1 := hev e he
  have h2 : e.m_block_height <
      u64_sub block_height c.ROLLBACK_EVENT_EXPIRATION_BLOCKS := by
    unfold u64_sub U64 at *
    omega
  simpa using h2

/-- The loop of `select_winner` on a map whose last traversed entry is `(k, info)`: that
entry wins whenever its pair is below the initial `oldest_waiting`, whatever precedes it. -/
theorem select_winner_loop_append (o : Nat × Int) (m : infos_map) (k : public_key)
    (info : service_node_info) :
    ∀ key, select_winner_loop o (m ++ [(k, info)]) key =
      if pair_lt (info.block_height, info.transaction_index) o = true then k
      else select_winner_loop o m key := by
  induction m with
  | nil =>
    intro key
    simp only [List.nil_append, select_winner_loop]
  | cons e rest ih =>
    intro key
    rw [List.cons_append]
    unfold select_winner_loop
    simp only
    split
    · exact ih _
    · exact ih _

/-- The winner step followed by `select_winner`: when the winner named by the block is the
last entry traversed, it is selected again after it was re-anchored at `(0, -1)`. -/
theorem select_winner_after_reanchor (m : infos_map) (w : public_key)
    (info : service_node_info) (events : List rollback_event) (block_height : Nat)
    (prev_id : hash) (habsent : infos_find m w = none) :
    select_winner (reanchor_winner block_height w (m ++ [(w, info)], events)).1 prev_id = w := by
  have hfind : ∀ (l : infos_map), infos_find l w = none →
      infos_find (l ++ [(w, info)]) w = some info := by
    intro l
    induction l with
    | nil => intro _; simp [infos_find]
    | cons e rest ih =>
      obtain ⟨k0, v0⟩ := e
      intro h
      by_cases h0 : k0 = w
      · simp [infos_find, h0] at h
      · simp only [infos_find, h0, if_false] at h
        simpa [infos_find, h0] using ih h
  have hrep : ∀ (l : infos_map) (v : service_node_info), infos_find l w = none →
      infos_replace (l ++ [(w, info)]) w v = l ++ [(w, v)] := by
    intro l v
    induction l with
    | nil => intro _; simp [infos_replace]
    | cons e rest ih =>
      obtain ⟨k0, v0⟩ := e
      intro h
      by_cases h0 : k0 = w
      · simp [infos_find, h0] at h
      · simp only [infos_find, h0, if_false] at h
        simp [infos_replace, h0, ih h]
  unfold reanchor_winner
  simp only [hfind m habsent, infos_assign, Option.isSome_some, if_true, hrep m _ habsent]
  unfold select_winner
  rw [select_winner_loop_append]
  have : pair_lt ((0 : Nat), (-1 : Int)) (UINT64_MAX, INT_MAX) = true := by decide
  simp [this]

/-! ## The transaction loop, case by case -/

/-- A transaction whose payload names a key of the active set is not a registration, whatever
its other fields are. -/
theorem is_registration_tx_of_registered {c : Constants} {x : Externals} {bc : Blockchain}
    {m : infos_map} {tx : transaction} {block_height : Nat} {index : Int} {f : reg_fields}
    (hf : reg_tx_extract_fields tx = some f)
    (hK : is_service_node m f.service_node_key = true) :
    is_registration_tx c x bc m tx block_height index = some none := by
  unfold is_registration_tx
  simp only [hf, hK]
  split
  · rfl
  · split
    · rfl
    · split
      · rfl
      · rfl

/-- A transaction that `is_deregistration_tx` rejects removes no key: one iteration of the
transaction loop keeps every registered key registered. -/
theorem process_tx_keeps_of_not_deregistration {c : Constants} {x : Externals}
    {bc : Blockchain} {s : service_node_list} {block_height : Nat} {tx : transaction}
    {index : Int} {st st' : infos_map × List rollback_event} {K : public_key}
    (hd : is_deregistration_tx s tx = none)
    (h : process_tx c x bc s block_height tx index st = some st')
    (hK : is_service_node st.1 K = true) : is_service_node st'.1 K = true := by
  unfold process_tx at h
  split at h
  · simp at h
  · split at h
    · simp only [Option.some.injEq] at h
      subst h
      simp only [is_service_node, infos_find_assign]
      split
      · rfl
      · exact hK
    · simp only [Option.some.injEq] at h
      subst h
      exact hK
  · rw [hd] at h
    simp only [Option.some.injEq] at h
    subst h
    exact hK

/-! ## The quorum step always returns -/

/-- With a shuffle that returns a rearrangement, `store_quorum_state_from_rewards_list`
returns: no read of its copy loops is out of range. -/
theorem store_quorum_state_total (c : Constants) (x : Externals) (bc : Blockchain)
    (s : service_node_list) (height : Nat)
    (hshuffle : ∀ seed l, (x.shuffle seed l).Perm l)
    (hN : s.m_service_nodes_infos.length < U64) (hQ : c.QUORUM_SIZE < 2147483648) :
    ∃ s', store_quorum_state_from_rewards_list c x bc s height = some s' := by
  unfold store_quorum_state_from_rewards_list
  simp only
  split
  · exact ⟨s, rfl⟩
  · rw [derive_quorum_state_spec c x s.m_service_nodes_infos _ hshuffle hN hQ]
    exact ⟨_, rfl⟩

/-- With a shuffle that returns a rearrangement, the quorum step of `block_added_generic`
returns. -/
theorem cache_quorum_state_total (c : Constants) (x : Externals) (bc : Blockchain)
    (s : service_node_list) (block_height : Nat)
    (hshuffle : ∀ seed l, (x.shuffle seed l).Perm l)
    (hN : s.m_service_nodes_infos.length < U64) (hQ : c.QUORUM_SIZE < 2147483648) :
    ∃ s', cache_quorum_state c x bc s block_height = some s' := by
  unfold cache_quorum_state
  split
  · obtain ⟨s1, h1⟩ := store_quorum_state_total c x bc s block_height hshuffle hN hQ
    rw [h1]
    exact ⟨_, rfl⟩
  · exact ⟨s, rfl⟩

/-- On a map with a single entry whose height is a `uint64_t`, `select_winner` returns the
key of the entry. -/
theorem select_winner_single (k : public_key) (info : service_node_info) (prev_id : hash)
    (hh : info.block_height < U64) (hi : info.transaction_index < INT_MAX) :
    select_winner [(k, info)] prev_id = k := by
  unfold select_winner select_winner_loop
  have hlt : pair_lt (info.block_height, info.transaction_index) (UINT64_MAX, INT_MAX) =
      true := by
    unfold pair_lt UINT64_MAX
    unfold U64 at hh
    simp only [Bool.or_eq_true, Bool.and_eq_true, decide_eq_true_eq, Bool.not_eq_true',
      decide_eq_false_iff_not]
    by_cases h1 : info.block_height < 18446744073709551615
    · exact Or.inl h1
    · exact Or.inr ⟨by omega, hi⟩
  simp only [hlt, if_true, select_winner_loop]

/-! ## Undoing the events of one block -/

/-- The inverse of an event acts on the active set as a map: on equal maps it gives the same
result and equal maps. -/
theorem rollback_event_apply_congr (e : rollback_event) {m m' : infos_map}
    (h : infos_equiv m m') :
    (e.apply m).1 = (e.apply m').1 ∧ infos_equiv (e.apply m).2 (e.apply m').2 := by
  cases e with
  | rollback_change bh k info =>
    refine ⟨rfl, fun k' => ?_⟩
    simp only [rollback_event.apply, infos_find_assign, h k']
  | rollback_new bh k =>
    simp only [rollback_event.apply, ← h k]
    cases infos_find m k with
    | none => exact ⟨rfl, h⟩
    | some v =>
      refine ⟨rfl, fun k' => ?_⟩
      simp only [infos_find_erase, h k']
  | prevent_rollback bh => exact ⟨rfl, h⟩

/-- The first loop of `blockchain_detached` acts on the active set as a map. -/
theorem detach_events_congr (height : Nat) (events : List rollback_event) :
    ∀ m m' : infos_map, infos_equiv m m' →
      (detach_events height events m).1 = (detach_events height events m').1 ∧
      (detach_events height events m).2.2 = (detach_events height events m').2.2 ∧
      infos_equiv (detach_events height events m).2.1 (detach_events height events m').2.1 := by
  induction events with
  | nil => intro m m' h; exact ⟨rfl, rfl, h⟩
  | cons e rest ih =>
    intro m m' h
    obtain ⟨h1, h2⟩ := rollback_event_apply_congr e h
    unfold detach_events
    split
    · cases hr : e.apply m with
      | mk ok r =>
        cases hr' : e.apply m' with
        | mk ok' r' =>
          rw [hr, hr'] at h1 h2
          simp only at h1 h2
          subst h1
          cases ok with
          | false => exact ⟨rfl, rfl, h2⟩
          | true => exact ih r r' h2
    · exact ⟨rfl, rfl, h⟩

/-- The first loop of `blockchain_detached` stops at once on a journal whose events are all
below the height. -/
theorem detach_events_stop (height : Nat) (events : List rollback_event) (m : infos_map)
    (h : ∀ e ∈ events, e.m_block_height < height) :
    detach_events height events m = (events, m, false) := by
  cases events with
  | nil => rfl
  | cons e rest =>
    have he := h e (List.mem_cons_self _ _)
    unfold detach_events
    rw [if_neg (by omega)]

/-- The state before the events of the block are added is undoable. -/
theorem undoable_base (height : Nat) (m : infos_map) (events : List rollback_event)
    (h : ∀ e ∈ events, e.m_block_height < height) : undoable height m events (m, events) := by
  refine ⟨[], m, by simp, ?_, fun _ => rfl⟩
  simp only [List.reverse_nil, List.nil_append]
  exact detach_events_stop height _ m (fun e he => h e (List.mem_reverse.mp he))

/-- Appending an event at or above the height whose inverse takes the new active set back to
the old one keeps the state undoable. -/
theorem undoable_step {height : Nat} {base_infos : infos_map}
    {base_events : List rollback_event} {st : infos_map × List rollback_event}
    (e : rollback_event) (m1 m2 : infos_map)
    (hu : undoable height base_infos base_events st) (hh : e.m_block_height ≥ height)
    (happly : e.apply m1 = (true, m2)) (hback : infos_equiv m2 st.1) :
    undoable height base_infos base_events (m1, st.2 ++ [e]) := by
  obtain ⟨added, m', hadded, hdetach, hequiv⟩ := hu
  obtain ⟨h1, h2, h3⟩ := detach_events_congr height (added.reverse ++ base_events.reverse)
    m2 st.1 hback
  rw [hdetach] at h1 h2 h3
  cases hr : detach_events height (added.reverse ++ base_events.reverse) m2 with
  | mk ev rest2 =>
    cases rest2 with
    | mk mm fl =>
      rw [hr] at h1 h2 h3
      simp only at h1 h2 h3
      subst h1 h2
      refine ⟨added ++ [e], mm, by rw [hadded, List.append_assoc], ?_,
        fun k => (h3 k).trans (hequiv k)⟩
      simp only [List.reverse_append, List.reverse_cons, List.reverse_nil, List.nil_append,
        List.singleton_append, List.cons_append]
      rw [detach_events, if_pos hh, happly]
      exact hr

/-- The winner step keeps the state undoable. -/
theorem reanchor_winner_undoable {height : Nat} {base_infos : infos_map}
    {base_events : List rollback_event} (winner_pubkey : public_key)
    {st : infos_map × List rollback_event}
    (hu : undoable height base_infos base_events st) :
    undoable height base_infos base_events (reanchor_winner height winner_pubkey st) := by
  unfold reanchor_winner
  split
  · exact hu
  · rename_i info hinfo
    refine undoable_step _ _ _ hu (Nat.le_refl _) rfl ?_
    intro k
    simp only [infos_find_assign]
    split
    · rename_i hk
      rw [← hk, hinfo]
    · rfl

/-- One iteration of the transaction loop keeps the state undoable. -/
theorem process_tx_undoable {c : Constants} {x : Externals} {bc : Blockchain}
    {s : service_node_list} {height : Nat} {tx : transaction} {index : Int}
    {base_infos : infos_map} {base_events : List rollback_event}
    {st st' : infos_map × List rollback_event}
    (h : process_tx c x bc s height tx index st = some st')
    (hu : undoable height base_infos base_events st) :
    undoable height base_infos base_events st' := by
  unfold process_tx at h
  split at h
  · simp at h
  · rename_i key info hreg
    split at h
    · rename_i hnone
      simp only [Option.some.injEq] at h
      subst h
      have hfound : infos_find (infos_assign st.1 key info) key = some info := by
        simp [infos_find_assign]
      refine undoable_step (rollback_event.rollback_new height key) _
        (infos_erase (infos_assign st.1 key info) key) hu (Nat.le_refl _)
        (by simp only [rollback_event.apply, hfound]) ?_
      intro k
      simp only [infos_find_erase, infos_find_assign]
      split
      · rename_i hk
        rw [← hk, hnone]
      · rfl
    · simp only [Option.some.injEq] at h
      subst h
      exact hu
  · split at h
    · rename_i key hkey
      split at h
      · rename_i info hinfo
        simp only [Option.some.injEq] at h
        subst h
        refine undoable_step _ _ _ hu (Nat.le_refl _) rfl ?_
        intro k
        simp only [infos_find_assign, infos_find_erase]
        split
        · rename_i hk
          rw [← hk, hinfo]
        · rfl
      · simp only [Option.some.injEq] at h
        subst h
        exact hu
    · simp only [Option.some.injEq] at h
      subst h
      exact hu

/-- The transaction loop keeps the state undoable. -/
theorem process_txs_undoable {c : Constants} {x : Externals} {bc : Blockchain}
    {s : service_node_list} {height : Nat} {base_infos : infos_map}
    {base_events : List rollback_event} (txs : List transaction) :
    ∀ (index : Int) (st st' : infos_map × List rollback_event),
      process_txs c x bc s height txs index st = some st' →
      undoable height base_infos base_events st →
      undoable height base_infos base_events st' := by
  induction txs with
  | nil =>
    intro index st st' h hu
    simp only [process_txs, Option.some.injEq] at h
    subst h
    exact hu
  | cons tx rest ih =>
    intro index st st' h hu
    unfold process_txs at h
    split at h
    · simp at h
    · rename_i st1 hst1
      exact ih _ _ _ h (process_tx_undoable hst1 hu)

/-! ## Reward recipients and journal pruning, general forms -/

/-- The pairing loop of `get_winner_addresses_and_shares` returns the addresses zipped with
the shares when there are at least as many shares as addresses. -/
theorem winner_pairs_eq_zip : ∀ (addresses : List account_public_address) (shares : List Nat),
    addresses.length ≤ shares.length →
    winner_pairs addresses shares = some (addresses.zip shares) := by
  intro addresses
  induction addresses with
  | nil => intro shares _; rfl
  | cons a rest ih =>
    intro shares h
    cases shares with
    | nil => simp at h
    | cons sh shs =>
      simp only [List.length_cons, Nat.add_le_add_iff_right] at h
      simp [winner_pairs, ih shs h]

/-- The pairing loop reads the shares out of range when there are fewer shares than
addresses. -/
theorem winner_pairs_out_of_range : ∀ (addresses : List account_public_address)
    (shares : List Nat), shares.length < addresses.length →
    winner_pairs addresses shares = none := by
  intro addresses
  induction addresses with
  | nil => intro shares h; simp at h
  | cons a rest ih =>
    intro shares h
    cases shares with
    | nil => rfl
    | cons sh shs =>
      simp only [List.length_cons, Nat.add_lt_add_iff_right] at h
      simp [winner_pairs, ih shs h]

/-- What `get_winner_addresses_and_shares` returns: the null address with all shares when
there is no winner; otherwise the winner is found in the active set, and its addresses are
paired with its shares when there are enough shares. -/
theorem get_winner_addresses_and_shares_spec (c : Constants) (m : infos_map) (prev_id : hash) :
    (select_winner m prev_id = null_pkey →
      get_winner_addresses_and_shares c m prev_id = some [(null_address, c.STAKING_SHARES)]) ∧
    (select_winner m prev_id ≠ null_pkey →
      ∃ info, infos_find m (select_winner m prev_id) = some info ∧
        (info.addresses.length ≤ info.shares.length →
          get_winner_addresses_and_shares c m prev_id =
            some (info.addresses.zip info.shares)) ∧
        (info.shares.length < info.addresses.length →
          get_winner_addresses_and_shares c m prev_id = none)) := by
  constructor
  · intro h
    simp [get_winner_addresses_and_shares, h]
  · intro h
    rcases select_winner_null_or_found m prev_id with h0 | h0
    · exact absurd h0 h
    · obtain ⟨info, hinfo⟩ := Option.isSome_iff_exists.mp h0
      refine ⟨info, hinfo, ?_, ?_⟩
      · intro hlen
        simp [get_winner_addresses_and_shares, h, hinfo, winner_pairs_eq_zip _ _ hlen]
      · intro hlen
        simp [get_winner_addresses_and_shares, h, hinfo, winner_pairs_out_of_range _ _ hlen]

/-- At or above the rollback window, pruning a height-ordered journal keeps exactly the
events at height `h - ROLLBACK_EVENT_EXPIRATION_BLOCKS` or above. -/
theorem prune_rollback_events_sorted (c : Constants) (events : List rollback_event)
    (block_height : Nat) (hR : c.ROLLBACK_EVENT_EXPIRATION_BLOCKS ≤ block_height)
    (hh : block_height < U64)
    (hsorted : events.Pairwise (fun a b => a.m_block_height ≤ b.m_block_height)) :
    prune_rollback_events c events block_height =
      events.filter (fun e =>
        decide (block_height - c.ROLLBACK_EVENT_EXPIRATION_BLOCKS ≤ e.m_block_height)) := by
  have hsub : u64_sub block_height c.ROLLBACK_EVENT_EXPIRATION_BLOCKS =
      block_height - c.ROLLBACK_EVENT_EXPIRATION_BLOCKS := by
    unfold u64_sub U64 at *
    omega
  unfold prune_rollback_events
  rw [hsub]
  induction events with
  | nil => rfl
  | cons e rest ih =>
    rw [List.pairwise_cons] at hsorted
    by_cases he : e.m_block_height < block_height - c.ROLLBACK_EVENT_EXPIRATION_BLOCKS
    · have hne : ¬ block_height - c.ROLLBACK_EVENT_EXPIRATION_BLOCKS ≤ e.m_block_height := by
        omega
      simp only [List.dropWhile_cons, he, decide_True, if_true, List.filter_cons, hne,
        decide_False, Bool.false_eq_true, if_false]
      exact ih hsorted.2
    · have hge : block_height - c.ROLLBACK_EVENT_EXPIRATION_BLOCKS ≤ e.m_block_height := by
        omega
      simp only [List.dropWhile_cons, he, decide_False, Bool.false_eq_true, if_false,
        List.filter_cons, hge, decide_True, if_true]
      congr 1
      symm
      rw [List.filter_eq_self]
      intro a ha
      have := hsorted.1 a ha
      simp only [decide_eq_true_eq]
      omega

/-! ## The staked amount -/

/-- The decoded contribution is zero for a target that is not `txout_to_key`, for an
unsupported RingCT type and for a decoder that throws, and the decoded amount otherwise. -/
theorem decoded_contribution_cases (x : Externals) (tx : transaction) (gov_sec : secret_key)
    (a : account_public_address) (i : Nat) (out : tx_out) (hout : tx.vout[i]? = some out) :
    (out.target = txout_target.txout_other → decoded_contribution x tx gov_sec a i = 0) ∧
    (∀ n, tx.rct_signatures.type = RCTType.RCTTypeUnknown n →
      decoded_contribution x tx gov_sec a i = 0) ∧
    (tx.rct_signatures.type = RCTType.RCTTypeNull →
      decoded_contribution x tx gov_sec a i = 0) ∧
    (∀ key, out.target = txout_target.txout_to_key key →
      (tx.rct_signatures.type = RCTType.RCTTypeSimple ∨
        tx.rct_signatures.type = RCTType.RCTTypeSimpleBulletproof) →
      decoded_contribution x tx gov_sec a i =
        (x.decodeRctSimple tx.rct_signatures
          (x.derivation_to_scalar (x.generate_key_derivation a.m_view_public_key gov_sec).2 i)
          i).getD 0) ∧
    (∀ key, out.target = txout_target.txout_to_key key →
      (tx.rct_signatures.type = RCTType.RCTTypeFull ∨
        tx.rct_signatures.type = RCTType.RCTTypeFullBulletproof) →
      decoded_contribution x tx gov_sec a i =
        (x.decodeRct tx.rct_signatures
          (x.derivation_to_scalar (x.generate_key_derivation a.m_view_public_key gov_sec).2 i)
          i).getD 0) := by
  unfold decoded_contribution get_reg_tx_staking_output_contribution
  simp only [hout]
  refine ⟨?_, ?_, ?_, ?_, ?_⟩
  · intro h
    simp [h]
  · intro n h
    cases ht : out.target <;> simp [h]
  · intro h
    cases ht : out.target <;> simp [h]
  · intro key hk ht
    rcases ht with ht | ht <;> simp [hk, ht]
  · intro key hk ht
    rcases ht with ht | ht <;> simp [hk, ht]

/-- Within the outputs of the transaction the contribution function of the source returns
the decoded contribution. -/
theorem get_reg_tx_staking_output_contribution_some (x : Externals) (tx : transaction)
    (gov_sec : secret_key) (a : account_public_address) (i : Nat) (hi : i < tx.vout.length) :
    get_reg_tx_staking_output_contribution x tx i
        (x.generate_key_derivation a.m_view_public_key gov_sec).2 =
      some (decoded_contribution x tx gov_sec a i) := by
  unfold decoded_contribution
  have hsome : (get_reg_tx_staking_output_contribution x tx i
      (x.generate_key_derivation a.m_view_public_key gov_sec).2).isSome = true := by
    unfold get_reg_tx_staking_output_contribution
    rw [List.getElem?_eq_getElem hi]
    simp only
    cases tx.vout[i].target with
    | txout_other => rfl
    | txout_to_key k => cases tx.rct_signatures.type <;> rfl
  obtain ⟨v, hv⟩ := Option.isSome_iff_exists.mp hsome
  rw [hv]
  rfl

/-- The accumulation loop of `is_registration_tx` returns the running sum plus the decoded
contributions, reduced modulo `2^64`. -/
theorem staking_transferred_eq (x : Externals) (tx : transaction) (gov_sec : secret_key) :
    ∀ (addresses : List account_public_address) (i transferred : Nat),
      i + addresses.length ≤ tx.vout.length → transferred < U64 →
      staking_transferred x tx gov_sec addresses i transferred =
        some ((transferred + (decoded_contributions x tx gov_sec addresses i).sum) % U64) := by
  intro addresses
  induction addresses with
  | nil =>
    intro i transferred _ ht
    simp [staking_transferred, decoded_contributions, Nat.mod_eq_of_lt ht]
  | cons a rest ih =>
    intro i transferred hlen ht
    simp only [List.length_cons] at hlen
    unfold staking_transferred
    simp only
    rw [get_reg_tx_staking_output_contribution_some x tx gov_sec a i (by omega)]
    simp only
    rw [ih (i + 1) _ (by omega) (by unfold u64_add; exact Nat.mod_lt _ (by unfold U64; omega))]
    simp only [decoded_contributions, List.sum_cons, u64_add]
    congr 1
    rw [Nat.mod_add_mod, Nat.add_assoc]

/-! ## Uniqueness of the keys -/

theorem infos_keys_erase (m : infos_map) (k : public_key) :
    infos_keys (infos_erase m k) = (infos_keys m).filter (fun k' => decide (k' ≠ k)) := by
  induction m with
  | nil => rfl
  | cons e rest ih =>
    obtain ⟨k0, v0⟩ := e
    simp only [infos_keys] at ih
    by_cases h0 : k0 = k
    · simp [infos_erase, infos_keys, h0, ih]
    · simp [infos_erase, infos_keys, h0, ih]

theorem infos_keys_replace (m : infos_map) (k : public_key) (v : service_node_info) :
    infos_keys (infos_replace m k v) = infos_keys m := by
  induction m with
  | nil => rfl
  | cons e rest ih =>
    obtain ⟨k0, v0⟩ := e
    simp only [infos_keys] at ih
    by_cases h0 : k0 = k
    · simp [infos_replace, infos_keys, h0]
    · simp [infos_replace, infos_keys, h0, ih]

/-- Erasing a key keeps the keys unique. -/
theorem infos_wf_erase {m : infos_map} (k : public_key) (h : infos_wf m) :
    infos_wf (infos_erase m k) := by
  unfold infos_wf
  rw [infos_keys_erase]
  exact List.Nodup.filter _ h

/-- Assigning to a key keeps the keys unique. -/
theorem infos_wf_assign {m : infos_map} (k : public_key) (v : service_node_info)
    (h : infos_wf m) : infos_wf (infos_assign m k v) := by
  unfold infos_assign
  split
  · unfold infos_wf
    rw [infos_keys_replace]
    exact h
  · rename_i hk
    unfold infos_wf infos_keys
    rw [List.map_cons, List.nodup_cons]
    refine ⟨?_, h⟩
    intro hmem
    rw [show List.map Prod.fst m = infos_keys m from rfl, mem_infos_keys_iff] at hmem
    exact hk hmem

/-- In a map with unique keys, the entries are the pairs of a key and the info found for
it. -/
theorem mem_iff_infos_find {m : infos_map} (h : infos_wf m) (k : public_key)
    (v : service_node_info) : (k, v) ∈ m ↔ infos_find m k = some v := by
  constructor
  · intro hmem
    induction m with
    | nil => simp at hmem
    | cons e rest ih =>
      obtain ⟨k0, v0⟩ := e
      have hnd : k0 ∉ infos_keys rest ∧ infos_wf rest := List.nodup_cons.mp h
      rcases List.mem_cons.mp hmem with heq | hrest
      · simp only [Prod.mk.injEq] at heq
        simp [infos_find, heq.1, heq.2]
      · have hne : k0 ≠ k := by
          intro h0
          apply hnd.1
          rw [h0]
          exact List.mem_map.mpr ⟨(k, v), hrest, rfl⟩
        simp only [infos_find, hne, if_false]
        exact ih hnd.2 hrest
  · exact infos_find_mem

/-- Two maps with unique keys that are equal as maps hold the same entries, in some order. -/
theorem perm_of_infos_equiv {m m' : infos_map} (h : infos_wf m) (h' : infos_wf m')
    (he : infos_equiv m m') : m.Perm m' := by
  rw [List.perm_ext_iff_of_nodup (List.Nodup.of_map Prod.fst h)
    (List.Nodup.of_map Prod.fst h')]
  rintro ⟨k, v⟩
  rw [mem_iff_infos_find h, mem_iff_infos_find h', he k]

/-- The inverse of a journal event keeps the keys unique. -/
theorem rollback_event_apply_wf (e : rollback_event) {m : infos_map} (h : infos_wf m) :
    infos_wf (e.apply m).2 := by
  cases e with
  | rollback_change bh k info => exact infos_wf_assign k info h
  | rollback_new bh k =>
    simp only [rollback_event.apply]
    cases infos_find m k with
    | none => exact h
    | some v => exact infos_wf_erase k h
  | prevent_rollback bh => exact h

/-- The first loop of `blockchain_detached` keeps the keys unique. -/
theorem detach_events_wf (height : Nat) (events : List rollback_event) :
    ∀ m : infos_map, infos_wf m → infos_wf (detach_events height events m).2.1 := by
  induction events with
  | nil => intro m h; exact h
  | cons e rest ih =>
    intro m h
    have ha := rollback_event_apply_wf e h
    unfold detach_events
    split
    · cases hr : e.apply m with
      | mk ok r =>
        rw [hr] at ha
        cases ok with
        | false => exact ha
        | true => exact ih r ha
    · exact h

/-- The winner step keeps the keys unique. -/
theorem reanchor_winner_wf (block_height : Nat) (winner_pubkey : public_key)
    (st : infos_map × List rollback_event) (h : infos_wf st.1) :
    infos_wf (reanchor_winner block_height winner_pubkey st).1 := by
  unfold reanchor_winner
  split
  · exact h
  · exact infos_wf_assign _ _ h

/-- One iteration of the transaction loop keeps the keys unique. -/
theorem process_tx_wf {c : Constants} {x : Externals} {bc : Blockchain}
    {s : service_node_list} {block_height : Nat} {tx : transaction} {index : Int}
    {st st' : infos_map × List rollback_event}
    (h : process_tx c x bc s block_height tx index st = some st') (hwf : infos_wf st.1) :
    infos_wf st'.1 := by
  unfold process_tx at h
  split at h
  · simp at h
  · split at h
    · simp only [Option.some.injEq] at h
      subst h
      exact infos_wf_assign _ _ hwf
    · simp only [Option.some.injEq] at h
      subst h
      exact hwf
  · split at h
    · split at h
      · simp only [Option.some.injEq] at h
        subst h
        exact infos_wf_erase _ hwf
      · simp only [Option.some.injEq] at h
        subst h
        exact hwf
    · simp only [Option.some.injEq] at h
      subst h
      exact hwf

/-- The transaction loop keeps the keys unique. -/
theorem process_txs_wf {c : Constants} {x : Externals} {bc : Blockchain}
    {s : service_node_list} {block_height : Nat} (txs : List transaction) :
    ∀ (index : Int) (st st' : infos_map × List rollback_event),
      process_txs c x bc s block_height txs index st = some st' →
      infos_wf st.1 → infos_wf st'.1 := by
  induction txs with
  | nil =>
    intro index st st' h hwf
    simp only [process_txs, Option.some.injEq] at h
    subst h
    exact hwf
  | cons tx rest ih =>
    intro index st st' h hwf
    unfold process_txs at h
    split at h
    · simp at h
    · rename_i st1 hst1
      exact ih _ _ _ h (process_tx_wf hst1 hwf)

/-- Processing a block keeps the keys of the active set unique. -/
theorem block_added_generic_wf {c : Constants} {x : Externals} {bc : Blockchain}
    {s s' : service_node_list} {b : block} {txs : List transaction}
    (h : block_added_generic c x bc s b txs = some s')
    (hwf : infos_wf s.m_service_nodes_infos) : infos_wf s'.m_service_nodes_infos := by
  by_cases hf : bc.get_hard_fork_version (get_block_height b) < 9
  · unfold block_added_generic at h
    simp only [hf, if_true, Option.some.injEq] at h
    subst h
    exact hwf
  · obtain ⟨st3, hst3, hq⟩ := block_added_generic_steps hf h
    rw [(cache_quorum_state_frame hq).1]
    exact process_txs_wf txs _ _ _ hst3 (reanchor_winner_wf _ _ (_, _) hwf)

/-! ## The null key -/

/-- A key found in an active set without the null key is not the null key. -/
theorem ne_null_of_found {m : infos_map} {k : public_key} {info : service_node_info}
    (hm : is_service_node m null_pkey = false) (hk : infos_find m k = some info) :
    k ≠ null_pkey := by
  intro h
  rw [h] at hk
  simp [is_service_node, hk] at hm

theorem no_null_assign {m : infos_map} {k : public_key} (v : service_node_info)
    (hm : is_service_node m null_pkey = false) (hk : k ≠ null_pkey) :
    is_service_node (infos_assign m k v) null_pkey = false := by
  simp only [is_service_node, infos_find_assign, hk, if_false] at hm ⊢
  exact hm

theorem no_null_erase {m : infos_map} (k : public_key)
    (hm : is_service_node m null_pkey = false) :
    is_service_node (infos_erase m k) null_pkey = false := by
  simp only [is_service_node, infos_find_erase] at hm ⊢
  split
  · rfl
  · exact hm

theorem events_no_null_append {events : List rollback_event} {e : rollback_event}
    (he : ∀ h k info, rollback_event.rollback_change h k info ∈ events → k ≠ null_pkey)
    (hnew : ∀ h k info, e = rollback_event.rollback_change h k info → k ≠ null_pkey) :
    ∀ h k info, rollback_event.rollback_change h k info ∈ events ++ [e] → k ≠ null_pkey := by
  intro h k info hmem
  rcases List.mem_append.mp hmem with h1 | h1
  · exact he h k info h1
  · simp only [List.mem_singleton] at h1
    exact hnew h k info h1.symm

/-- The winner step does not bring the null key in. -/
theorem reanchor_winner_no_null (block_height : Nat) (winner_pubkey : public_key)
    (st : infos_map × List rollback_event) (h : registry_no_null st.1 st.2) :
    registry_no_null (reanchor_winner block_height winner_pubkey st).1
      (reanchor_winner block_height winner_pubkey st).2 := by
  unfold reanchor_winner
  split
  · exact h
  · rename_i info hinfo
    have hne := ne_null_of_found h.1 hinfo
    refine ⟨no_null_assign _ h.1 hne, events_no_null_append h.2 ?_⟩
    intro bh k i heq
    simp only [rollback_event.rollback_change.injEq] at heq
    rw [← heq.2.1]
    exact hne

/-- An accepted registration is for a key that is not the null key. -/
theorem is_registration_tx_key_ne_null {c : Constants} {x : Externals} {bc : Blockchain}
    {m : infos_map} {tx : transaction} {block_height : Nat} {index : Int}
    {key : public_key} {info : service_node_info}
    (h : is_registration_tx c x bc m tx block_height index = some (some (key, info))) :
    key ≠ null_pkey := by
  obtain ⟨f, hf, hres, _, _, hkey, _⟩ := is_registration_tx_accepts h
  obtain ⟨_, _, _, _, _, _, hnn, _⟩ := reg_tx_extract_fields_true hf hres
  rw [hkey]
  exact hnn

/-- One iteration of the transaction loop does not bring the null key in. -/
theorem process_tx_no_null {c : Constants} {x : Externals} {bc : Blockchain}
    {s : service_node_list} {block_height : Nat} {tx : transaction} {index : Int}
    {st st' : infos_map × List rollback_event}
    (h : process_tx c x bc s block_height tx index st = some st')
    (hok : registry_no_null st.1 st.2) : registry_no_null st'.1 st'.2 := by
  unfold process_tx at h
  split at h
  · simp at h
  · rename_i key info hreg
    split at h
    · simp only [Option.some.injEq] at h
      subst h
      exact ⟨no_null_assign _ hok.1 (is_registration_tx_key_ne_null hreg),
        events_no_null_append hok.2 (fun _ _ _ heq => by simp at heq)⟩
    · simp only [Option.some.injEq] at h
      subst h
      exact hok
  · split at h
    · rename_i key hkey
      split at h
      · rename_i info hinfo
        simp only [Option.some.injEq] at h
        subst h
        refine ⟨no_null_erase _ hok.1, events_no_null_append hok.2 ?_⟩
        intro bh k i heq
        simp only [rollback_event.rollback_change.injEq] at heq
        rw [← heq.2.1]
        exact ne_null_of_found hok.1 hinfo
      · simp only [Option.some.injEq] at h
        subst h
        exact hok
    · simp only [Option.some.injEq] at h
      subst h
      exact hok

/-- The transaction loop does not bring the null key in. -/
theorem process_txs_no_null {c : Constants} {x : Externals} {bc : Blockchain}
    {s : service_node_list} {block_height : Nat} (txs : List transaction) :
    ∀ (index : Int) (st st' : infos_map × List rollback_event),
      process_txs c x bc s block_height txs index st = some st' →
      registry_no_null st.1 st.2 → registry_no_null st'.1 st'.2 := by
  induction txs with
  | nil =>
    intro index st st' h hok
    simp only [process_txs, Option.some.injEq] at h
    subst h
    exact hok
  | cons tx rest ih =>
    intro index st st' h hok
    unfold process_txs at h
    split at h
    · simp at h
    · rename_i st1 hst1
      exact ih _ _ _ h (process_tx_no_null hst1 hok)

/-- Processing a block does not bring the null key in. -/
theorem block_added_generic_no_null {c : Constants} {x : Externals} {bc : Blockchain}
    {s s' : service_node_list} {b : block} {txs : List transaction}
    (h : block_added_generic c x bc s b txs = some s')
    (hok : registry_no_null s.m_service_nodes_infos s.m_rollback_events) :
    registry_no_null s'.m_service_nodes_infos s'.m_rollback_events := by
  by_cases hf : bc.get_hard_fork_version (get_block_height b) < 9
  · unfold block_added_generic at h
    simp only [hf, if_true, Option.some.injEq] at h
    subst h
    exact hok
  · obtain ⟨st3, hst3, hq⟩ := block_added_generic_steps hf h
    rw [(cache_quorum_state_frame hq).1, (cache_quorum_state_frame hq).2]
    refine process_txs_no_null txs _ _ _ hst3 (reanchor_winner_no_null _ _ (_, _) ⟨hok.1, ?_⟩)
    intro bh k info hmem
    exact hok.2 bh k info ((List.dropWhile_sublist _).mem hmem)

theorem init_blocks_no_null {c : Constants} {x : Externals} {bc : Blockchain}
    (blocks : List block) :
    ∀ (s s' : service_node_list) (flag : Bool),
      init_blocks c x bc s blocks = some (s', flag) →
      registry_no_null s.m_service_nodes_infos s.m_rollback_events →
      registry_no_null s'.m_service_nodes_infos s'.m_rollback_events := by
  induction blocks with
  | nil =>
    intro s s' flag h hok
    simp only [init_blocks, Option.some.injEq, Prod.mk.injEq] at h
    rw [← h.1]
    exact hok
  | cons b rest ih =>
    intro s s' flag h hok
    unfold init_blocks at h
    split at h
    · simp only [Option.some.injEq, Prod.mk.injEq] at h
      rw [← h.1]
      exact hok
    · split at h
      · simp at h
      · rename_i s1 hs1
        exact ih s1 s' flag h (block_added_generic_no_null hs1 hok)

theorem init_chunks_no_null {c : Constants} {x : Externals} {bc : Blockchain}
    (heights : List Nat) :
    ∀ (s s' : service_node_list) (flag : Bool),
      init_chunks c x bc s heights = some (s', flag) →
      registry_no_null s.m_service_nodes_infos s.m_rollback_events →
      registry_no_null s'.m_service_nodes_infos s'.m_rollback_events := by
  induction heights with
  | nil =>
    intro s s' flag h hok
    simp only [init_chunks, Option.some.injEq, Prod.mk.injEq] at h
    rw [← h.1]
    exact hok
  | cons height rest ih =>
    intro s s' flag h hok
    unfold init_chunks at h
    split at h
    · simp only [Option.some.injEq, Prod.mk.injEq] at h
      rw [← h.1]
      exact hok
    · rename_i blocks hblocks
      split at h
      · simp at h
      · rename_i s1 hs1
        simp only [Option.some.injEq, Prod.mk.injEq] at h
        rw [← h.1]
        exact init_blocks_no_null blocks _ _ _ hs1 hok
      · rename_i s1 hs1
        exact ih s1 s' flag h (init_blocks_no_null blocks _ _ _ hs1 hok)

/-- After `init` the null key is not in the registry. -/
theorem init_no_null {c : Constants} {x : Externals} {bc : Blockchain}
    {s s' : service_node_list} (h : init c x bc s = some s') :
    registry_no_null s'.m_service_nodes_infos s'.m_rollback_events := by
  unfold init init_run at h
  simp only at h
  have h0 : registry_no_null ([] : infos_map) ([] : List rollback_event) :=
    ⟨rfl, fun _ _ _ he => by simp at he⟩
  split at h
  · simp at h
  · rename_i s1 hs1
    simp only [Option.map_some', Option.some.injEq] at h
    subst h
    exact init_chunks_no_null _ _ _ _ hs1 h0
  · rename_i s1 hs1
    simp only [Option.map_some', Option.some.injEq] at h
    subst h
    have h1 := init_chunks_no_null _ _ _ _ hs1 h0
    exact ⟨h1.1, events_no_null_append h1.2 (fun _ _ _ heq => by simp at heq)⟩

/-- Undoing journal events does not bring the null key in. -/
theorem detach_events_no_null (height : Nat) (events : List rollback_event) :
    ∀ m : infos_map, registry_no_null m events →
      registry_no_null (detach_events height events m).2.1
        (detach_events height events m).1 := by
  induction events with
  | nil => intro m h; exact h
  | cons e rest ih =>
    intro m h
    have hrest : ∀ bh k info, rollback_event.rollback_change bh k info ∈ rest →
        k ≠ null_pkey := fun bh k info hmem => h.2 bh k info (List.mem_cons_of_mem _ hmem)
    unfold detach_events
    split
    · cases e with
      | rollback_change bh k info =>
        simp only [rollback_event.apply]
        exact ih _ ⟨no_null_assign _ h.1 (h.2 bh k info (List.mem_cons_self _ _)), hrest⟩
      | rollback_new bh k =>
        simp only [rollback_event.apply]
        cases hfind : infos_find m k with
        | none => exact h
        | some info => exact ih _ ⟨no_null_erase _ h.1, hrest⟩
      | prevent_rollback bh =>
        simp only [rollback_event.apply]
        exact h
    · exact h

/-- The method `blockchain_detached` does not bring the null key in. -/
theorem blockchain_detached_no_null {c : Constants} {x : Externals} {bc : Blockchain}
    {s s' : service_node_list} {height : Nat}
    (h : blockchain_detached c x bc s height = some s')
    (hok : registry_no_null s.m_service_nodes_infos s.m_rollback_events) :
    registry_no_null s'.m_service_nodes_infos s'.m_rollback_events := by
  unfold blockchain_detached at h
  simp only at h
  have hd := detach_events_no_null height s.m_rollback_events.reverse s.m_service_nodes_infos
    ⟨hok.1, fun bh k info hmem => hok.2 bh k info (List.mem_reverse.mp hmem)⟩
  split at h
  · simp at h
  · rename_i s2 hs2
    simp only [Option.some.injEq] at h
    subst h
    have h2 : registry_no_null s2.m_service_nodes_infos s2.m_rollback_events := by
      split at hs2
      · exact init_no_null hs2
      · simp only [Option.some.injEq] at hs2
        subst hs2
        exact ⟨hd.1, fun bh k info hmem => hd.2 bh k info (List.mem_reverse.mp hmem)⟩
    exact h2

/-- In every reachable registry the null key is neither registered nor saved in the
journal. -/
theorem reachable_no_null {c : Constants} {x : Externals} {s : service_node_list}
    (h : Reachable c x s) :
    registry_no_null s.m_service_nodes_infos s.m_rollback_events := by
  induction h with
  | empty => exact ⟨rfl, fun _ _ _ he => by simp [empty_registry] at he⟩
  | block_added bc s s' b txs _ _ _ hstep ih => exact block_added_generic_no_null hstep ih
  | blockchain_detached bc s s' height _ _ hstep ih => exact blockchain_detached_no_null hstep ih
  | init bc s s' _ _ hstep _ => exact init_no_null hstep

/-- When no entry passes the comparison of the loop of `select_winner`, the loop returns the
key it started with. -/
theorem select_winner_loop_none_eligible (o : Nat × Int) (m : infos_map) :
    ∀ key, (∀ e ∈ m, pair_lt (e.2.block_height, e.2.transaction_index) o = false) →
      select_winner_loop o m key = key := by
  induction m with
  | nil => intro key _; rfl
  | cons e rest ih =>
    intro key h
    unfold select_winner_loop
    simp only [h e (List.mem_cons_self _ _), Bool.false_eq_true, if_false]
    exact ih key (fun e' he' => h e' (List.mem_cons_of_mem _ he'))

/-- When some entry passes the comparison of the loop of `select_winner`, the loop returns a
key of the map. -/
theorem select_winner_loop_some_eligible (o : Nat × Int) (m : infos_map) :
    ∀ key, (∃ e ∈ m, pair_lt (e.2.block_height, e.2.transaction_index) o = true) →
      ∃ info, (select_winner_loop o m key, info) ∈ m := by
  induction m with
  | nil => intro key h; obtain ⟨e, he, _⟩ := h; simp at he
  | cons e rest ih =>
    intro key h
    unfold select_winner_loop
    simp only
    by_cases hp : pair_lt (e.2.block_height, e.2.transaction_index) o = true
    · simp only [hp, if_true]
      rcases select_winner_loop_mem o rest e.1 with h1 | ⟨info, h1⟩
      · exact ⟨e.2, by rw [h1]; exact List.mem_cons_self _ _⟩
      · exact ⟨info, List.mem_cons_of_mem _ h1⟩
    · simp only [hp, if_false]
      obtain ⟨e', he', hp'⟩ := h
      rcases List.mem_cons.mp he' with rfl | hrest
      · exact absurd hp' hp
      · obtain ⟨info, h1⟩ := ih key ⟨e', hrest, hp'⟩
        exact ⟨info, List.mem_cons_of_mem _ h1⟩

/-! ## The quorum cache -/

theorem quorum_assign_mem {l : List (Nat × quorum_state)} {h : Nat} {q : quorum_state}
    {e : Nat × quorum_state} (he : e ∈ quorum_assign l h q) : e = (h, q) ∨ e ∈ l := by
  induction l with
  | nil =>
    simp only [quorum_assign, List.mem_singleton] at he
    exact Or.inl he
  | cons a rest ih =>
    unfold quorum_assign at he
    split at he
    · rcases List.mem_cons.mp he with h1 | h1
      · exact Or.inl h1
      · exact Or.inr h1
    · split at he
      · rcases List.mem_cons.mp he with h1 | h1
        · exact Or.inl h1
        · exact Or.inr (List.mem_cons_of_mem _ h1)
      · rcases List.mem_cons.mp he with h1 | h1
        · exact Or.inr (by rw [h1]; exact List.mem_cons_self _ _)
        · rcases ih h1 with h2 | h2
          · exact Or.inl h2
          · exact Or.inr (List.mem_cons_of_mem _ h2)

/-- The assignment keeps the cache in ascending order. -/
theorem quorum_assign_sorted {l : List (Nat × quorum_state)} (h : Nat) (q : quorum_state)
    (hl : quorum_sorted l) : quorum_sorted (quorum_assign l h q) := by
  unfold quorum_sorted at hl ⊢
  induction l with
  | nil => simp [quorum_assign]
  | cons a rest ih =>
    obtain ⟨h', q'⟩ := a
    rw [List.pairwise_cons] at hl
    unfold quorum_assign
    split
    · rename_i hlt
      refine List.pairwise_cons.mpr ⟨?_, List.pairwise_cons.mpr hl⟩
      intro e he
      rcases List.mem_cons.mp he with h1 | h1
      · rw [h1]; exact hlt
      · exact Nat.lt_trans hlt (hl.1 e h1)
    · split
      · rename_i _ heq
        refine List.pairwise_cons.mpr ⟨?_, hl.2⟩
        intro e he
        have := hl.1 e he
        simp only at this heq ⊢
        omega
      · rename_i hnlt hne
        refine List.pairwise_cons.mpr ⟨?_, ih hl.2⟩
        intro e he
        rcases quorum_assign_mem he with h1 | h1
        · rw [h1]
          simp only at hnlt hne ⊢
          omega
        · exact hl.1 e h1

/-- Erasing from the front while the height is below `t` leaves, in an ascending cache, only
entries at heights at least `t`. -/
theorem dropWhile_sorted_ge (t : Nat) (l : List (Nat × quorum_state)) (hl : quorum_sorted l) :
    ∀ e ∈ l.dropWhile (fun e => decide (e.1 < t)), t ≤ e.1 := by
  unfold quorum_sorted at hl
  induction l with
  | nil => intro e he; simp at he
  | cons a rest ih =>
    rw [List.pairwise_cons] at hl
    intro e he
    by_cases ha : a.1 < t
    · rw [List.dropWhile_cons_of_pos (by simpa using ha)] at he
      exact ih hl.2 e he
    · rw [List.dropWhile_cons_of_neg (by simpa using ha)] at he
      rcases List.mem_cons.mp he with h1 | h1
      · rw [h1]; omega
      · have := hl.1 e h1
        omega

/-- Erasing from the front while the height is below `t` does not touch the entry of a height
at least `t`. -/
theorem quorum_find_dropWhile (t h : Nat) (ht : t ≤ h) (l : List (Nat × quorum_state)) :
    quorum_find (l.dropWhile (fun e => decide (e.1 < t))) h = quorum_find l h := by
  induction l with
  | nil => rfl
  | cons a rest ih =>
    obtain ⟨h', q'⟩ := a
    by_cases ha : h' < t
    · rw [List.dropWhile_cons_of_pos (by simpa using ha), ih]
      have hne : ¬ h' = h := by omega
      simp only [quorum_find, hne, if_false]
    · rw [List.dropWhile_cons_of_neg (by simpa using ha)]

/-- What the second loop of `blockchain_detached` erases is a trailing segment of entries at
heights at least `height`. -/
theorem detach_quorum_states_split (height : Nat) (q : List (Nat × quorum_state)) :
    ∃ d, q = detach_quorum_states height q ++ d ∧ ∀ e ∈ d, height ≤ e.1 := by
  induction q using List.reverseRecOn with
  | nil => exact ⟨[], by simp [detach_quorum_states], fun e he => by simp at he⟩
  | append_singleton l a ih =>
    by_cases ha : a.1 ≥ height
    · obtain ⟨d, hd, hall⟩ := ih
      refine ⟨d ++ [a], ?_, ?_⟩
      · have : detach_quorum_states height (l ++ [a]) = detach_quorum_states height l := by
          simp only [detach_quorum_states, List.reverse_append, List.reverse_cons,
            List.reverse_nil, List.nil_append, List.singleton_append]
          rw [List.dropWhile_cons_of_pos (by simpa using ha)]
        rw [this, ← List.append_assoc, ← hd]
      · intro e he
        rcases List.mem_append.mp he with h1 | h1
        · exact hall e h1
        · simp only [List.mem_singleton] at h1
          rw [h1]; exact ha
    · refine ⟨[], ?_, fun e he => by simp at he⟩
      simp only [detach_quorum_states, List.reverse_append, List.reverse_cons,
        List.reverse_nil, List.nil_append, List.singleton_append, List.append_nil]
      rw [List.dropWhile_cons_of_neg (by simpa using ha)]
      simp

/-- The last entry left by the second loop of `blockchain_detached` is below `height`. -/
theorem detach_quorum_states_last (height : Nat) (q : List (Nat × quorum_state)) :
    ∀ e ∈ (detach_quorum_states height q).getLast?, e.1 < height := by
  induction q using List.reverseRecOn with
  | nil => intro e he; simp [detach_quorum_states] at he
  | append_singleton l a ih =>
    by_cases ha : a.1 ≥ height
    · have : detach_quorum_states height (l ++ [a]) = detach_quorum_states height l := by
        simp only [detach_quorum_states, List.reverse_append, List.reverse_cons,
          List.reverse_nil, List.nil_append, List.singleton_append]
        rw [List.dropWhile_cons_of_pos (by simpa using ha)]
      rw [this]
      exact ih
    · have : detach_quorum_states height (l ++ [a]) = l ++ [a] := by
        simp only [detach_quorum_states, List.reverse_append, List.reverse_cons,
          List.reverse_nil, List.nil_append, List.singleton_append]
        rw [List.dropWhile_cons_of_neg (by simpa using ha)]
        simp
      rw [this]
      intro e he
      simp only [List.getLast?_append, List.getLast?_singleton, Option.or_some,
        Option.mem_def, Option.some.injEq] at he
      rw [← he]
      omega

/-- The second loop of `blockchain_detached` keeps the cache in ascending order. -/
theorem detach_quorum_states_sorted (height : Nat) {q : List (Nat × quorum_state)}
    (hq : quorum_sorted q) : quorum_sorted (detach_quorum_states height q) := by
  obtain ⟨d, hd, _⟩ := detach_quorum_states_split height q
  unfold quorum_sorted at hq ⊢
  rw [hd] at hq
  exact (List.pairwise_append.mp hq).1

/-- In an ascending cache the second loop of `blockchain_detached` leaves no entry at a height
at or above `height`. -/
theorem detach_quorum_states_lt (height : Nat) {q : List (Nat × quorum_state)}
    (hq : quorum_sorted q) : ∀ e ∈ detach_quorum_states height q, e.1 < height := by
  have hs := detach_quorum_states_sorted height hq
  have hlast := detach_quorum_states_last height q
  generalize detach_quorum_states height q = r at hs hlast
  intro e he
  rcases List.eq_nil_or_concat r with h0 | ⟨l, a, h0⟩
  · rw [h0] at he; simp at he
  · subst h0
    have ha : a.1 < height := hlast a (by simp)
    unfold quorum_sorted at hs
    rw [List.concat_eq_append] at he hs
    rcases List.mem_append.mp he with h1 | h1
    · have := (List.pairwise_append.mp hs).2.2 e h1 a (by simp)
      omega
    · simp only [List.mem_singleton] at h1
      rw [h1]; exact ha

theorem quorum_find_append (l d : List (Nat × quorum_state)) (h : Nat) :
    quorum_find (l ++ d) h = (quorum_find l h).or (quorum_find d h) := by
  induction l with
  | nil => simp [quorum_find]
  | cons a rest ih =>
    obtain ⟨h', q'⟩ := a
    simp only [List.cons_append, quorum_find]
    split
    · rfl
    · exact ih

theorem quorum_find_none_of_ne (d : List (Nat × quorum_state)) (h : Nat)
    (hd : ∀ e ∈ d, e.1 ≠ h) : quorum_find d h = none := by
  induction d with
  | nil => rfl
  | cons a rest ih =>
    obtain ⟨h', q'⟩ := a
    have hne : ¬ h' = h := hd (h', q') (List.mem_cons_self _ _)
    simp only [quorum_find, hne, if_false]
    exact ih (fun e he => hd e (List.mem_cons_of_mem _ he))

/-- The second loop of `blockchain_detached` does not touch the entry of a height below
`height`. -/
theorem quorum_find_detach (height k : Nat) (hk : k < height) (q : List (Nat × quorum_state)) :
    quorum_find (detach_quorum_states height q) k = quorum_find q k := by
  obtain ⟨d, hd, hall⟩ := detach_quorum_states_split height q
  have h1 : quorum_find q k =
      (quorum_find (detach_quorum_states height q) k).or (quorum_find d k) := by
    conv_lhs => rw [hd]
    exact quorum_find_append _ _ _
  rw [h1, quorum_find_none_of_ne d k (fun e he => by have := hall e he; omega)]
  simp

/-- The quorum step keeps the cache in ascending order. -/
theorem cache_quorum_state_sorted {c : Constants} {x : Externals} {bc : Blockchain}
    {s s' : service_node_list} {block_height : Nat}
    (h : cache_quorum_state c x bc s block_height = some s')
    (hs : quorum_sorted s.m_quorum_states) : quorum_sorted s'.m_quorum_states := by
  unfold cache_quorum_state at h
  split at h
  · split at h
    · simp at h
    · rename_i s1 hs1
      simp only [Option.some.injEq] at h
      subst h
      have h1 : quorum_sorted s1.m_quorum_states := by
        unfold store_quorum_state_from_rewards_list at hs1
        simp only at hs1
        split at hs1
        · simp only [Option.some.injEq] at hs1
          subst hs1
          exact hs
        · split at hs1
          · simp at hs1
          · simp only [Option.some.injEq] at hs1
            subst hs1
            exact quorum_assign_sorted _ _ hs
      exact List.Pairwise.sublist (List.dropWhile_sublist _) h1
  · simp only [Option.some.injEq] at h
    subst h
    exact hs

/-- Processing a block keeps the cache in ascending order. -/
theorem block_added_generic_sorted {c : Constants} {x : Externals} {bc : Blockchain}
    {s s' : service_node_list} {b : block} {txs : List transaction}
    (h : block_added_generic c x bc s b txs = some s')
    (hs : quorum_sorted s.m_quorum_states) : quorum_sorted s'.m_quorum_states := by
  by_cases hf : bc.get_hard_fork_version (get_block_height b) < 9
  · unfold block_added_generic at h
    simp only [hf, if_true, Option.some.injEq] at h
    subst h
    exact hs
  · obtain ⟨st3, _, hq⟩ := block_added_generic_steps hf h
    exact cache_quorum_state_sorted hq hs

theorem init_blocks_sorted {c : Constants} {x : Externals} {bc : Blockchain}
    (blocks : List block) :
    ∀ (s s' : service_node_list) (flag : Bool),
      init_blocks c x bc s blocks = some (s', flag) →
      quorum_sorted s.m_quorum_states → quorum_sorted s'.m_quorum_states := by
  induction blocks with
  | nil =>
    intro s s' flag h hok
    simp only [init_blocks, Option.some.injEq, Prod.mk.injEq] at h
    rw [← h.1]
    exact hok
  | cons b rest ih =>
    intro s s' flag h hok
    unfold init_blocks at h
    split at h
    · simp only [Option.some.injEq, Prod.mk.injEq] at h
      rw [← h.1]
      exact hok
    · split at h
      · simp at h
      · rename_i s1 hs1
        exact ih s1 s' flag h (block_added_generic_sorted hs1 hok)

theorem init_chunks_sorted {c : Constants} {x : Externals} {bc : Blockchain}
    (heights : List Nat) :
    ∀ (s s' : service_node_list) (flag : Bool),
      init_chunks c x bc s heights = some (s', flag) →
      quorum_sorted s.m_quorum_states → quorum_sorted s'.m_quorum_states := by
  induction heights with
  | nil =>
    intro s s' flag h hok
    simp only [init_chunks, Option.some.injEq, Prod.mk.injEq] at h
    rw [← h.1]
    exact hok
  | cons height rest ih =>
    intro s s' flag h hok
    unfold init_chunks at h
    split at h
    · simp only [Option.some.injEq, Prod.mk.injEq] at h
      rw [← h.1]
      exact hok
    · rename_i blocks hblocks
      split at h
      · simp at h
      · rename_i s1 hs1
        simp only [Option.some.injEq, Prod.mk.injEq] at h
        rw [← h.1]
        exact init_blocks_sorted blocks _ _ _ hs1 hok
      · rename_i s1 hs1
        exact ih s1 s' flag h (init_blocks_sorted blocks _ _ _ hs1 hok)

/-- The method `init` keeps the cache in ascending order. -/
theorem init_sorted {c : Constants} {x : Externals} {bc : Blockchain}
    {s s' : service_node_list} (h : init c x bc s = some s')
    (hs : quorum_sorted s.m_quorum_states) : quorum_sorted s'.m_quorum_states := by
  unfold init init_run at h
  simp only at h
  split at h
  · simp at h
  · rename_i s1 hs1
    simp only [Option.map_some', Option.some.injEq] at h
    subst h
    exact init_chunks_sorted _ _ _ _ hs1 hs
  · rename_i s1 hs1
    simp only [Option.map_some', Option.some.injEq] at h
    subst h
    exact init_chunks_sorted _ _ s1 _ hs1 hs

/-- After `blockchain_detached` an ascending cache is ascending and holds no entry at a height
at or above `height`. -/
theorem blockchain_detached_sorted {c : Constants} {x : Externals} {bc : Blockchain}
    {s s' : service_node_list} {height : Nat}
    (h : blockchain_detached c x bc s height = some s')
    (hs : quorum_sorted s.m_quorum_states) :
    quorum_sorted s'.m_quorum_states ∧ ∀ e ∈ s'.m_quorum_states, e.1 < height := by
  unfold blockchain_detached at h
  simp only at h
  split at h
  · simp at h
  · rename_i s2 hs2
    simp only [Option.some.injEq] at h
    subst h
    have h2 : quorum_sorted s2.m_quorum_states := by
      split at hs2
      · exact init_sorted hs2 hs
      · simp only [Option.some.injEq] at hs2
        subst hs2
        exact hs
    exact ⟨detach_quorum_states_sorted height h2, detach_quorum_states_lt height h2⟩

/-- In every reachable registry the quorum cache is in ascending order. -/
theorem reachable_quorum_sorted {c : Constants} {x : Externals} {s : service_node_list}
    (h : Reachable c x s) : quorum_sorted s.m_quorum_states := by
  induction h with
  | empty => simp [empty_registry, quorum_sorted]
  | block_added bc s s' b txs _ _ _ hstep ih => exact block_added_generic_sorted hstep ih
  | blockchain_detached bc s s' height _ _ hstep ih =>
    exact (blockchain_detached_sorted hstep ih).1
  | init bc s s' _ _ hstep ih => exact init_sorted hstep ih

/-! ## Consistency of the journal with the active set -/

/-- Consistency depends on the active set as a map only. -/
theorem journal_consistent_congr (events : List rollback_event) :
    ∀ m m' : infos_map, infos_equiv m m' → journal_consistent events m →
      journal_consistent events m' := by
  induction events with
  | nil => intro m m' _ _; trivial
  | cons e rest ih =>
    intro m m' heq h
    cases e with
    | rollback_change bh k info =>
      simp only [journal_consistent] at h ⊢
      refine ih _ _ (fun k' => ?_) h
      simp only [infos_find_assign, heq k']
    | rollback_new bh k =>
      simp only [journal_consistent] at h ⊢
      refine ⟨by rw [← heq k]; exact h.1, ih _ _ (fun k' => ?_) h.2⟩
      simp only [infos_find_erase, heq k']
    | prevent_rollback bh =>
      simp only [journal_consistent] at h ⊢
      exact ih _ _ heq h

/-- Dropping events from the front of the journal keeps it consistent. -/
theorem journal_consistent_front (l l' : List rollback_event) :
    ∀ m : infos_map, journal_consistent (l ++ l') m → journal_consistent l m := by
  induction l with
  | nil => intro m _; trivial
  | cons e rest ih =>
    intro m h
    cases e with
    | rollback_change bh k info =>
      simp only [List.cons_append, journal_consistent] at h ⊢
      exact ih _ h
    | rollback_new bh k =>
      simp only [List.cons_append, journal_consistent] at h ⊢
      exact ⟨h.1, ih _ h.2⟩
    | prevent_rollback bh =>
      simp only [List.cons_append, journal_consistent] at h ⊢
      exact ih _ h

/-- Appending an event whose inverse takes the new active set back to the old one keeps the
journal consistent. -/
theorem journal_consistent_step {events : List rollback_event} {m : infos_map}
    (e : rollback_event) (m1 m2 : infos_map)
    (h : journal_consistent events.reverse m)
    (happly : e.apply m1 = (true, m2)) (hback : infos_equiv m2 m) :
    journal_consistent (events ++ [e]).reverse m1 := by
  have h2 : journal_consistent events.reverse m2 :=
    journal_consistent_congr _ m m2 (fun k => (hback k).symm) h
  simp only [List.reverse_append, List.reverse_cons, List.reverse_nil, List.nil_append,
    List.singleton_append]
  cases e with
  | rollback_change bh k info =>
    simp only [rollback_event.apply, Prod.mk.injEq, true_and] at happly
    simp only [journal_consistent]
    rw [happly]
    exact h2
  | rollback_new bh k =>
    simp only [rollback_event.apply] at happly
    cases hfind : infos_find m1 k with
    | none => simp [hfind] at happly
    | some v =>
      simp only [hfind, Prod.mk.injEq, true_and] at happly
      simp only [journal_consistent, hfind, Option.isSome_some, true_and]
      rw [happly]
      exact h2
  | prevent_rollback bh => simp [rollback_event.apply] at happly

/-- The winner step keeps the journal consistent. -/
theorem reanchor_winner_consistent (block_height : Nat) (winner_pubkey : public_key)
    (st : infos_map × List rollback_event) (h : journal_consistent st.2.reverse st.1) :
    journal_consistent (reanchor_winner block_height winner_pubkey st).2.reverse
      (reanchor_winner block_height winner_pubkey st).1 := by
  unfold reanchor_winner
  split
  · exact h
  · rename_i info hinfo
    refine journal_consistent_step _ _ _ h rfl ?_
    intro k
    simp only [infos_find_assign]
    split
    · rename_i hk
      rw [← hk, hinfo]
    · rfl

/-- One iteration of the transaction loop keeps the journal consistent. -/
theorem process_tx_consistent {c : Constants} {x : Externals} {bc : Blockchain}
    {s : service_node_list} {height : Nat} {tx : transaction} {index : Int}
    {st st' : infos_map × List rollback_event}
    (h : process_tx c x bc s height tx index st = some st')
    (hc : journal_consistent st.2.reverse st.1) :
    journal_consistent st'.2.reverse st'.1 := by
  unfold process_tx at h
  split at h
  · simp at h
  · rename_i key info hreg
    split at h
    · rename_i hnone
      simp only [Option.some.injEq] at h
      subst h
      have hfound : infos_find (infos_assign st.1 key info) key = some info := by
        simp [infos_find_assign]
      refine journal_consistent_step (rollback_event.rollback_new height key) _
        (infos_erase (infos_assign st.1 key info) key) hc
        (by simp only [rollback_event.apply, hfound]) ?_
      intro k
      simp only [infos_find_erase, infos_find_assign]
      split
      · rename_i hk
        rw [← hk, hnone]
      · rfl
    · simp only [Option.some.injEq] at h
      subst h
      exact hc
  · split at h
    · rename_i key hkey
      split at h
      · rename_i info hinfo
        simp only [Option.some.injEq] at h
        subst h
        refine journal_consistent_step _ _ _ hc rfl ?_
        intro k
        simp only [infos_find_assign, infos_find_erase]
        split
        · rename_i hk
          rw [← hk, hinfo]
        · rfl
      · simp only [Option.some.injEq] at h
        subst h
        exact hc
    · simp only [Option.some.injEq] at h
      subst h
      exact hc

/-- The transaction loop keeps the journal consistent. -/
theorem process_txs_consistent {c : Constants} {x : Externals} {bc : Blockchain}
    {s : service_node_list} {height : Nat} (txs : List transaction) :
    ∀ (index : Int) (st st' : infos_map × List rollback_event),
      process_txs c x bc s height txs index st = some st' →
      journal_consistent st.2.reverse st.1 → journal_consistent st'.2.reverse st'.1 := by
  induction txs with
  | nil =>
    intro index st st' h hc
    simp only [process_txs, Option.some.injEq] at h
    subst h
    exact hc
  | cons tx rest ih =>
    intro index st st' h hc
    unfold process_txs at h
    split at h
    · simp at h
    · rename_i st1 hst1
      exact ih _ _ _ h (process_tx_consistent hst1 hc)

/-- Pruning the journal keeps it consistent. -/
theorem prune_rollback_events_consistent (c : Constants) (events : List rollback_event)
    (block_height : Nat) (m : infos_map) (h : journal_consistent events.reverse m) :
    journal_consistent (prune_rollback_events c events block_height).reverse m := by
  unfold prune_rollback_events
  have hsplit := List.takeWhile_append_dropWhile (fun e =>
    decide (e.m_block_height < u64_sub block_height c.ROLLBACK_EVENT_EXPIRATION_BLOCKS)) events
  rw [← hsplit, List.reverse_append] at h
  exact journal_consistent_front _ _ m h

/-- Processing a block keeps the journal consistent. -/
theorem block_added_generic_consistent {c : Constants} {x : Externals} {bc : Blockchain}
    {s s' : service_node_list} {b : block} {txs : List transaction}
    (h : block_added_generic c x bc s b txs = some s')
    (hc : journal_consistent s.m_rollback_events.reverse s.m_service_nodes_infos) :
    journal_consistent s'.m_rollback_events.reverse s'.m_service_nodes_infos := by
  by_cases hf : bc.get_hard_fork_version (get_block_height b) < 9
  · unfold block_added_generic at h
    simp only [hf, if_true, Option.some.injEq] at h
    subst h
    exact hc
  · obtain ⟨st3, hst3, hq⟩ := block_added_generic_steps hf h
    rw [(cache_quorum_state_frame hq).1, (cache_quorum_state_frame hq).2]
    exact process_txs_consistent txs _ _ _ hst3
      (reanchor_winner_consistent _ _ (_, _)
        (prune_rollback_events_consistent c _ _ _ hc))

theorem init_blocks_consistent {c : Constants} {x : Externals} {bc : Blockchain}
    (blocks : List block) :
    ∀ (s s' : service_node_list) (flag : Bool),
      init_blocks c x bc s blocks = some (s', flag) →
      journal_consistent s.m_rollback_events.reverse s.m_service_nodes_infos →
      journal_consistent s'.m_rollback_events.reverse s'.m_service_nodes_infos := by
  induction blocks with
  | nil =>
    intro s s' flag h hok
    simp only [init_blocks, Option.some.injEq, Prod.mk.injEq] at h
    rw [← h.1]
    exact hok
  | cons b rest ih =>
    intro s s' flag h hok
    unfold init_blocks at h
    split at h
    · simp only [Option.some.injEq, Prod.mk.injEq] at h
      rw [← h.1]
      exact hok
    · split at h
      · simp at h
      · rename_i s1 hs1
        exact ih s1 s' flag h (block_added_generic_consistent hs1 hok)

theorem init_chunks_consistent {c : Constants} {x : Externals} {bc : Blockchain}
    (heights : List Nat) :
    ∀ (s s' : service_node_list) (flag : Bool),
      init_chunks c x bc s heights = some (s', flag) →
      journal_consistent s.m_rollback_events.reverse s.m_service_nodes_infos →
      journal_consistent s'.m_rollback_events.reverse s'.m_service_nodes_infos := by
  induction heights with
  | nil =>
    intro s s' flag h hok
    simp only [init_chunks, Option.some.injEq, Prod.mk.injEq] at h
    rw [← h.1]
    exact hok
  | cons height rest ih =>
    intro s s' flag h hok
    unfold init_chunks at h
    split at h
    · simp only [Option.some.injEq, Prod.mk.injEq] at h
      rw [← h.1]
      exact hok
    · rename_i blocks hblocks
      split at h
      · simp at h
      · rename_i s1 hs1
        simp only [Option.some.injEq, Prod.mk.injEq] at h
        rw [← h.1]
        exact init_blocks_consistent blocks _ _ _ hs1 hok
      · rename_i s1 hs1
        exact ih s1 s' flag h (init_blocks_consistent blocks _ _ _ hs1 hok)

/-- After `init` the journal is consistent with the active set. -/
theorem init_consistent {c : Constants} {x : Externals} {bc : Blockchain}
    {s s' : service_node_list} (h : init c x bc s = some s') :
    journal_consistent s'.m_rollback_events.reverse s'.m_service_nodes_infos := by
  unfold init init_run at h
  simp only at h
  have h0 : journal_consistent ([] : List rollback_event).reverse ([] : infos_map) := trivial
  split at h
  · simp at h
  · rename_i s1 hs1
    simp only [Option.map_some', Option.some.injEq] at h
    subst h
    exact init_chunks_consistent _ _ _ _ hs1 h0
  · rename_i s1 hs1
    simp only [Option.map_some', Option.some.injEq] at h
    subst h
    have h1 := init_chunks_consistent _ _ s1 _ hs1 h0
    simp only [List.reverse_append, List.reverse_cons, List.reverse_nil, List.nil_append,
      List.singleton_append, journal_consistent]
    exact h1

/-- On a consistent journal the first loop of `blockchain_detached` leaves a consistent
journal, and an `apply` fails only at a `prevent_rollback` event. -/
theorem detach_events_consistent (height : Nat) (events : List rollback_event) :
    ∀ m : infos_map, journal_consistent events m →
      journal_consistent (detach_events height events m).1 (detach_events height events m).2.1 ∧
      ((detach_events height events m).2.2 = true →
        ∃ bh rest, (detach_events height events m).1 =
          rollback_event.prevent_rollback bh :: rest) := by
  induction events with
  | nil => intro m h; exact ⟨h, fun hf => by simp [detach_events] at hf⟩
  | cons e rest ih =>
    intro m h
    unfold detach_events
    split
    · cases e with
      | rollback_change bh k info =>
        simp only [rollback_event.apply]
        simp only [journal_consistent] at h
        exact ih _ h
      | rollback_new bh k =>
        simp only [journal_consistent] at h
        obtain ⟨v, hv⟩ := Option.isSome_iff_exists.mp h.1
        simp only [rollback_event.apply, hv]
        exact ih _ h.2
      | prevent_rollback bh =>
        simp only [rollback_event.apply]
        exact ⟨h, fun _ => ⟨bh, rest, rfl⟩⟩
    · exact ⟨h, fun hf => by simp at hf⟩

/-- On a consistent journal, `init` runs in `blockchain_detached` exactly when the first loop
stops at a `prevent_rollback` event. -/
theorem barrier_reached_of_flag {height : Nat} {s : service_node_list}
    (hc : journal_consistent s.m_rollback_events.reverse s.m_service_nodes_infos)
    (hflag : (detach_events height s.m_rollback_events.reverse
      s.m_service_nodes_infos).2.2 = true) :
    barrier_reached height s = true := by
  obtain ⟨bh, rest, hrest⟩ :=
    (detach_events_consistent height _ _ hc).2 hflag
  simp only [barrier_reached, hflag, hrest, Bool.and_self]

/-- The method `blockchain_detached` keeps the journal consistent. -/
theorem blockchain_detached_consistent {c : Constants} {x : Externals} {bc : Blockchain}
    {s s' : service_node_list} {height : Nat}
    (h : blockchain_detached c x bc s height = some s')
    (hc : journal_consistent s.m_rollback_events.reverse s.m_service_nodes_infos) :
    journal_consistent s'.m_rollback_events.reverse s'.m_service_nodes_infos := by
  unfold blockchain_detached at h
  simp only at h
  have hd := (detach_events_consistent height _ _ hc).1
  split at h
  · simp at h
  · rename_i s2 hs2
    simp only [Option.some.injEq] at h
    subst h
    have h2 : journal_consistent s2.m_rollback_events.reverse s2.m_service_nodes_infos := by
      split at hs2
      · exact init_consistent hs2
      · simp only [Option.some.injEq] at hs2
        subst hs2
        simp only [List.reverse_reverse]
        exact hd
    exact h2

/-- In every reachable registry the journal is consistent with the active set. -/
theorem reachable_consistent {c : Constants} {x : Externals} {s : service_node_list}
    (h : Reachable c x s) :
    journal_consistent s.m_rollback_events.reverse s.m_service_nodes_infos := by
  induction h with
  | empty => simp [empty_registry, journal_consistent]
  | block_added bc s s' b txs _ _ _ hstep ih => exact block_added_generic_consistent hstep ih
  | blockchain_detached bc s s' height _ _ hstep ih =>
    exact blockchain_detached_consistent hstep ih
  | init bc s s' _ _ hstep _ => exact init_consistent hstep

/-- A sequence of `block_added` calls from a reachable registry ends in a reachable
registry. -/
theorem block_added_seq_reachable {c : Constants} {x : Externals}
    (steps : List (Blockchain × block × List transaction)) :
    ∀ (s s' : service_node_list), Reachable c x s →
      (∀ st ∈ steps, chain_wf st.1 ∧ ∀ tx ∈ st.2.2, tx_wf tx) →
      block_added_seq c x steps s = some s' → Reachable c x s' := by
  induction steps with
  | nil =>
    intro s s' hr _ h
    simp only [block_added_seq, Option.some.injEq] at h
    subst h
    exact hr
  | cons st rest ih =>
    intro s s' hr hwf h
    obtain ⟨bc, b, txs⟩ := st
    unfold block_added_seq at h
    split at h
    · simp at h
    · rename_i s1 hs1
      have h1 := hwf (bc, b, txs) (List.mem_cons_self _ _)
      exact ih s1 s' (Reachable.block_added bc s s1 b txs hr h1.1 h1.2 hs1)
        (fun st hst => hwf st (List.mem_cons_of_mem _ hst)) h

/-- In an ascending cache the second loop of `blockchain_detached` leaves exactly the entries
below `height`, in their order. -/
theorem detach_quorum_states_eq_filter (height : Nat) {q : List (Nat × quorum_state)}
    (hq : quorum_sorted q) :
    detach_quorum_states height q = q.filter (fun e => decide (e.1 < height)) := by
  obtain ⟨d, hd, hall⟩ := detach_quorum_states_split height q
  have hlt := detach_quorum_states_lt height hq
  conv_rhs => rw [hd]
  rw [List.filter_append]
  have h1 : (detach_quorum_states height q).filter (fun e => decide (e.1 < height)) =
      detach_quorum_states height q :=
    List.filter_eq_self.mpr (fun e he => by simpa using hlt e he)
  have h2 : d.filter (fun e => decide (e.1 < height)) = [] :=
    List.filter_eq_nil_iff.mpr (fun e he => by have := hall e he; simp; omega)
  rw [h1, h2, List.append_nil]

/-! ## The order of the journal -/

/-- The first loop of `blockchain_detached(height)` on a journal that holds a
`prevent_rollback` event at or above `height`, followed by events at or above `height`:
an `apply` fails at that event or before it, and the event and all before it are left. -/
theorem detach_events_barrier (height barrier : Nat) (hle : height ≤ barrier)
    (before : List rollback_event) (after : List rollback_event) :
    ∀ m : infos_map, (∀ e ∈ after, height ≤ e.m_block_height) →
      ∃ left m',
        detach_events height (after ++ rollback_event.prevent_rollback barrier :: before) m =
          (left ++ rollback_event.prevent_rollback barrier :: before, m', true) := by
  induction after with
  | nil =>
    intro m _
    refine ⟨[], m, ?_⟩
    simp only [List.nil_append, detach_events, rollback_event.m_block_height, ge_iff_le, hle,
      if_true, rollback_event.apply]
  | cons e rest ih =>
    intro m hall
    have he := hall e (List.mem_cons_self _ _)
    simp only [List.cons_append]
    unfold detach_events
    rw [if_pos he]
    cases hr : e.apply m with
    | mk ok m' =>
      cases ok with
      | false => exact ⟨e :: rest, m', rfl⟩
      | true => exact ih m' (fun e' he' => hall e' (List.mem_cons_of_mem _ he'))

theorem infos_find_append (l1 l2 : infos_map) (k : public_key) :
    infos_find (l1 ++ l2) k = (infos_find l1 k).or (infos_find l2 k) := by
  induction l1 with
  | nil => simp [infos_find]
  | cons e rest ih =>
    obtain ⟨k0, v0⟩ := e
    simp only [List.cons_append, infos_find]
    split
    · rfl
    · exact ih

/-- Where a new key is linked into the traversal order does not change the map: linking it
at any position gives the lookups of `infos_assign`. -/
theorem infos_assign_any_position (l1 l2 : infos_map) (k : public_key)
    (v : service_node_info) (hnew : infos_find (l1 ++ l2) k = none) :
    infos_equiv (l1 ++ (k, v) :: l2) (infos_assign (l1 ++ l2) k v) := by
  intro k'
  rw [infos_find_assign, infos_find_append]
  rw [infos_find_append] at hnew
  by_cases hk : k = k'
  · subst hk
    cases h1 : infos_find l1 k with
    | none => simp [infos_find]
    | some w => rw [h1] at hnew; simp at hnew
  · simp only [hk, if_false, infos_find]
    rw [infos_find_append]


/-! ## Winner selection -/

/-- C1 (defect): on the active set `K1 ↦ (100, 0)`, `K2 ↦ (105, 0)` traversed in the order
`K1, K2`, `select_winner` returns `K2`, which is not an oldest-waiting node (`K1` is older);
with the waiting times swapped and the same traversal order it returns the last key again.
So for either traversal order of two keys the younger one can be selected. On the empty set
the null key is returned. -/
theorem select_winner_returns_last_traversed :
    select_winner [(key_of_byte 1, info_at 100 0), (key_of_byte 2, info_at 105 0)] null_hash
        = key_of_byte 2 ∧
      ¬ is_oldest_waiting [(key_of_byte 1, info_at 100 0), (key_of_byte 2, info_at 105 0)]
        (key_of_byte 2) ∧
      is_oldest_waiting [(key_of_byte 1, info_at 100 0), (key_of_byte 2, info_at 105 0)]
        (key_of_byte 1) ∧
      select_winner [(key_of_byte 2, info_at 100 0), (key_of_byte 1, info_at 105 0)] null_hash
        = key_of_byte 1 ∧
      ¬ is_oldest_waiting [(key_of_byte 2, info_at 100 0), (key_of_byte 1, info_at 105 0)]
        (key_of_byte 1) ∧
      select_winner [] null_hash = null_pkey := by
  refine ⟨by decide, ?_, ?_, by decide, ?_, by decide⟩
  · rintro ⟨info, hmem, hmin⟩
    simp only [List.mem_cons, Prod.mk.injEq, List.mem_singleton, List.not_mem_nil,
      or_false] at hmem
    rcases hmem with ⟨h, _⟩ | ⟨_, rfl⟩
    · exact absurd h (by decide)
    · exact absurd (hmin (key_of_byte 1, info_at 100 0) (by simp)) (by decide)
  · exact ⟨info_at 100 0, by simp, by decide⟩
  · rintro ⟨info, hmem, hmin⟩
    simp only [List.mem_cons, Prod.mk.injEq, List.mem_singleton, List.not_mem_nil,
      or_false] at hmem
    rcases hmem with ⟨h, _⟩ | ⟨_, rfl⟩
    · exact absurd h (by decide)
    · exact absurd (hmin (key_of_byte 2, info_at 100 0) (by simp)) (by decide)

/-! ## Expiry -/

/-- C2 (defect): a registered key never expires. For every choice of the constants, every
chain store and every sequence of blocks none of which carries a transaction of the
deregister version, a key that is registered before the sequence is still registered after
it, so also after the block at `h + STAKING_REQUIREMENT_LOCK_BLOCKS +
STAKING_RELOCK_WINDOW_BLOCKS`: `get_expired_nodes` re-runs `is_registration_tx` against the
current active set, which rejects every key that is still registered. -/
theorem registered_node_never_expires (c : Constants) (x : Externals)
    (steps : List (Blockchain × block × List transaction)) (K : public_key) :
    ∀ (s s' : service_node_list),
      is_service_node s.m_service_nodes_infos K = true →
      (∀ st ∈ steps, ∀ tx ∈ st.2.2, tx.version ≠ version_3_deregister_tx) →
      block_added_seq c x steps s = some s' →
      is_service_node s'.m_service_nodes_infos K = true := by
  induction steps with
  | nil =>
    intro s s' hK _ h
    simp only [block_added_seq, Option.some.injEq] at h
    subst h
    exact hK
  | cons st rest ih =>
    intro s s' hK hv h
    obtain ⟨bc, b, txs⟩ := st
    unfold block_added_seq at h
    split at h
    · simp at h
    · rename_i s1 hs1
      exact ih s1 s'
        (block_added_keeps_registered (hv (bc, b, txs) (List.mem_cons_self _ _)) hs1 hK)
        (fun st hst => hv st (List.mem_cons_of_mem _ hst)) h

/-- Witness for C2 with lock window 2 and relock window 1: `K` is registered by the block at
height 10 (the registry is empty before), and after the blocks at heights 11, 12 and
13 = 10 + 2 + 1 it is still a service node. -/
theorem registered_node_never_expires_witness :
    ∃ s1 s4,
      block_added_seq test_constants test_externals [test_step 10 10] empty_registry = some s1 ∧
      is_service_node empty_registry.m_service_nodes_infos (key_of_byte 1) = false ∧
      is_service_node s1.m_service_nodes_infos (key_of_byte 1) = true ∧
      block_added_seq test_constants test_externals
        [test_step 10 11, test_step 10 12, test_step 10 13] s1 = some s4 ∧
      is_service_node s4.m_service_nodes_infos (key_of_byte 1) = true := by
  obtain ⟨s1, h1⟩ := Option.isSome_iff_exists.mp
    (show (block_added_seq test_constants test_externals [test_step 10 10]
      empty_registry).isSome = true by decide)
  have hK : is_service_node s1.m_service_nodes_infos (key_of_byte 1) = true := by
    have h2 : (block_added_seq test_constants test_externals [test_step 10 10]
        empty_registry).map (fun s => is_service_node s.m_service_nodes_infos (key_of_byte 1))
        = some true := by decide
    rw [h1] at h2
    simpa using h2
  obtain ⟨s4, h4⟩ := Option.isSome_iff_exists.mp
    (show ((block_added_seq test_constants test_externals [test_step 10 10]
      empty_registry).bind (block_added_seq test_constants test_externals
        [test_step 10 11, test_step 10 12, test_step 10 13])).isSome = true by decide)
  rw [h1] at h4
  exact ⟨s1, s4, h1, by decide, hK, h4,
    registered_node_never_expires test_constants test_externals _ (key_of_byte 1) s1 s4 hK
      (by decide) h4⟩

/-! ## Rollback -/

/-- C3 (defect): with `ROLLBACK_EVENT_EXPIRATION_BLOCKS = 30`, start from the empty registry
(empty journal), add the block at height 1, which registers `K`, and the empty block at
height 2, then call `blockchain_detached(1)`. After the first block the journal holds the
`rollback_new` event of `K`; the second block prunes it, because `2 - 30` wraps around on
`uint64_t`; the detach finds an empty journal and `K` stays in the active set, which was
empty before the sequence. -/
theorem rollback_round_trip_fails_below_window :
    empty_registry.m_service_nodes_infos = [] ∧
    (block_added_seq test_constants test_externals [test_step 1 1] empty_registry).map
        (fun s => s.m_rollback_events) = some [rollback_event.rollback_new 1 (key_of_byte 1)] ∧
    u64_sub 2 test_constants.ROLLBACK_EVENT_EXPIRATION_BLOCKS = 18446744073709551588 ∧
    (block_added_seq test_constants test_externals [test_step 1 1, test_step 1 2]
        empty_registry).map (fun s => s.m_rollback_events) = some [] ∧
    ((block_added_seq test_constants test_externals [test_step 1 1, test_step 1 2]
        empty_registry).bind
      (fun s => blockchain_detached test_constants test_externals (test_chain 1 0) s 1)).map
        (fun s => s.m_service_nodes_infos) =
      some [(key_of_byte 1,
        { block_height := 1, transaction_index := 0,
          addresses := [⟨key_of_byte 10, key_of_byte 20⟩, ⟨key_of_byte 11, key_of_byte 21⟩],
          shares := [6000, 12000] })] := by
  refine ⟨rfl, by decide, by decide, by decide, by decide⟩

/-! ## Rotation -/

/-- C4 (defect): the active set holds `K1` at `(100, 0)` and `K2` at `(105, 0)`, traversed in
the order `K2, K1`. A block at height 106 without transactions whose miner transaction names
the winner `K1` re-anchors `K1` at `(0, -1)`, and the next `select_winner` returns `K1`
again, not `K2`. In the other traversal order the same happens with the winner `K2`. -/
theorem winner_is_selected_again :
    (block_added test_constants test_externals (test_chain 0 106)
        { m_service_nodes_infos :=
            [(key_of_byte 2, info_at 105 0), (key_of_byte 1, info_at 100 0)],
          m_rollback_events := [], m_quorum_states := [] }
        (test_block 106 (key_of_byte 1) 0) []).map (fun s => s.m_service_nodes_infos) =
      some [(key_of_byte 2, info_at 105 0), (key_of_byte 1, info_at 0 (-1))] ∧
    select_winner [(key_of_byte 2, info_at 105 0), (key_of_byte 1, info_at 0 (-1))] null_hash =
      key_of_byte 1 ∧
    (block_added test_constants test_externals (test_chain 0 106)
        { m_service_nodes_infos :=
            [(key_of_byte 1, info_at 100 0), (key_of_byte 2, info_at 105 0)],
          m_rollback_events := [], m_quorum_states := [] }
        (test_block 106 (key_of_byte 2) 0) []).map (fun s => s.m_service_nodes_infos) =
      some [(key_of_byte 1, info_at 100 0), (key_of_byte 2, info_at 0 (-1))] ∧
    select_winner [(key_of_byte 1, info_at 100 0), (key_of_byte 2, info_at 0 (-1))] null_hash =
      key_of_byte 2 := by
  refine ⟨by decide, by decide, by decide, by decide⟩

/-! ## Miner transaction validation -/

/-- C5: below hard-fork version 9 `validate_miner_tx` returns `true` for every input. From
version 9 on it returns `true` if and only if the winner in `miner_tx.extra` equals
`select_winner()`, the miner transaction has at least `1 + n` outputs for the `n` reward
recipients, and for every `i < n` the output at index `|vout| - 1 - n + i` pays exactly
`get_share_of_reward(shares[i], total_service_node_reward)` to a `txout_to_key` target whose
key is the one derived from the view key, the deterministic key of the height, the index and
the spend key. The active set is one in which every node info has a recipient (true of every
reachable registry) and `|vout|` is a `size_t`. -/
theorem validate_miner_tx_iff (c : Constants) (x : Externals) (m : infos_map) (prev_id : hash)
    (miner_tx : transaction) (height : Nat) (hard_fork_version : Int) (base_reward : Nat)
    (hsize : miner_tx.vout.length < U64) (hne : ∀ e ∈ m, e.2.addresses ≠ []) :
    (hard_fork_version < 9 →
      validate_miner_tx c x m prev_id miner_tx height hard_fork_version base_reward =
        some true) ∧
    (9 ≤ hard_fork_version →
      (validate_miner_tx c x m prev_id miner_tx height hard_fork_version base_reward =
          some true ↔
        miner_tx.extra.service_node_winner = select_winner m prev_id ∧
        1 + (reward_recipients c m (select_winner m prev_id)).1.length ≤
          miner_tx.vout.length ∧
        ∀ i, i < (reward_recipients c m (select_winner m prev_id)).1.length →
          output_pays_recipient x miner_tx height
            (reward_recipients c m (select_winner m prev_id)).1
            (reward_recipients c m (select_winner m prev_id)).2
            (x.get_service_node_reward height base_reward hard_fork_version) i)) := by
  constructor
  · intro h
    simp [validate_miner_tx, h]
  · intro h9
    have hnot : ¬ hard_fork_version < 9 := by omega
    have hrec := reward_recipients_ne_nil c m prev_id hne
    unfold validate_miner_tx
    simp only [hnot, if_false, winner_recipients_eq]
    generalize reward_recipients c m (select_winner m prev_id) = r at hrec ⊢
    obtain ⟨addresses, shares⟩ := r
    simp only at hrec ⊢
    by_cases hw : miner_tx.extra.service_node_winner = select_winner m prev_id
    · simp only [hw, ne_eq, not_true_eq_false, if_false, true_and]
      by_cases hv : miner_tx.vout = []
      · have hlen : miner_tx.vout.length = 0 := by simp [hv]
        have hpos : 0 < addresses.length := List.length_pos.mpr hrec
        rw [validate_outputs_no_output x miner_tx height addresses shares _ hv hrec]
        constructor
        · intro h
          split at h <;> simp at h
        · rintro ⟨h, _⟩
          omega
      · have hpos : 0 < miner_tx.vout.length := List.length_pos.mpr hv
        have hsub : u64_sub miner_tx.vout.length 1 = miner_tx.vout.length - 1 := by
          unfold u64_sub U64 at *
          omega
        rw [hsub]
        by_cases hn : miner_tx.vout.length - 1 < addresses.length
        · simp only [hn, if_true]
          constructor
          · intro h
            simp at h
          · rintro ⟨h, _⟩
            omega
        · simp only [hn, if_false]
          have hn1 : 1 + addresses.length ≤ miner_tx.vout.length := by omega
          rw [validate_outputs_iff]
          constructor
          · intro h
            refine ⟨hn1, fun i hi => ?_⟩
            exact (validate_output_iff x miner_tx height addresses shares _ i hsize hn1 hi).mp
              (h i (List.mem_range.mpr hi))
          · rintro ⟨_, h⟩ i hi
            exact (validate_output_iff x miner_tx height addresses shares _ i hsize hn1
              (List.mem_range.mp hi)).mpr (h i (List.mem_range.mp hi))
    · simp [hw]

/-- Witness for C5: with the single recipient `A` holding all 18000 shares and a service node
reward of 1000000, the miner transaction paying 1000000 to the derived key is accepted, the
one paying 999999 is rejected, and the accepted one satisfies the output condition at
index 0. -/
theorem validate_miner_tx_iff_witness :
    (paying_miner_tx 1000000).vout.length < U64 ∧
    (∀ e ∈ one_node_set, e.2.addresses ≠ []) ∧
    validate_miner_tx test_constants test_externals one_node_set null_hash
      (paying_miner_tx 1000000) 101 9 2000000 = some true ∧
    validate_miner_tx test_constants test_externals one_node_set null_hash
      (paying_miner_tx 999999) 101 9 2000000 = some false ∧
    output_pays_recipient test_externals (paying_miner_tx 1000000) 101
      (reward_recipients test_constants one_node_set (select_winner one_node_set null_hash)).1
      (reward_recipients test_constants one_node_set (select_winner one_node_set null_hash)).2
      (test_externals.get_service_node_reward 101 2000000 9) 0 :=
  ⟨by decide, by decide, by decide, by decide,
    (((validate_miner_tx_iff test_constants test_externals one_node_set null_hash
      (paying_miner_tx 1000000) 101 9 2000000 (by decide) (by decide)).2 (by decide)).mp
        (by decide)).2.2 0 (by decide)⟩

/-- C6 (defect): for the empty active set (winner: the null key, one recipient) and a miner
transaction that names the null key and has no output, the size check computes
`0 - 1 = 2^64 - 1`, which is not below 1, and the loop reads `miner_tx.vout` at index
`2^64 - 2`: the call does not return `false`. The same happens for a registered winner. -/
theorem validate_miner_tx_reads_out_of_range :
    (miner_tx_for null_pkey []).extra.service_node_winner = select_winner [] null_hash ∧
    (reward_recipients test_constants [] (select_winner [] null_hash)).1.length = 1 ∧
    (miner_tx_for null_pkey []).vout.length = 0 ∧
    u64_sub (miner_tx_for null_pkey []).vout.length 1 = 18446744073709551615 ∧
    vout_index_of (miner_tx_for null_pkey []).vout.length 1 0 = 18446744073709551614 ∧
    validate_miner_tx test_constants test_externals [] null_hash (miner_tx_for null_pkey [])
      101 9 2000000 = none ∧
    validate_miner_tx test_constants test_externals one_node_set null_hash
      (miner_tx_for (key_of_byte 1) []) 101 9 2000000 = none := by
  refine ⟨by decide, by decide, by decide, by decide, by decide, by decide, by decide⟩

/-! ## Registration payloads -/

/-- C7 (defect): a registration whose payload has two spend keys, two view keys and one share
is accepted by `is_registration_tx` with two addresses and one share; `block_added` stores
that info, and `get_winner_addresses_and_shares` then reads `shares[1]` out of range. -/
theorem registration_accepts_mismatched_lengths :
    is_registration_tx test_constants test_externals (test_chain 10 10) []
        mismatched_registration 10 0 =
      some (some (key_of_byte 1,
        { block_height := 10, transaction_index := 0,
          addresses := [⟨key_of_byte 10, key_of_byte 20⟩, ⟨key_of_byte 11, key_of_byte 21⟩],
          shares := [18000] })) ∧
    (block_added test_constants test_externals (test_chain 10 10) empty_registry
        (test_block 10 null_pkey 1) [mismatched_registration]).map
        (fun s => s.m_service_nodes_infos.map
          (fun e => (e.2.addresses.length, e.2.shares.length))) = some [(2, 1)] ∧
    ((block_added test_constants test_externals (test_chain 10 10) empty_registry
        (test_block 10 null_pkey 1) [mismatched_registration]).bind
        (fun s => get_winner_addresses_and_shares test_constants s.m_service_nodes_infos
          null_hash)) = none := by
  refine ⟨by decide, by decide, by decide⟩

/-! ## Sorted keys -/

/-- C10: for every active set (a map with unique keys), `get_service_node_pubkeys` returns a
list that is strictly increasing in the `memcmp` order of the 32-byte keys, that is a
rearrangement of the keys of the map (so its elements are exactly the registered keys), and
that is the same for every traversal order of the map. -/
theorem get_service_node_pubkeys_sorted (m : infos_map) (hwf : infos_wf m) :
    (get_service_node_pubkeys m).Pairwise (fun a b => memcmp a.data b.data 32 < 0) ∧
    (get_service_node_pubkeys m).Perm (infos_keys m) ∧
    (∀ k, k ∈ get_service_node_pubkeys m ↔ is_service_node m k = true) ∧
    ∀ m' : infos_map, m'.Perm m → get_service_node_pubkeys m' = get_service_node_pubkeys m := by
  refine ⟨?_, sort_pubkeys_perm _, ?_, ?_⟩
  · exact (sort_pubkeys_strict _ hwf).imp (fun h => (pubkey_less_iff _ _).mp h)
  · intro k
    rw [← mem_infos_keys_iff]
    exact (sort_pubkeys_perm _).mem_iff
  · intro m' hp
    exact sort_pubkeys_perm_eq hwf (hp.map Prod.fst)

/-- Witness for C10: the keys `K2, K1` in traversal order come out as `K1, K2`. -/
theorem get_service_node_pubkeys_sorted_witness :
    infos_wf [(key_of_byte 2, info_at 105 0), (key_of_byte 1, info_at 100 0)] ∧
    get_service_node_pubkeys [(key_of_byte 2, info_at 105 0), (key_of_byte 1, info_at 100 0)]
      = [key_of_byte 1, key_of_byte 2] ∧
    (get_service_node_pubkeys
      [(key_of_byte 2, info_at 105 0), (key_of_byte 1, info_at 100 0)]).Pairwise
      (fun a b => memcmp a.data b.data 32 < 0) :=
  ⟨by decide, by decide,
    (get_service_node_pubkeys_sorted
      [(key_of_byte 2, info_at 105 0), (key_of_byte 1, info_at 100 0)] (by decide)).1⟩

/-! ## Quorum derivation -/

/-- C9: for every active set (unique keys, fewer than `2^64` of them), every non-null block
hash and every shuffle that returns a rearrangement of its input (with `QUORUM_SIZE` an
`int`), `store_quorum_state_from_rewards_list` returns and the quorum state it stores under
the height has no key in both `quorum_nodes` and `nodes_to_test`, no key twice in either
vector, and only keys of the active set at the time of the call. -/
theorem quorum_state_disjoint (c : Constants) (x : Externals) (bc : Blockchain)
    (s : service_node_list) (height : Nat)
    (hshuffle : ∀ seed l, (x.shuffle seed l).Perm l)
    (hwf : infos_wf s.m_service_nodes_infos)
    (hN : s.m_service_nodes_infos.length < U64) (hQ : c.QUORUM_SIZE < 2147483648)
    (hhash : bc.get_block_id_by_height height ≠ null_hash) :
    ∃ s' q, store_quorum_state_from_rewards_list c x bc s height = some s' ∧
      get_quorum_state s' height = some q ∧
      (∀ k ∈ q.quorum_nodes, k ∉ q.nodes_to_test) ∧
      q.quorum_nodes.Nodup ∧ q.nodes_to_test.Nodup ∧
      (∀ k ∈ q.quorum_nodes, is_service_node s.m_service_nodes_infos k = true) ∧
      (∀ k ∈ q.nodes_to_test, is_service_node s.m_service_nodes_infos k = true) := by
  have hspec := derive_quorum_state_spec c x s.m_service_nodes_infos
    (bc.get_block_id_by_height height) hshuffle hN hQ
  have hfull : (get_service_node_pubkeys s.m_service_nodes_infos).length =
      s.m_service_nodes_infos.length := by
    rw [get_service_node_pubkeys, (sort_pubkeys_perm _).length_eq, infos_keys, List.length_map]
  have hperm : (x.shuffle (seed_of_hash (bc.get_block_id_by_height height))
      (List.range s.m_service_nodes_infos.length)).Perm
      (List.range (get_service_node_pubkeys s.m_service_nodes_infos).length) := by
    rw [hfull]
    exact hshuffle _ _
  have hnd : (get_service_node_pubkeys s.m_service_nodes_infos).Nodup :=
    (sort_pubkeys_perm _).nodup_iff.mpr hwf
  have hle := nodes_to_test_size_le c s.m_service_nodes_infos.length
  have hall : ((List.range (quorum_size c s.m_service_nodes_infos.length)).map
        (node_at (get_service_node_pubkeys s.m_service_nodes_infos)
          (x.shuffle (seed_of_hash (bc.get_block_id_by_height height))
            (List.range s.m_service_nodes_infos.length))) ++
      (List.range (nodes_to_test_size c s.m_service_nodes_infos.length)).map
        (fun i => node_at (get_service_node_pubkeys s.m_service_nodes_infos)
          (x.shuffle (seed_of_hash (bc.get_block_id_by_height height))
            (List.range s.m_service_nodes_infos.length))
          (quorum_size c s.m_service_nodes_infos.length + i))).Nodup := by
    have hcat : ∀ (f : Nat → public_key) (a b : Nat),
        (List.range a).map f ++ (List.range b).map (fun i => f (a + i)) =
          (List.range (a + b)).map f := by
      intro f a b
      rw [List.range_add, List.map_append, List.map_map]
      rfl
    rw [hcat]
    refine List.Nodup.map_on ?_ (List.nodup_range _)
    intro p hp p' hp' heq
    have h1 := List.mem_range.mp hp
    have h2 := List.mem_range.mp hp'
    exact node_at_injective hnd hperm (by omega) (by omega) heq
  have hmem : ∀ p, p < s.m_service_nodes_infos.length →
      is_service_node s.m_service_nodes_infos
        (node_at (get_service_node_pubkeys s.m_service_nodes_infos)
          (x.shuffle (seed_of_hash (bc.get_block_id_by_height height))
            (List.range s.m_service_nodes_infos.length)) p) = true := by
    intro p hp
    rw [← mem_infos_keys_iff]
    exact (sort_pubkeys_perm _).mem_iff.mp (node_at_mem hperm (by omega))
  rw [List.nodup_append] at hall
  obtain ⟨s', hs', hget⟩ := @store_quorum_state_of_derive c x bc s height _ hhash hspec
  refine ⟨s', _, hs', hget, ?_, hall.1, hall.2.1, ?_, ?_⟩
  · intro k hk hk'
    exact hall.2.2 hk hk'
  · intro k hk
    obtain ⟨p, hp, rfl⟩ := List.mem_map.mp hk
    have := List.mem_range.mp hp
    exact hmem p (by omega)
  · intro k hk
    obtain ⟨i, hi, rfl⟩ := List.mem_map.mp hk
    have := List.mem_range.mp hi
    exact hmem _ (by omega)

/-- Witness for C9: four nodes, quorum size 2, one node to test, the reversing shuffle. The
sorted keys `K1, K2, K3, K4` are read at the shuffled indexes `3, 2, 1, 0`: the quorum is
`K4, K3` and the test set is `K2`. -/
theorem quorum_state_disjoint_witness :
    (store_quorum_state_from_rewards_list small_quorum_constants test_externals
        (test_chain 0 10) four_nodes 10).map (fun s => get_quorum_state s 10) =
      some (some ⟨[key_of_byte 4, key_of_byte 3], [key_of_byte 2]⟩) ∧
    ∃ s' q, store_quorum_state_from_rewards_list small_quorum_constants test_externals
        (test_chain 0 10) four_nodes 10 = some s' ∧
      get_quorum_state s' 10 = some q ∧
      (∀ k ∈ q.quorum_nodes, k ∉ q.nodes_to_test) ∧
      q.quorum_nodes.Nodup ∧ q.nodes_to_test.Nodup ∧
      (∀ k ∈ q.quorum_nodes, is_service_node four_nodes.m_service_nodes_infos k = true) ∧
      (∀ k ∈ q.nodes_to_test, is_service_node four_nodes.m_service_nodes_infos k = true) :=
  ⟨by decide,
    quorum_state_disjoint small_quorum_constants test_externals (test_chain 0 10) four_nodes 10
      (fun _ l => List.reverse_perm l) (by decide) (by decide) (by decide) (by decide)⟩

/-! ## The invariant of the active set -/

/-- C8: in every registry reachable from the empty registry by `block_added`,
`blockchain_detached` and `init` calls, every node info of the active set has a non-empty
address list, a non-empty share list and shares that sum to at most `STAKING_SHARES`; the
winner re-anchor step and the rollback of every `rollback_change` event of the journal give
an active set with the same property. -/
theorem reachable_infos_ok (c : Constants) (x : Externals) (s : service_node_list)
    (h : Reachable c x s) :
    (∀ e ∈ s.m_service_nodes_infos,
      e.2.addresses ≠ [] ∧ e.2.shares ≠ [] ∧ e.2.shares.sum ≤ c.STAKING_SHARES) ∧
    (∀ block_height winner_pubkey,
      ∀ e ∈ (reanchor_winner block_height winner_pubkey
          (s.m_service_nodes_infos, s.m_rollback_events)).1,
        e.2.addresses ≠ [] ∧ e.2.shares ≠ [] ∧ e.2.shares.sum ≤ c.STAKING_SHARES) ∧
    (∀ block_height key info,
      rollback_event.rollback_change block_height key info ∈ s.m_rollback_events →
      ∀ e ∈ ((rollback_event.rollback_change block_height key info).apply
          s.m_service_nodes_infos).2,
        e.2.addresses ≠ [] ∧ e.2.shares ≠ [] ∧ e.2.shares.sum ≤ c.STAKING_SHARES) := by
  have hok := reachable_registry_ok h
  refine ⟨hok.1, ?_, ?_⟩
  · intro block_height winner_pubkey
    exact (reanchor_winner_ok block_height winner_pubkey (_, _) hok).1
  · intro block_height key info hmem
    exact infos_ok_assign hok.1 (hok.2 _ _ _ hmem)

/-- Witness for C8: the registry after the block at height 10 that registers `K` is
reachable, its active set is not empty, and its node info satisfies the invariant. -/
theorem reachable_infos_ok_witness :
    ∃ s1, block_added test_constants test_externals (test_chain 10 10) empty_registry
        (test_block 10 null_pkey 1) [registration_of_K 12] = some s1 ∧
      Reachable test_constants test_externals s1 ∧
      s1.m_service_nodes_infos.map (fun e => (e.2.addresses.length, e.2.shares)) =
        [(2, [6000, 12000])] ∧
      ∀ e ∈ s1.m_service_nodes_infos,
        e.2.addresses ≠ [] ∧ e.2.shares ≠ [] ∧
          e.2.shares.sum ≤ test_constants.STAKING_SHARES := by
  obtain ⟨s1, h1⟩ := Option.isSome_iff_exists.mp
    (show (block_added test_constants test_externals (test_chain 10 10) empty_registry
      (test_block 10 null_pkey 1) [registration_of_K 12]).isSome = true by decide)
  have hr : Reachable test_constants test_externals s1 :=
    Reachable.block_added (test_chain 10 10) empty_registry s1 (test_block 10 null_pkey 1)
      [registration_of_K 12] Reachable.empty (test_chain_wf 10 10) (by decide) h1
  have h2 : (block_added test_constants test_externals (test_chain 10 10) empty_registry
      (test_block 10 null_pkey 1) [registration_of_K 12]).map
      (fun s => s.m_service_nodes_infos.map (fun e => (e.2.addresses.length, e.2.shares))) =
      some [(2, [6000, 12000])] := by decide
  rw [h1] at h2
  exact ⟨s1, h1, hr, by simpa using h2,
    (reachable_infos_ok test_constants test_externals s1 hr).1⟩

/-! ## Duplicate registration -/

/-- C11: let `tx` satisfy every registration condition for `K` (it is accepted as a
registration of `K` against some active set `m'`) and not have the deregister version. In a
state whose active set contains `K`, `is_registration_tx` returns `false` for it and the
iteration of the transaction loop of `block_added` returns the active set and the journal
exactly as they were: no info of `K` is touched and no rollback event is appended. For a block
whose only transaction is `tx` and whose winner is not registered, the active set after
`block_added` is the one before. -/
theorem duplicate_registration_is_noop (c : Constants) (x : Externals) (bc : Blockchain)
    (s : service_node_list) (block_height : Nat) (tx : transaction) (index : Int)
    (st : infos_map × List rollback_event) (m' : infos_map) (K : public_key)
    (info : service_node_info)
    (hvalid : is_registration_tx c x bc m' tx block_height index = some (some (K, info)))
    (hK : is_service_node st.1 K = true)
    (hv : tx.version ≠ version_3_deregister_tx) :
    is_registration_tx c x bc st.1 tx block_height index = some none ∧
    process_tx c x bc s block_height tx index st = some st ∧
    (∀ (b : block) (s' : service_node_list),
      get_block_height b = block_height → index = 0 →
      is_service_node s.m_service_nodes_infos K = true →
      infos_find s.m_service_nodes_infos b.miner_tx.extra.service_node_winner = none →
      block_added c x bc s b [tx] = some s' →
      s'.m_service_nodes_infos = s.m_service_nodes_infos ∧
        ∀ e ∈ s'.m_rollback_events, e ∈ s.m_rollback_events) := by
  obtain ⟨f, hf, _, _, _, hkey, _⟩ := is_registration_tx_accepts hvalid
  have hd : is_deregistration_tx s tx = none := by
    unfold is_deregistration_tx
    rw [if_pos hv]
  have hloop : ∀ st0 : infos_map × List rollback_event, is_service_node st0.1 K = true →
      is_registration_tx c x bc st0.1 tx block_height index = some none ∧
        process_tx c x bc s block_height tx index st0 = some st0 := by
    intro st0 h0
    have hreg : is_registration_tx c x bc st0.1 tx block_height index = some none :=
      is_registration_tx_of_registered hf (by rw [← hkey]; exact h0)
    refine ⟨hreg, ?_⟩
    unfold process_tx
    rw [hreg, hd]
  refine ⟨(hloop st hK).1, (hloop st hK).2, ?_⟩
  intro b s' hb hidx hKs hw hadd
  subst hb hidx
  by_cases hfork : bc.get_hard_fork_version (get_block_height b) < 9
  · unfold block_added block_added_generic at hadd
    simp only [hfork, if_true, Option.some.injEq] at hadd
    subst hadd
    exact ⟨rfl, fun e he => he⟩
  · obtain ⟨st3, hst3, hq⟩ := block_added_generic_steps hfork hadd
    have hre : reanchor_winner (get_block_height b) b.miner_tx.extra.service_node_winner
        (s.m_service_nodes_infos,
          prune_rollback_events c s.m_rollback_events (get_block_height b)) =
        (s.m_service_nodes_infos,
          prune_rollback_events c s.m_rollback_events (get_block_height b)) := by
      unfold reanchor_winner
      simp only [hw]
    rw [hre] at hst3
    unfold process_txs at hst3
    rw [(hloop _ hKs).2] at hst3
    simp only [process_txs, Option.some.injEq] at hst3
    subst hst3
    rw [(cache_quorum_state_frame hq).1, (cache_quorum_state_frame hq).2]
    exact ⟨rfl, fun e he => (List.dropWhile_sublist _).mem he⟩

/-- Witness for C11: `K` is registered by the block at height 10; the block at height 11
carries the same registration again (unlocking at 13) and leaves the active set as it is. -/
theorem duplicate_registration_is_noop_witness :
    is_registration_tx test_constants test_externals (test_chain 10 11) []
        (registration_of_K 13) 11 0 =
      some (some (key_of_byte 1,
        { block_height := 11, transaction_index := 0,
          addresses := [⟨key_of_byte 10, key_of_byte 20⟩, ⟨key_of_byte 11, key_of_byte 21⟩],
          shares := [6000, 12000] })) ∧
    is_service_node one_node_set (key_of_byte 1) = true ∧
    (registration_of_K 13).version ≠ version_3_deregister_tx ∧
    process_tx test_constants test_externals (test_chain 10 11) empty_registry 11
      (registration_of_K 13) 0 (one_node_set, []) = some (one_node_set, []) :=
  ⟨by decide, by decide, by decide,
    (duplicate_registration_is_noop test_constants test_externals (test_chain 10 11)
      empty_registry 11 (registration_of_K 13) 0 (one_node_set, []) [] (key_of_byte 1)
      { block_height := 11, transaction_index := 0,
        addresses := [⟨key_of_byte 10, key_of_byte 20⟩, ⟨key_of_byte 11, key_of_byte 21⟩],
        shares := [6000, 12000] }
      (by decide) (by decide) (by decide)).2.1⟩

/-! ## The hard-fork gate -/

/-- C18: for every block whose height has a hard-fork version below 9, `block_added` returns
the registry it was given: the active set, the rollback journal and the quorum cache are
unchanged, whatever the miner transaction and the transactions contain. -/
theorem block_added_below_fork (c : Constants) (x : Externals) (bc : Blockchain)
    (s : service_node_list) (b : block) (txs : List transaction)
    (h : bc.get_hard_fork_version (get_block_height b) < 9) :
    block_added c x bc s b txs = some s := by
  unfold block_added block_added_generic
  simp only [h, if_true]

/-- Witness for C18: on a chain at hard-fork version 8, a block that names a registered
winner and carries a valid registration leaves the four-node registry as it is. -/
theorem block_added_below_fork_witness :
    pre_fork_chain.get_hard_fork_version (get_block_height (test_block 10 (key_of_byte 1) 1))
      < 9 ∧
    block_added test_constants test_externals pre_fork_chain four_nodes_with_quorum
      (test_block 10 (key_of_byte 1) 1) [registration_of_K 12] = some four_nodes_with_quorum :=
  ⟨by decide, block_added_below_fork _ _ _ _ _ _ (by decide)⟩

/-! ## The deregistration predicate -/

/-- C15: `is_deregistration_tx` returns `true` with `key = nodes_to_test[service_node_index]`
of the quorum cached for the payload's `block_height` exactly when the transaction has the
deregister version, its tx-extra parses into a deregister payload, a quorum state is cached
for that height and the index is below `|nodes_to_test|`; in every other case it returns
`false`, and then the iteration of the transaction loop of `block_added` removes no key. -/
theorem is_deregistration_tx_iff (s : service_node_list) (tx : transaction) :
    (∀ key, is_deregistration_tx s tx = some key ↔
      tx.version = version_3_deregister_tx ∧
      ∃ d q, tx.extra.service_node_deregister = some d ∧
        get_quorum_state s d.block_height = some q ∧
        d.service_node_index < q.nodes_to_test.length ∧
        q.nodes_to_test[d.service_node_index]? = some key) ∧
    (is_deregistration_tx s tx = none ↔
      ¬ (tx.version = version_3_deregister_tx ∧
        ∃ d q, tx.extra.service_node_deregister = some d ∧
          get_quorum_state s d.block_height = some q ∧
          d.service_node_index < q.nodes_to_test.length)) ∧
    (is_deregistration_tx s tx = none →
      ∀ (c : Constants) (x : Externals) (bc : Blockchain) (block_height : Nat) (index : Int)
        (st st' : infos_map × List rollback_event),
        process_tx c x bc s block_height tx index st = some st' →
        ∀ k, is_service_node st.1 k = true → is_service_node st'.1 k = true) := by
  refine ⟨?_, ?_, ?_⟩
  · intro key
    unfold is_deregistration_tx
    by_cases hv : tx.version = version_3_deregister_tx
    · simp only [hv, ne_eq, not_true_eq_false, if_false, true_and]
      cases hd : tx.extra.service_node_deregister with
      | none => simp
      | some d =>
        cases hq : get_quorum_state s d.block_height with
        | none => simp [hq]
        | some q =>
          by_cases hi : d.service_node_index ≥ q.nodes_to_test.length
          · simp only [hi, if_true, hq]
            constructor
            · intro h
              simp at h
            · rintro ⟨d', q', hd', hq', hlt, _⟩
              simp only [Option.some.injEq] at hd'
              subst hd'
              rw [hq] at hq'
              simp only [Option.some.injEq] at hq'
              subst hq'
              omega
          · simp only [hi, if_false, hq]
            constructor
            · intro h
              exact ⟨d, q, rfl, hq, by omega, h⟩
            · rintro ⟨d', q', hd', hq', _, h⟩
              simp only [Option.some.injEq] at hd'
              subst hd'
              rw [hq] at hq'
              simp only [Option.some.injEq] at hq'
              subst hq'
              exact h
    · simp [hv]
  · unfold is_deregistration_tx
    by_cases hv : tx.version = version_3_deregister_tx
    · simp only [hv, ne_eq, not_true_eq_false, if_false, true_and]
      cases hd : tx.extra.service_node_deregister with
      | none => simp
      | some d =>
        cases hq : get_quorum_state s d.block_height with
        | none => simp [hq]
        | some q =>
          by_cases hi : d.service_node_index ≥ q.nodes_to_test.length
          · simp only [hi, if_true, hq, true_iff]
            rintro ⟨d', q', hd', hq', hlt⟩
            simp only [Option.some.injEq] at hd'
            subst hd'
            rw [hq] at hq'
            simp only [Option.some.injEq] at hq'
            subst hq'
            omega
          · simp only [hi, if_false, hq]
            constructor
            · intro h
              have hlt : d.service_node_index < q.nodes_to_test.length := by omega
              rw [List.getElem?_eq_getElem hlt] at h
              simp at h
            · intro h
              exact absurd ⟨d, q, rfl, hq, by omega⟩ h
    · simp [hv]
  · intro hd c x bc block_height index st st' hproc k hk
    exact process_tx_keeps_of_not_deregistration hd hproc hk

/-- Witness for C15: with a quorum cached for height 111 whose test set is `[K1]`, the
deregistration pointing at index 0 of height 111 resolves to `K1`; index 1 and height 112 are
rejected, and the rejected transaction leaves the four nodes registered. -/
theorem is_deregistration_tx_iff_witness :
    is_deregistration_tx four_nodes_with_quorum (deregister_tx 111 0) = some (key_of_byte 1) ∧
    is_deregistration_tx four_nodes_with_quorum (deregister_tx 111 1) = none ∧
    is_deregistration_tx four_nodes_with_quorum (deregister_tx 112 0) = none ∧
    ((deregister_tx 111 0).version = version_3_deregister_tx ∧
      ∃ d q, (deregister_tx 111 0).extra.service_node_deregister = some d ∧
        get_quorum_state four_nodes_with_quorum d.block_height = some q ∧
        d.service_node_index < q.nodes_to_test.length ∧
        q.nodes_to_test[d.service_node_index]? = some (key_of_byte 1)) ∧
    (∀ k, is_service_node four_nodes.m_service_nodes_infos k = true →
      is_service_node four_nodes.m_service_nodes_infos k = true) :=
  ⟨by decide, by decide, by decide,
    ((is_deregistration_tx_iff four_nodes_with_quorum (deregister_tx 111 0)).1
      (key_of_byte 1)).mp (by decide),
    (is_deregistration_tx_iff four_nodes_with_quorum (deregister_tx 111 1)).2.2 (by decide)
      test_constants test_externals (test_chain 0 112) 112 0
      (four_nodes.m_service_nodes_infos, []) (four_nodes.m_service_nodes_infos, [])
      (by decide)⟩

/-! ## Registration round trip -/

/-- C12: starting from an empty active set, let the block at height `h` (hard-fork version at
least 9) contain exactly one transaction, a valid registration of `K` with addresses `[A, B]`
and shares `[s1, s2]`. Then `block_added` returns, `is_service_node(K)` is true, the info of
`K` is `{h, 0, [A, B], [s1, s2]}` and `get_winner_addresses_and_shares` returns exactly
`[(A, s1), (B, s2)]`. (The scan of the historical block by `get_expired_nodes` is assumed to
return, the shuffle to return a rearrangement, and `QUORUM_SIZE` to fit an `int`.) -/
theorem registration_round_trip (c : Constants) (x : Externals) (bc : Blockchain)
    (s : service_node_list) (b : block) (tx : transaction) (K : public_key)
    (info : service_node_info) (A B : account_public_address) (s1 s2 : Nat) (prev_id : hash)
    (hempty : s.m_service_nodes_infos = [])
    (hfork : 9 ≤ bc.get_hard_fork_version (get_block_height b))
    (hheight : get_block_height b < U64)
    (hvalid : is_registration_tx c x bc [] tx (get_block_height b) 0 = some (some (K, info)))
    (haddr : info.addresses = [A, B]) (hshares : info.shares = [s1, s2])
    (hexp : (get_expired_nodes c x bc [] (get_block_height b)).isSome = true)
    (hshuffle : ∀ seed l, (x.shuffle seed l).Perm l) (hQ : c.QUORUM_SIZE < 2147483648) :
    ∃ s', block_added c x bc s b [tx] = some s' ∧
      is_service_node s'.m_service_nodes_infos K = true ∧
      s'.m_service_nodes_infos =
        [(K, { block_height := get_block_height b, transaction_index := 0,
               addresses := [A, B], shares := [s1, s2] })] ∧
      get_winner_addresses_and_shares c s'.m_service_nodes_infos prev_id =
        some [(A, s1), (B, s2)] := by
  obtain ⟨f, hf, hres, _, _, hkey, hinfo⟩ := is_registration_tx_accepts hvalid
  obtain ⟨_, _, _, _, _, _, hnonnull, _⟩ := reg_tx_extract_fields_true hf hres
  have hinfo' : info = ⟨get_block_height b, 0, [A, B], [s1, s2]⟩ := by
    rw [hinfo] at haddr hshares
    simp only at haddr hshares
    rw [hinfo, haddr, hshares]
  have hKnn : K ≠ null_pkey := by rw [hkey]; exact hnonnull
  obtain ⟨expired, hexpired⟩ := Option.isSome_iff_exists.mp hexp
  have hnot : ¬ bc.get_hard_fork_version (get_block_height b) < 9 := by omega
  have hproc : process_txs c x bc s (get_block_height b) [tx] 0
      ([], prune_rollback_events c s.m_rollback_events (get_block_height b)) =
      some ([(K, info)], prune_rollback_events c s.m_rollback_events (get_block_height b) ++
        [rollback_event.rollback_new (get_block_height b) K]) := by
    simp [process_txs, process_tx, hvalid, infos_find, infos_assign]
  obtain ⟨s', hs'⟩ := cache_quorum_state_total c x bc
    { s with m_service_nodes_infos := [(K, info)],
             m_rollback_events :=
               prune_rollback_events c s.m_rollback_events (get_block_height b) ++
                 [rollback_event.rollback_new (get_block_height b) K] }
    (get_block_height b) hshuffle (by simp [U64]) hQ
  have hadd : block_added c x bc s b [tx] = some s' := by
    unfold block_added block_added_generic
    simp only [hnot, if_false, hempty, reanchor_winner, infos_find, hexpired]
    rw [expire_nodes_absent (get_block_height b) expired
      ([], prune_rollback_events c s.m_rollback_events (get_block_height b))
      (fun k _ => rfl), hproc]
    exact hs'
  have hs'infos : s'.m_service_nodes_infos = [(K, info)] := (cache_quorum_state_frame hs').1
  refine ⟨s', hadd, ?_, ?_, ?_⟩
  · rw [hs'infos]
    simp [is_service_node, infos_find]
  · rw [hs'infos, hinfo']
  · rw [hs'infos]
    unfold get_winner_addresses_and_shares
    have hsel : select_winner [(K, info)] prev_id = K :=
      select_winner_single K info prev_id (by rw [hinfo']; exact hheight)
        (by rw [hinfo']; simp [INT_MAX])
    simp only [hsel, hKnn, if_false, infos_find, if_true]
    rw [hinfo']
    rfl

/-- Witness for C12 with `h = 100` and shares `[6000, 12000]`. -/
theorem registration_round_trip_witness :
    ∃ s', block_added test_constants test_externals (test_chain 100 100) empty_registry
        (test_block 100 null_pkey 1) [registration_of_K 102] = some s' ∧
      is_service_node s'.m_service_nodes_infos (key_of_byte 1) = true ∧
      s'.m_service_nodes_infos =
        [(key_of_byte 1, ⟨100, 0,
          [⟨key_of_byte 10, key_of_byte 20⟩, ⟨key_of_byte 11, key_of_byte 21⟩],
          [6000, 12000]⟩)] ∧
      get_winner_addresses_and_shares test_constants s'.m_service_nodes_infos null_hash =
        some [(⟨key_of_byte 10, key_of_byte 20⟩, 6000),
          (⟨key_of_byte 11, key_of_byte 21⟩, 12000)] :=
  registration_round_trip test_constants test_externals (test_chain 100 100) empty_registry
    (test_block 100 null_pkey 1) (registration_of_K 102) (key_of_byte 1)
    ⟨100, 0, [⟨key_of_byte 10, key_of_byte 20⟩, ⟨key_of_byte 11, key_of_byte 21⟩],
      [6000, 12000]⟩
    ⟨key_of_byte 10, key_of_byte 20⟩ ⟨key_of_byte 11, key_of_byte 21⟩ 6000 12000 null_hash
    rfl (by decide) (by decide) (by decide) rfl rfl (by decide)
    (fun _ l => List.reverse_perm l) (by decide)

/-! ## Single-block reorganisation -/

/-- C13: for every registry whose journal holds only events below the height `h` of a block
`B`, `block_added(B)` followed by `blockchain_detached(h)` returns a registry whose active
set equals, as a map from keys to node infos, the one before `block_added`, and whose journal
has no event at height `h` or above. When the keys of the active set are unique, as in an
unordered map, the entries after the round trip are those before it, possibly traversed in
another order. The chain store may differ between the two calls. -/
theorem single_block_reorg (c : Constants) (x : Externals) (bc bc' : Blockchain)
    (s s' : service_node_list) (b : block) (txs : List transaction)
    (hbelow : ∀ e ∈ s.m_rollback_events, e.m_block_height < get_block_height b)
    (hadd : block_added c x bc s b txs = some s') :
    ∃ s'', blockchain_detached c x bc' s' (get_block_height b) = some s'' ∧
      (∀ k, infos_find s''.m_service_nodes_infos k = infos_find s.m_service_nodes_infos k) ∧
      (∀ e ∈ s''.m_rollback_events, e.m_block_height < get_block_height b) ∧
      (infos_wf s.m_service_nodes_infos →
        infos_wf s''.m_service_nodes_infos ∧
          s''.m_service_nodes_infos.Perm s.m_service_nodes_infos) := by
  have hu : ∃ base_events, (∀ e ∈ base_events, e.m_block_height < get_block_height b) ∧
      undoable (get_block_height b) s.m_service_nodes_infos base_events
        (s'.m_service_nodes_infos, s'.m_rollback_events) := by
    by_cases hfork : bc.get_hard_fork_version (get_block_height b) < 9
    · unfold block_added block_added_generic at hadd
      simp only [hfork, if_true, Option.some.injEq] at hadd
      subst hadd
      exact ⟨s.m_rollback_events, hbelow, undoable_base _ _ _ hbelow⟩
    · obtain ⟨st3, hst3, hq⟩ := block_added_generic_steps hfork hadd
      have hpruned : ∀ e ∈ prune_rollback_events c s.m_rollback_events (get_block_height b),
          e.m_block_height < get_block_height b :=
        fun e he => hbelow e ((List.dropWhile_sublist _).mem he)
      refine ⟨_, hpruned, ?_⟩
      rw [(cache_quorum_state_frame hq).1, (cache_quorum_state_frame hq).2]
      exact process_txs_undoable txs _ _ _ hst3
        (reanchor_winner_undoable _ (undoable_base _ _ _ hpruned))
  obtain ⟨base_events, hbase, added, m', hadded, hdetach, hequiv⟩ := hu
  simp only at hadded hdetach
  have hwf : infos_wf s.m_service_nodes_infos → infos_wf m' := by
    intro h
    have h1 := detach_events_wf (get_block_height b) (added.reverse ++ base_events.reverse)
      s'.m_service_nodes_infos (block_added_generic_wf hadd h)
    rw [hdetach] at h1
    exact h1
  refine ⟨{ m_service_nodes_infos := m', m_rollback_events := base_events,
            m_quorum_states := detach_quorum_states (get_block_height b) s'.m_quorum_states },
    ?_, hequiv, hbase, fun h => ⟨hwf h, perm_of_infos_equiv (hwf h) h hequiv⟩⟩
  unfold blockchain_detached
  simp only [hadded, List.reverse_append, hdetach, List.reverse_reverse]
  rfl

/-- Witness for C13: from the empty registry, the block at height 100 registers `K`; after
`blockchain_detached(100)` the active set is empty again and so is the journal. -/
theorem single_block_reorg_witness :
    (block_added test_constants test_externals (test_chain 100 100) empty_registry
        (test_block 100 null_pkey 1) [registration_of_K 102]).map
        (fun s => (s.m_service_nodes_infos.map Prod.fst, s.m_rollback_events)) =
      some ([key_of_byte 1], [rollback_event.rollback_new 100 (key_of_byte 1)]) ∧
    ((block_added test_constants test_externals (test_chain 100 100) empty_registry
        (test_block 100 null_pkey 1) [registration_of_K 102]).bind
      (fun s => blockchain_detached test_constants test_externals (test_chain 100 99) s
        100)).map (fun s => (s.m_service_nodes_infos, s.m_rollback_events)) = some ([], []) ∧
    ∃ s' s'', block_added test_constants test_externals (test_chain 100 100) empty_registry
        (test_block 100 null_pkey 1) [registration_of_K 102] = some s' ∧
      blockchain_detached test_constants test_externals (test_chain 100 99) s'
        (get_block_height (test_block 100 null_pkey 1)) = some s'' ∧
      (∀ k, infos_find s''.m_service_nodes_infos k =
        infos_find empty_registry.m_service_nodes_infos k) ∧
      (∀ e ∈ s''.m_rollback_events,
        e.m_block_height < get_block_height (test_block 100 null_pkey 1)) := by
  refine ⟨by decide, by decide, ?_⟩
  obtain ⟨s', hs'⟩ := Option.isSome_iff_exists.mp
    (show (block_added test_constants test_externals (test_chain 100 100) empty_registry
      (test_block 100 null_pkey 1) [registration_of_K 102]).isSome = true by decide)
  obtain ⟨s'', h1, h2, h3, _⟩ := single_block_reorg test_constants test_externals
    (test_chain 100 100) (test_chain 100 99) empty_registry s' (test_block 100 null_pkey 1)
    [registration_of_K 102] (by decide) hs'
  exact ⟨s', s'', hs', h1, h2, h3⟩

/-! ## Reward recipients -/

/-- C14 (defect): the block that carries a registration with two addresses and one share
leaves the active set `mismatched_set`. On it `select_winner` returns `K`, which is found in
the active set, and `get_winner_addresses_and_shares` reads `shares[1]` of a one-element
vector: it does not return the list of pairs. On the empty active set it returns the null
address with all shares. Same defect as C7. -/
theorem get_winner_addresses_and_shares_reads_out_of_range :
    (block_added test_constants test_externals (test_chain 10 10) empty_registry
        (test_block 10 null_pkey 1) [mismatched_registration]).map
        (fun s => s.m_service_nodes_infos) = some mismatched_set ∧
    select_winner mismatched_set null_hash = key_of_byte 1 ∧
    is_service_node mismatched_set (key_of_byte 1) = true ∧
    (infos_find mismatched_set (key_of_byte 1)).map
        (fun info => (info.addresses.length, info.shares.length)) = some (2, 1) ∧
    get_winner_addresses_and_shares test_constants mismatched_set null_hash = none ∧
    get_winner_addresses_and_shares test_constants [] null_hash =
      some [(null_address, 18000)] := by
  refine ⟨by decide, by decide, by decide, by decide, by decide, by decide⟩

/-! ## Dependence on the traversal order -/

/-- C17 (defect): the two lists hold the same mapping `K1 ↦ (100, 0)`, `K2 ↦ (105, 0)` in
the two traversal orders. `select_winner` returns `K2` on the first and `K1` on the second;
the miner transaction that names `K2` and pays its recipient is valid for the first and
invalid for the second. Same defect as C1. -/
theorem select_winner_depends_on_traversal_order :
    List.Perm [(key_of_byte 1, info_at 100 0), (key_of_byte 2, info_at 105 0)]
      [(key_of_byte 2, info_at 105 0), (key_of_byte 1, info_at 100 0)] ∧
    (∀ k, infos_find [(key_of_byte 1, info_at 100 0), (key_of_byte 2, info_at 105 0)] k =
      infos_find [(key_of_byte 2, info_at 105 0), (key_of_byte 1, info_at 100 0)] k) ∧
    select_winner [(key_of_byte 1, info_at 100 0), (key_of_byte 2, info_at 105 0)] null_hash =
      key_of_byte 2 ∧
    select_winner [(key_of_byte 2, info_at 105 0), (key_of_byte 1, info_at 100 0)] null_hash =
      key_of_byte 1 ∧
    key_of_byte 1 ≠ key_of_byte 2 ∧
    validate_miner_tx test_constants test_externals
      [(key_of_byte 1, info_at 100 0), (key_of_byte 2, info_at 105 0)] null_hash
      miner_tx_for_K2 106 9 2000000 = some true ∧
    validate_miner_tx test_constants test_externals
      [(key_of_byte 2, info_at 105 0), (key_of_byte 1, info_at 100 0)] null_hash
      miner_tx_for_K2 106 9 2000000 = some false := by
  refine ⟨List.Perm.swap _ _ _, ?_, by decide, by decide, by decide, by decide, by decide⟩
  intro k
  by_cases h1 : key_of_byte 1 = k
  · subst h1
    decide
  · by_cases h2 : key_of_byte 2 = k
    · subst h2
      decide
    · simp [infos_find, h1, h2]

/-! ## Journal pruning -/

/-- C20 (defect): the journal holds events at heights 5 and 8 and
`ROLLBACK_EVENT_EXPIRATION_BLOCKS` is 30. At block height 10, below the window, the
threshold `10 - 30` wraps around to `2^64 - 20` and both events are pruned, although none is
older than the window. At block height 37 the threshold is 7 and exactly the event at
height 5 is pruned. Same defect as C3. -/
theorem prune_rollback_events_below_window :
    u64_sub 10 test_constants.ROLLBACK_EVENT_EXPIRATION_BLOCKS = 18446744073709551596 ∧
    prune_rollback_events test_constants two_event_journal 10 = [] ∧
    (block_added test_constants test_externals (test_chain 0 10)
        { four_nodes with m_rollback_events := two_event_journal }
        (test_block 10 null_pkey 0) []).map (fun s => s.m_rollback_events) = some [] ∧
    u64_sub 37 test_constants.ROLLBACK_EVENT_EXPIRATION_BLOCKS = 7 ∧
    prune_rollback_events test_constants two_event_journal 37 =
      [rollback_event.rollback_new 8 (key_of_byte 2)] := by
  refine ⟨by decide, by decide, by decide, by decide, by decide⟩

/-! ## Quorum sizes -/

/-- C19: for every active set of `N` nodes (unique keys are not needed), every non-null block
hash and every shuffle that returns a rearrangement, `store_quorum_state_from_rewards_list`
returns and stores under the height a state whose `quorum_nodes` has length
`min(N, QUORUM_SIZE)` and whose `nodes_to_test` has length
`max(R / NTH_OF_THE_NETWORK_TO_TEST, min(MIN_NODES_TO_TEST, R))` with `R = N - |quorum_nodes|`.
That length is at most `R`, every position `|quorum_nodes| + i` read is below the number of
shuffled indexes, and `quorum_nodes[i]`, `nodes_to_test[i]` are the sorted keys at the indexes
found at the shuffled positions `i` and `|quorum_nodes| + i`. -/
theorem quorum_state_sizes (c : Constants) (x : Externals) (bc : Blockchain)
    (s : service_node_list) (height : Nat)
    (hshuffle : ∀ seed l, (x.shuffle seed l).Perm l)
    (hN : s.m_service_nodes_infos.length < U64) (hQ : c.QUORUM_SIZE < 2147483648)
    (_hNTH : 0 < c.NTH_OF_THE_NETWORK_TO_TEST)
    (hhash : bc.get_block_id_by_height height ≠ null_hash) :
    ∃ s' q, store_quorum_state_from_rewards_list c x bc s height = some s' ∧
      get_quorum_state s' height = some q ∧
      q.quorum_nodes.length = min s.m_service_nodes_infos.length c.QUORUM_SIZE ∧
      q.nodes_to_test.length =
        max ((s.m_service_nodes_infos.length - q.quorum_nodes.length) /
              c.NTH_OF_THE_NETWORK_TO_TEST)
          (min c.MIN_NODES_TO_TEST
            (s.m_service_nodes_infos.length - q.quorum_nodes.length)) ∧
      q.nodes_to_test.length ≤ s.m_service_nodes_infos.length - q.quorum_nodes.length ∧
      (∀ i, i < q.nodes_to_test.length →
        q.quorum_nodes.length + i <
          (x.shuffle (seed_of_hash (bc.get_block_id_by_height height))
            (List.range s.m_service_nodes_infos.length)).length) ∧
      (∀ i, i < q.quorum_nodes.length → ∃ node_index key,
        (x.shuffle (seed_of_hash (bc.get_block_id_by_height height))
          (List.range s.m_service_nodes_infos.length))[i]? = some node_index ∧
        (get_service_node_pubkeys s.m_service_nodes_infos)[node_index]? = some key ∧
        q.quorum_nodes[i]? = some key) ∧
      (∀ i, i < q.nodes_to_test.length → ∃ node_index key,
        (x.shuffle (seed_of_hash (bc.get_block_id_by_height height))
          (List.range s.m_service_nodes_infos.length))[q.quorum_nodes.length + i]? =
            some node_index ∧
        (get_service_node_pubkeys s.m_service_nodes_infos)[node_index]? = some key ∧
        q.nodes_to_test[i]? = some key) := by
  have hspec := derive_quorum_state_spec c x s.m_service_nodes_infos
    (bc.get_block_id_by_height height) hshuffle hN hQ
  have hfull : (get_service_node_pubkeys s.m_service_nodes_infos).length =
      s.m_service_nodes_infos.length := by
    rw [get_service_node_pubkeys, (sort_pubkeys_perm _).length_eq, infos_keys, List.length_map]
  have hperm : (x.shuffle (seed_of_hash (bc.get_block_id_by_height height))
      (List.range s.m_service_nodes_infos.length)).Perm
      (List.range (get_service_node_pubkeys s.m_service_nodes_infos).length) := by
    rw [hfull]
    exact hshuffle _ _
  have hidx : (x.shuffle (seed_of_hash (bc.get_block_id_by_height height))
      (List.range s.m_service_nodes_infos.length)).length = s.m_service_nodes_infos.length := by
    rw [(hshuffle _ _).length_eq, List.length_range]
  have hle := nodes_to_test_size_le c s.m_service_nodes_infos.length
  obtain ⟨s', hs', hget⟩ := @store_quorum_state_of_derive c x bc s height _ hhash hspec
  refine ⟨s', _, hs', hget, ?_, ?_, ?_, ?_, ?_, ?_⟩
  · simp [quorum_size]
  · simp [quorum_size, nodes_to_test_size]
  · simp only [List.length_map, List.length_range]
    omega
  · intro i hi
    simp only [List.length_map, List.length_range] at hi ⊢
    omega
  · intro i hi
    simp only [List.length_map, List.length_range] at hi
    obtain ⟨ni, key, hni, hkey⟩ := @shuffled_reads _ _ hperm i (by omega)
    refine ⟨ni, key, hni, hkey, ?_⟩
    simp only [List.getElem?_map, List.getElem?_range hi, Option.map_some',
      node_at_eq hni hkey]
  · intro i hi
    simp only [List.length_map, List.length_range] at hi ⊢
    obtain ⟨ni, key, hni, hkey⟩ := @shuffled_reads _ _ hperm
      (quorum_size c s.m_service_nodes_infos.length + i) (by omega)
    refine ⟨ni, key, hni, hkey, ?_⟩
    simp only [List.getElem?_map, List.getElem?_range hi, Option.map_some',
      node_at_eq hni hkey]

/-- Witness for C19: four nodes, `QUORUM_SIZE = 2`, `MIN_NODES_TO_TEST = 1`,
`NTH_OF_THE_NETWORK_TO_TEST = 100`: two quorum nodes and `max(2 / 100, min(1, 2)) = 1` node
to test. -/
theorem quorum_state_sizes_witness :
    (store_quorum_state_from_rewards_list small_quorum_constants test_externals
        (test_chain 0 10) four_nodes 10).map
        (fun s => (get_quorum_state s 10).map
          (fun q => (q.quorum_nodes.length, q.nodes_to_test.length))) = some (some (2, 1)) ∧
    ∃ s' q, store_quorum_state_from_rewards_list small_quorum_constants test_externals
        (test_chain 0 10) four_nodes 10 = some s' ∧
      get_quorum_state s' 10 = some q ∧
      q.quorum_nodes.length =
        min four_nodes.m_service_nodes_infos.length small_quorum_constants.QUORUM_SIZE ∧
      q.nodes_to_test.length ≤
        four_nodes.m_service_nodes_infos.length - q.quorum_nodes.length := by
  refine ⟨by decide, ?_⟩
  obtain ⟨s', q, h1, h2, h3, _, h5, _⟩ := quorum_state_sizes small_quorum_constants
    test_externals (test_chain 0 10) four_nodes 10 (fun _ l => List.reverse_perm l)
    (by decide) (by decide) (by decide) (by decide)
  exact ⟨s', q, h1, h2, h3, h5⟩

/-! ## Staking threshold -/

/-- C16 (counterexample): the registration whose two outputs decode to `2^63` each satisfies
every other registration condition at height 10, and the sum of its decoded contributions,
`2^64`, is at least the staking requirement 100; `is_registration_tx` returns `false`,
because the `uint64_t` accumulator wraps around to 0. -/
theorem staking_threshold_overflow_counterexample :
    reg_tx_has_correct_unlock_time test_constants overflowing_registration 10 = true ∧
    (reg_tx_extract_fields overflowing_registration).map
        (fun f => (f.result, f.addresses, f.shares, f.service_node_key)) =
      some (true, recipients_of_K, [6000, 12000], key_of_byte 1) ∧
    shares_total [6000, 12000] ≤ test_constants.STAKING_SHARES ∧
    is_service_node [] (key_of_byte 1) = false ∧
    recipients_of_K.length ≤ overflowing_registration.vout.length ∧
    staked_sum test_externals overflowing_registration recipients_of_K =
      18446744073709551616 ∧
    (test_chain 10 10).get_staking_requirement 10 ≤
      staked_sum test_externals overflowing_registration recipients_of_K ∧
    is_registration_tx test_constants test_externals (test_chain 10 10) []
      overflowing_registration 10 0 = some none ∧
    ¬ (is_registration_tx test_constants test_externals (test_chain 10 10) []
        overflowing_registration 10 0 =
          some (some (key_of_byte 1, ⟨10, 0, recipients_of_K, [6000, 12000]⟩)) ↔
      (test_chain 10 10).get_staking_requirement 10 ≤
        staked_sum test_externals overflowing_registration recipients_of_K) := by
  refine ⟨by decide, by decide, by decide, by decide, by decide, by decide, by decide,
    by decide, by decide⟩

/-- C16 (amended): for every transaction that satisfies the other registration conditions
(unlock time, parsed fields, share sum, key not registered, enough outputs),
`is_registration_tx` returns `true`, with the key and info of the payload, if and only if the
sum of the decoded contributions of the first `|addresses|` outputs, reduced modulo `2^64`
as the `uint64_t` accumulator does, is at least `get_staking_requirement(block_height)`, and
returns `false` otherwise. When the contributions sum to less than `2^64` the threshold is on
the sum itself: a sum equal to the requirement minus 1 is rejected, a sum equal to the
requirement is accepted. -/
theorem staking_threshold (c : Constants) (x : Externals) (bc : Blockchain) (m : infos_map)
    (tx : transaction) (block_height : Nat) (index : Int) (f : reg_fields)
    (hunlock : reg_tx_has_correct_unlock_time c tx block_height = true)
    (hf : reg_tx_extract_fields tx = some f) (hres : f.result = true)
    (htotal : shares_total f.shares ≤ c.STAKING_SHARES)
    (hnot : is_service_node m f.service_node_key = false)
    (hvout : f.addresses.length ≤ tx.vout.length) :
    (is_registration_tx c x bc m tx block_height index =
        some (some (f.service_node_key, ⟨block_height, index, f.addresses, f.shares⟩)) ↔
      bc.get_staking_requirement block_height ≤ staked_sum x tx f.addresses % U64) ∧
    (is_registration_tx c x bc m tx block_height index = some none ↔
      staked_sum x tx f.addresses % U64 < bc.get_staking_requirement block_height) ∧
    (staked_sum x tx f.addresses < U64 →
      (is_registration_tx c x bc m tx block_height index =
          some (some (f.service_node_key, ⟨block_height, index, f.addresses, f.shares⟩)) ↔
        bc.get_staking_requirement block_height ≤ staked_sum x tx f.addresses) ∧
      (staked_sum x tx f.addresses + 1 = bc.get_staking_requirement block_height →
        is_registration_tx c x bc m tx block_height index = some none) ∧
      (staked_sum x tx f.addresses = bc.get_staking_requirement block_height →
        is_registration_tx c x bc m tx block_height index =
          some (some (f.service_node_key, ⟨block_height, index, f.addresses, f.shares⟩)))) := by
  have hstake := staking_transferred_eq x tx (x.get_deterministic_keypair_from_height 1).2
    f.addresses 0 0 (by omega) (by unfold U64; omega)
  simp only [Nat.zero_add] at hstake
  have hnt : ¬ shares_total f.shares > c.STAKING_SHARES := by omega
  have hnv : ¬ tx.vout.length < f.addresses.length := by omega
  have heval : is_registration_tx c x bc m tx block_height index =
      if staked_sum x tx f.addresses % U64 < bc.get_staking_requirement block_height then
        some none
      else some (some (f.service_node_key,
        ⟨block_height, index, f.addresses, f.shares⟩)) := by
    unfold is_registration_tx staked_sum
    simp only [hunlock, hf, hres, hnt, hnot, hnv, hstake, Bool.not_true, Bool.false_eq_true,
      if_false]
  have h1 : is_registration_tx c x bc m tx block_height index =
        some (some (f.service_node_key, ⟨block_height, index, f.addresses, f.shares⟩)) ↔
      bc.get_staking_requirement block_height ≤ staked_sum x tx f.addresses % U64 := by
    rw [heval]
    split
    · constructor
      · intro h
        simp at h
      · intro h
        omega
    · constructor
      · intro _
        omega
      · intro _
        rfl
  have h2 : is_registration_tx c x bc m tx block_height index = some none ↔
      staked_sum x tx f.addresses % U64 < bc.get_staking_requirement block_height := by
    rw [heval]
    split
    · rename_i hlt
      exact ⟨fun _ => hlt, fun _ => rfl⟩
    · rename_i hlt
      constructor
      · intro h
        simp at h
      · intro h
        exact absurd h hlt
  refine ⟨h1, h2, ?_⟩
  intro hsmall
  rw [Nat.mod_eq_of_lt hsmall] at h1 h2
  exact ⟨h1, fun h => h2.mpr (by omega), fun h => h1.mpr (by omega)⟩

/-- Witness for C16: with the staking requirement 100, the registration whose outputs decode
to 60 and 40 is accepted and the one whose outputs decode to 60 and 39 is rejected. -/
theorem staking_threshold_witness :
    staked_sum test_externals (registration_of_K 12) recipients_of_K = 100 ∧
    staked_sum test_externals understaked_registration recipients_of_K = 99 ∧
    is_registration_tx test_constants test_externals (test_chain 10 10) []
        (registration_of_K 12) 10 0 =
      some (some (key_of_byte 1, ⟨10, 0, recipients_of_K, [6000, 12000]⟩)) ∧
    is_registration_tx test_constants test_externals (test_chain 10 10) []
      understaked_registration 10 0 = some none ∧
    (is_registration_tx test_constants test_externals (test_chain 10 10) []
        (registration_of_K 12) 10 0 =
          some (some (key_of_byte 1, ⟨10, 0, recipients_of_K, [6000, 12000]⟩)) ↔
      (test_chain 10 10).get_staking_requirement 10 ≤
        staked_sum test_externals (registration_of_K 12) recipients_of_K % U64) :=
  ⟨by decide, by decide, by decide, by decide,
    (staking_threshold test_constants test_externals (test_chain 10 10) []
      (registration_of_K 12) 10 0
      ⟨true, recipients_of_K, [6000, 12000], key_of_byte 1, key_of_byte 78⟩
      (by decide) (by decide) (by decide) (by decide) (by decide) (by decide)).1⟩


/-! ## The null key is never registered -/

/-- C24: in every registry reachable from the empty registry by `block_added`,
`blockchain_detached` and `init`, the null key is not a service node. Hence `select_winner`
returns the null key exactly when no entry of the active set passes the comparison of its
loop (no node is eligible); a winner other than the null key is a key of the active set; the
lookup `m_service_nodes_infos.at(winner)` of `validate_miner_tx` never throws; and the lookup
of `get_winner_addresses_and_shares` finds the info of the winner. -/
theorem null_key_never_registered (c : Constants) (x : Externals) (s : service_node_list)
    (h : Reachable c x s) (prev_id : hash) :
    is_service_node s.m_service_nodes_infos null_pkey = false ∧
    (select_winner s.m_service_nodes_infos prev_id = null_pkey ↔
      ∀ e ∈ s.m_service_nodes_infos,
        pair_lt (e.2.block_height, e.2.transaction_index) (UINT64_MAX, INT_MAX) = false) ∧
    (select_winner s.m_service_nodes_infos prev_id ≠ null_pkey →
      is_service_node s.m_service_nodes_infos
        (select_winner s.m_service_nodes_infos prev_id) = true) ∧
    winner_recipients c s.m_service_nodes_infos
      (select_winner s.m_service_nodes_infos prev_id) ≠ none ∧
    (select_winner s.m_service_nodes_infos prev_id ≠ null_pkey →
      ∃ info, infos_find s.m_service_nodes_infos
          (select_winner s.m_service_nodes_infos prev_id) = some info ∧
        get_winner_addresses_and_shares c s.m_service_nodes_infos prev_id =
          winner_pairs info.addresses info.shares) := by
  have hnn := (reachable_no_null h).1
  have hfound : select_winner s.m_service_nodes_infos prev_id ≠ null_pkey →
      (infos_find s.m_service_nodes_infos
        (select_winner s.m_service_nodes_infos prev_id)).isSome = true := by
    intro hne
    rcases select_winner_null_or_found s.m_service_nodes_infos prev_id with h0 | h0
    · exact absurd h0 hne
    · exact h0
  refine ⟨hnn, ⟨?_, ?_⟩, hfound, ?_, ?_⟩
  · intro hnull e he
    by_contra hp
    have hp' : pair_lt (e.2.block_height, e.2.transaction_index) (UINT64_MAX, INT_MAX) = true := by
      simpa using hp
    obtain ⟨info, hmem⟩ := select_winner_loop_some_eligible (UINT64_MAX, INT_MAX)
      s.m_service_nodes_infos null_pkey ⟨e, he, hp'⟩
    have hsel : select_winner_loop (UINT64_MAX, INT_MAX) s.m_service_nodes_infos null_pkey =
        null_pkey := hnull
    rw [hsel] at hmem
    have := infos_find_isSome_of_mem hmem
    simp only [is_service_node] at hnn
    rw [hnn] at this
    exact absurd this (by simp)
  · intro hall
    exact select_winner_loop_none_eligible _ _ _ hall
  · rw [winner_recipients_eq]
    simp
  · intro hne
    obtain ⟨info, hinfo⟩ := Option.isSome_iff_exists.mp (hfound hne)
    refine ⟨info, hinfo, ?_⟩
    simp only [get_winner_addresses_and_shares, hne, if_false, hinfo]

/-- Witness for C24: the registry after the block at height 10 that registers `K` is
reachable; the null key is not registered in it and the winner selected is `K`. -/
theorem null_key_never_registered_witness :
    ∃ s1, block_added test_constants test_externals (test_chain 10 10) empty_registry
        (test_block 10 null_pkey 1) [registration_of_K 12] = some s1 ∧
      Reachable test_constants test_externals s1 ∧
      select_winner s1.m_service_nodes_infos null_hash = key_of_byte 1 ∧
      is_service_node s1.m_service_nodes_infos null_pkey = false := by
  obtain ⟨s1, h1⟩ := Option.isSome_iff_exists.mp
    (show (block_added test_constants test_externals (test_chain 10 10) empty_registry
      (test_block 10 null_pkey 1) [registration_of_K 12]).isSome = true by decide)
  have hr : Reachable test_constants test_externals s1 :=
    Reachable.block_added (test_chain 10 10) empty_registry s1 (test_block 10 null_pkey 1)
      [registration_of_K 12] Reachable.empty (test_chain_wf 10 10) (by decide) h1
  have h2 : (block_added test_constants test_externals (test_chain 10 10) empty_registry
      (test_block 10 null_pkey 1) [registration_of_K 12]).map
      (fun s => select_winner s.m_service_nodes_infos null_hash) =
      some (key_of_byte 1) := by decide
  rw [h1] at h2
  exact ⟨s1, h1, hr, by simpa using h2,
    (null_key_never_registered test_constants test_externals s1 hr null_hash).1⟩


/-! ## The quorum step of block ingest -/

/-- C22 (counterexample): the quorum step gates and prunes on the height the chain store
reports, not on the height of the block. With a reported height of 201 and a lifetime of 60,
the block at height 10 (fork version 9, non-null hash) leaves `get_quorum_state(10)` empty.
With a reported height of 50, the block at height 100 is cached and the entry at height 1,
older than `100 - 60`, stays in the cache. -/
theorem quorum_not_cached_counterexample :
    ¬ (test_chain 0 200).get_hard_fork_version 10 < 9 ∧
    (test_chain 0 200).get_block_id_by_height 10 ≠ null_hash ∧
    (block_added test_constants test_externals (test_chain 0 200) empty_registry
      (test_block 10 null_pkey 0) []).map (fun s => get_quorum_state s 10) = some none ∧
    (block_added test_constants test_externals (test_chain 0 49) one_cached_quorum
      (test_block 100 null_pkey 0) []).map (fun s => s.m_quorum_states.map Prod.fst) =
      some [1, 100] := by
  decide

/-- C22 (amended): for a block at height `h` with fork version at least 9 and a non-null block
hash, and a quorum cache in ascending order, let `from` be the local
`cache_state_from_height`: `0` when the reported chain height is below
`DEREGISTER_LIFETIME_BY_HEIGHT`, else the reported height minus that lifetime. After
`block_added` returns: when `from ≤ h`, `get_quorum_state(h)` holds the quorum derived from
the active set as it is after the transactions of the block, and the cache holds no entry
below `from`; when `h < from`, the cache is left as it was. In particular, when the reported
height `H` satisfies `h ≤ H ≤ h + DEREGISTER_LIFETIME_BY_HEIGHT` (and fits `uint64_t`),
`get_quorum_state(h)` is present and the cache holds no entry older than
`h - DEREGISTER_LIFETIME_BY_HEIGHT`. -/
theorem quorum_cached_within_lifetime (c : Constants) (x : Externals) (bc : Blockchain)
    (s s' : service_node_list) (b : block) (txs : List transaction)
    (hf : ¬ bc.get_hard_fork_version (get_block_height b) < 9)
    (hhash : bc.get_block_id_by_height (get_block_height b) ≠ null_hash)
    (hsorted : quorum_sorted s.m_quorum_states)
    (hstep : block_added c x bc s b txs = some s') :
    (cache_state_from_height c bc ≤ get_block_height b →
      (∃ q, derive_quorum_state c x s'.m_service_nodes_infos
          (bc.get_block_id_by_height (get_block_height b)) = some q ∧
        get_quorum_state s' (get_block_height b) = some q) ∧
      ∀ e ∈ s'.m_quorum_states, cache_state_from_height c bc ≤ e.1) ∧
    (get_block_height b < cache_state_from_height c bc →
      s'.m_quorum_states = s.m_quorum_states) ∧
    (get_block_height b ≤ bc.get_current_blockchain_height →
      bc.get_current_blockchain_height ≤ get_block_height b + c.DEREGISTER_LIFETIME_BY_HEIGHT →
      bc.get_current_blockchain_height < U64 →
      get_quorum_state s' (get_block_height b) ≠ none ∧
      ∀ e ∈ s'.m_quorum_states,
        get_block_height b - c.DEREGISTER_LIFETIME_BY_HEIGHT ≤ e.1) := by
  obtain ⟨st3, _, hq⟩ := block_added_generic_steps hf hstep
  have hinfos := (cache_quorum_state_frame hq).1
  simp only at hinfos
  have hgate : cache_state_from_height c bc ≤ get_block_height b →
      (∃ q, derive_quorum_state c x s'.m_service_nodes_infos
          (bc.get_block_id_by_height (get_block_height b)) = some q ∧
        get_quorum_state s' (get_block_height b) = some q) ∧
      ∀ e ∈ s'.m_quorum_states, cache_state_from_height c bc ≤ e.1 := by
    intro hge
    rw [hinfos]
    unfold cache_quorum_state at hq
    simp only [ge_iff_le, hge, if_true] at hq
    split at hq
    · simp at hq
    · rename_i s1 hs1
      simp only [Option.some.injEq] at hq
      subst hq
      unfold store_quorum_state_from_rewards_list at hs1
      simp only [hhash, if_false] at hs1
      split at hs1
      · simp at hs1
      · rename_i state hstate
        simp only [Option.some.injEq] at hs1
        subst hs1
        refine ⟨⟨state, hstate, ?_⟩, ?_⟩
        · simp only [get_quorum_state]
          rw [quorum_find_dropWhile _ _ hge, quorum_find_assign]
        · exact dropWhile_sorted_ge _ _ (quorum_assign_sorted _ _ hsorted)
  refine ⟨hgate, ?_, ?_⟩
  · intro hlt
    unfold cache_quorum_state at hq
    simp only [ge_iff_le, Nat.not_le.mpr hlt, if_false, Option.some.injEq] at hq
    subst hq
    rfl
  · intro hlo hhi hH
    have hfrom : cache_state_from_height c bc =
        bc.get_current_blockchain_height - c.DEREGISTER_LIFETIME_BY_HEIGHT := by
      unfold cache_state_from_height
      simp only
      split
      · omega
      · rename_i hnlt
        unfold u64_sub
        have h1 : c.DEREGISTER_LIFETIME_BY_HEIGHT < U64 := by omega
        rw [Nat.mod_eq_of_lt hH, Nat.mod_eq_of_lt h1]
        have h2 : bc.get_current_blockchain_height + (U64 - c.DEREGISTER_LIFETIME_BY_HEIGHT) =
            (bc.get_current_blockchain_height - c.DEREGISTER_LIFETIME_BY_HEIGHT) + U64 := by
          omega
        rw [h2, Nat.add_mod_right]
        exact Nat.mod_eq_of_lt (by omega)
    obtain ⟨⟨q, _, hq1⟩, hall⟩ := hgate (by rw [hfrom]; omega)
    refine ⟨by rw [hq1]; simp, ?_⟩
    intro e he
    have := hall e he
    rw [hfrom] at this
    omega

/-- Witness for C22: the block at height 10 that registers `K`, arriving when the chain store
reports height 11, caches the quorum of height 10 derived from the active set holding `K`. -/
theorem quorum_cached_within_lifetime_witness :
    ∃ s1, block_added test_constants test_externals (test_chain 10 10) empty_registry
        (test_block 10 null_pkey 1) [registration_of_K 12] = some s1 ∧
      (get_quorum_state s1 10).map (fun q => q.quorum_nodes) = some [key_of_byte 1] ∧
      get_quorum_state s1 10 ≠ none ∧
      ∀ e ∈ s1.m_quorum_states,
        get_block_height (test_block 10 null_pkey 1) -
          test_constants.DEREGISTER_LIFETIME_BY_HEIGHT ≤ e.1 := by
  obtain ⟨s1, h1⟩ := Option.isSome_iff_exists.mp
    (show (block_added test_constants test_externals (test_chain 10 10) empty_registry
      (test_block 10 null_pkey 1) [registration_of_K 12]).isSome = true by decide)
  have h2 : (block_added test_constants test_externals (test_chain 10 10) empty_registry
      (test_block 10 null_pkey 1) [registration_of_K 12]).map
      (fun s => (get_quorum_state s 10).map (fun q => q.quorum_nodes)) =
      some (some [key_of_byte 1]) := by decide
  rw [h1] at h2
  have h3 := (quorum_cached_within_lifetime test_constants test_externals (test_chain 10 10)
    empty_registry s1 (test_block 10 null_pkey 1) [registration_of_K 12] (by decide)
    (by decide) (by simp [quorum_sorted, empty_registry]) h1).2.2 (by decide) (by decide)
    (by decide)
  exact ⟨s1, h1, by simpa using h2, h3.1, h3.2⟩


/-! ## The quorum cache after a detach -/

/-- C21: for every reachable registry, after `blockchain_detached(height)` returns the quorum
cache holds no entry at a height at or above `height`. When the first loop does not stop at a
`prevent_rollback` event, `blockchain_detached` returns, the cache afterwards is exactly the
entries below `height` of the cache before, in their order, and `get_quorum_state` answers
for every height below `height` as it did before. -/
theorem quorum_cache_after_detach (c : Constants) (x : Externals) (bc : Blockchain)
    (s : service_node_list) (height : Nat) (hr : Reachable c x s) :
    (∀ s', blockchain_detached c x bc s height = some s' →
      ∀ e ∈ s'.m_quorum_states, e.1 < height) ∧
    (barrier_reached height s = false →
      ∃ s', blockchain_detached c x bc s height = some s' ∧
        s'.m_quorum_states =
          s.m_quorum_states.filter (fun e => decide (e.1 < height)) ∧
        ∀ k, k < height → get_quorum_state s' k = get_quorum_state s k) := by
  have hsorted := reachable_quorum_sorted hr
  refine ⟨fun s' hstep => (blockchain_detached_sorted hstep hsorted).2, ?_⟩
  intro hnb
  have hflag : (detach_events height s.m_rollback_events.reverse
      s.m_service_nodes_infos).2.2 = false := by
    cases hf : (detach_events height s.m_rollback_events.reverse
      s.m_service_nodes_infos).2.2 with
    | false => rfl
    | true =>
      rw [barrier_reached_of_flag (reachable_consistent hr) hf] at hnb
      exact absurd hnb (by simp)
  have hret : blockchain_detached c x bc s height =
      some ⟨(detach_events height s.m_rollback_events.reverse s.m_service_nodes_infos).2.1,
        (detach_events height s.m_rollback_events.reverse s.m_service_nodes_infos).1.reverse,
        detach_quorum_states height s.m_quorum_states⟩ := by
    simp only [blockchain_detached, hflag, Bool.false_eq_true, if_false]
  refine ⟨_, hret, ?_, ?_⟩
  · exact detach_quorum_states_eq_filter height hsorted
  · intro k hk
    exact quorum_find_detach height k hk _

/-- Witness for C21: after the blocks at heights 10 and 11 the cache holds the quorums of both
heights; `blockchain_detached(11)` reaches no `prevent_rollback` event, keeps the entry of
height 10 and leaves no entry at height 11 or above. -/
theorem quorum_cache_after_detach_witness :
    ∃ s2, block_added_seq test_constants test_externals [test_step 10 10, test_step 10 11]
        empty_registry = some s2 ∧
      s2.m_quorum_states.map Prod.fst = [10, 11] ∧
      barrier_reached 11 s2 = false ∧
      ∃ s3, blockchain_detached test_constants test_externals (test_chain 10 10) s2 11 =
          some s3 ∧
        s3.m_quorum_states = s2.m_quorum_states.filter (fun e => decide (e.1 < 11)) ∧
        (∀ k, k < 11 → get_quorum_state s3 k = get_quorum_state s2 k) ∧
        ∀ e ∈ s3.m_quorum_states, e.1 < 11 := by
  obtain ⟨s2, h2⟩ := Option.isSome_iff_exists.mp
    (show (block_added_seq test_constants test_externals [test_step 10 10, test_step 10 11]
      empty_registry).isSome = true by decide)
  have hr : Reachable test_constants test_externals s2 :=
    block_added_seq_reachable _ _ _ Reachable.empty
      (fun st hst => by
        simp only [List.mem_cons, List.mem_singleton, List.not_mem_nil, or_false] at hst
        rcases hst with rfl | rfl
        · exact ⟨test_chain_wf 10 10, by decide⟩
        · exact ⟨test_chain_wf 10 11, by decide⟩) h2
  have hq : (block_added_seq test_constants test_externals [test_step 10 10, test_step 10 11]
      empty_registry).map (fun s => s.m_quorum_states.map Prod.fst) = some [10, 11] := by
    decide
  have hb : (block_added_seq test_constants test_externals [test_step 10 10, test_step 10 11]
      empty_registry).map (fun s => barrier_reached 11 s) = some false := by
    decide
  rw [h2] at hq hb
  simp only [Option.map_some', Option.some.injEq] at hq hb
  have h := quorum_cache_after_detach test_constants test_externals (test_chain 10 10) s2 11 hr
  obtain ⟨s3, h3, hfilter, hframe⟩ := h.2 hb
  exact ⟨s2, h2, hq, hb, s3, h3, hfilter, hframe, h.1 s3 h3⟩


/-! ## The order of the rollback journal -/

end service_nodes
